import Mathlib

/-!
# http-log-monitor: a verification development

A shallow embedding of the reorder buffer (`reader.go`), the traffic monitor
(`monitor.go`) and the stats tracker (`stats.go`), followed by theorems about them.

Conventions of the embedding:
* The Go types `int` and `int64` are modelled as `Int`, `int` being taken as 64 bits wide.
  Where one call can take a sum, a difference or a product out of the 64-bit range (the
  threshold of `NewMonitor`, the report boundary of `Stats.Sync` and `Stats.Tick`, the
  variable `tick` of `Player.Play`, the countdown of `Stats.TopK` from a negative `k`) the
  result is wrapped by `wrapInt64`. The counters that grow by one per hit (`tickHits`,
  `totalHits`, the counts of `Stats`) are exact, as it takes `2^63` hits to take them out
  of range.
* Output sent on a channel or through the `sendAlert` / `sendStats` hooks is modelled as a
  list of values returned next to the new state.
* A Go panic is modelled as `none`, and so is a loop that never exits.
-/

namespace HttpLogMonitor

/-! ## Machine integers -/

/-- The least value of the Go type `int64`. -/
def minInt64 : Int := -9223372036854775808

/-- The greatest value of the Go type `int64`. -/
def maxInt64 : Int := 9223372036854775807

/-- The result of Go's `+`, `-` and `*` on `int64` where exact arithmetic gives `x`: the
value of `x` in 64-bit two's complement, between `minInt64` and `maxInt64`. -/
def wrapInt64 (x : Int) : Int :=
  (x + 9223372036854775808) % 18446744073709551616 - 9223372036854775808

/-! ## reader.go -/

/-- The constant `defaultPriorityQueueSize` of `reader.go`. -/
def defaultPriorityQueueSize : Nat := 50

/-- The struct `LogModel` of `reader.go` (`section` is a Lean keyword, hence `section_`). -/
structure LogModel where
  remoteHost : String
  authServer : String
  authUser : String
  date : Int
  status : Int
  bytes : Int
  request : String
  method : String
  endpoint : String
  section_ : String
  protocol : String
  deriving DecidableEq, Repr

/-- Modelled from the spec: `LogItem` (declared in `priority_queue.go`, which is not among
the sources). An entry of the priority queue: a record and its priority, the timestamp. -/
structure LogItem where
  value : LogModel
  priority : Int
  deriving DecidableEq, Repr

/-- Modelled from the spec: `PriorityQueue` (declared in `priority_queue.go`, which is not
among the sources). "A bounded min-priority collection keyed by timestamp"; the held items
are listed in insertion order. -/
abbrev PriorityQueue := List LogItem

/-- Modelled from the spec: `PriorityQueue.Len`, the number of held items. -/
def PriorityQueue.Len (pq : PriorityQueue) : Nat := pq.length

/-- Modelled from the spec: `heap.Push` on a `PriorityQueue`: the item joins the
collection. -/
def PriorityQueue.Push (pq : PriorityQueue) (item : LogItem) : PriorityQueue := pq ++ [item]

/-- Modelled from the spec: the item `heap.Pop` is about to return, "the minimum-timestamp
record currently held (ties broken arbitrarily but deterministically, e.g. insertion
order)": the earliest inserted item among those of least priority. -/
def PriorityQueue.front : PriorityQueue → Option LogItem
  | [] => none
  | item :: rest =>
    match PriorityQueue.front rest with
    | none => some item
    | some other => if other.priority < item.priority then some other else some item

/-- Modelled from the spec: `heap.Pop` on a `PriorityQueue`: removes and returns the
minimum-priority item; `none` on an empty queue (the Go call panics). -/
def PriorityQueue.Pop (pq : PriorityQueue) : Option (LogItem × PriorityQueue) :=
  match PriorityQueue.front pq with
  | none => none
  | some item => some (item, List.erase pq item)

/-- The local state of `Reader.Process`: the priority queue and what has been sent on
`out` so far. -/
structure ProcessState where
  queue : PriorityQueue
  out : List LogModel
  deriving DecidableEq, Repr

/-- The inner `for` of `Reader.Process` (reader.go:75-82): while the queue holds at least
`W` items, pop the front item and send its record. `W` stands for
`defaultPriorityQueueSize`. The first argument bounds the number of iterations. -/
def Reader.sendWhileFull (W : Nat) : Nat → ProcessState → Option ProcessState
  | 0, _ => none
  | fuel + 1, st =>
    if st.queue.Len < W then some st
    else
      match st.queue.Pop with
      | none => none
      | some (entry, queue) => Reader.sendWhileFull W fuel ⟨queue, st.out ++ [entry.value]⟩

/-- One iteration of the outer `for` of `Reader.Process` in which the receive succeeds
(`ok = true`) with a log line, already decoded by `parseLog` into `logModel`
(reader.go:74-91). -/
def Reader.receive (W : Nat) (st : ProcessState) (logModel : LogModel) : Option ProcessState :=
  match Reader.sendWhileFull W (st.queue.Len + 1) st with
  | none => none
  | some st1 => some ⟨st1.queue.Push ⟨logModel, logModel.date⟩, st1.out⟩

/-- The iterations of `Reader.Process` that receive the log lines `lines`, in order. -/
def Reader.feed (W : Nat) : List LogModel → ProcessState → Option ProcessState
  | [], st => some st
  | logModel :: rest, st =>
    match Reader.receive W st logModel with
    | none => none
    | some st1 => Reader.feed W rest st1

/-- The iterations of `Reader.Process` after the read buffer is closed (`ok = false`,
reader.go:74-100): the inner loop, then one more pop while the queue is not empty, until
`out` is closed. The result is everything sent on `out`. The first argument bounds the
number of iterations. -/
def Reader.drain (W : Nat) : Nat → ProcessState → Option (List LogModel)
  | 0, _ => none
  | fuel + 1, st =>
    match Reader.sendWhileFull W (st.queue.Len + 1) st with
    | none => none
    | some st1 =>
      if st1.queue.Len > 0 then
        match st1.queue.Pop with
        | none => none
        | some (entry, queue) => Reader.drain W fuel ⟨queue, st1.out ++ [entry.value]⟩
      else some st1.out

/-- The method `Reader.Process` (reader.go:67-102) run on the decoded log lines `lines`
that follow the header line (the header iteration finds the queue empty and pushes
nothing): the sequence of records sent on `out` before it is closed. -/
def Reader.Process (W : Nat) (lines : List LogModel) : Option (List LogModel) :=
  match Reader.feed W lines ⟨[], []⟩ with
  | none => none
  | some st => Reader.drain W (st.queue.Len + 1) st

/-- A record carrying only a timestamp, as built in `priority_queue_test.go`. -/
def LogModel.ofDate (date : Int) : LogModel :=
  ⟨"", "", "", date, 0, 0, "", "", "", "", ""⟩

/-- The input assumption of the reorder buffer: some arrangement `σ` of the records, sorted
by timestamp, places every record at most `W - 1` positions away from its arrival
position. `σ i` is the arrival position of the record at position `i` of the sorted
arrangement. -/
def BoundedDisorder (W : Nat) (lines : List LogModel) : Prop :=
  ∃ σ : Equiv.Perm (Fin lines.length),
    (∀ i j : Fin lines.length, i ≤ j → (lines.get (σ i)).date ≤ (lines.get (σ j)).date) ∧
    ∀ i : Fin lines.length, (σ i : Nat) + 1 ≤ (i : Nat) + W ∧ (i : Nat) + 1 ≤ (σ i : Nat) + W

/-- Timestamps never decrease along the list. -/
def NonDecreasing (out : List LogModel) : Prop :=
  List.Pairwise (fun a b : LogModel => a.date ≤ b.date) out

/-! ## monitor.go -/

/-- The type `AlertState` of `monitor.go` with its two constants. -/
inductive AlertState where
  | AlertNone
  | AlertTraffic
  deriving DecidableEq, Repr

/-- The struct `Monitor` of `monitor.go`; `queue` lists the `list.List` from front to
back. -/
structure Monitor where
  queue : List Int
  capacity : Int
  tickHits : Int
  totalHits : Int
  threshold : Int
  alert : AlertState
  tick : Int
  deriving DecidableEq, Repr

/-- The arguments of one call of `sendAlert`. -/
structure AlertReport where
  alert : AlertState
  hits : Int
  alertTime : Int
  deriving DecidableEq, Repr

/-- The function `NewMonitor` (monitor.go:34-42). -/
def NewMonitor (rps : Int) (window : Int) : Monitor :=
  { queue := [], capacity := window, tickHits := 0, totalHits := 0,
    threshold := wrapInt64 (rps * window), alert := AlertState.AlertNone, tick := 0 }

/-- The method `Monitor.Sync` (monitor.go:44-47). -/
def Monitor.Sync (m : Monitor) (t : Int) : Monitor :=
  { m with tick := t }

/-- The method `Monitor.Hit` (monitor.go:49-52). -/
def Monitor.Hit (m : Monitor) : Monitor :=
  { m with tickHits := m.tickHits + 1 }

/-- The method `Monitor.checkAlerts` (monitor.go:70-80), with the calls of `sendAlert` it
makes. -/
def Monitor.checkAlerts (m : Monitor) : Monitor × List AlertReport :=
  if m.totalHits ≥ m.threshold ∧ m.alert ≠ AlertState.AlertTraffic then
    let m1 : Monitor := { m with alert := AlertState.AlertTraffic }
    (m1, [⟨m1.alert, m1.totalHits, m1.tick⟩])
  else if m.totalHits < m.threshold ∧ m.alert = AlertState.AlertTraffic then
    let m1 : Monitor := { m with alert := AlertState.AlertNone }
    (m1, [⟨m1.alert, m1.totalHits, m1.tick⟩])
  else
    (m, [])

/-- The first statement of `Monitor.Tick` (monitor.go:57-61): when the queue length equals
the capacity, the front entry is subtracted from `totalHits` and removed. On an empty
queue `Front()` is nil and reading `front.Value` panics. -/
def Monitor.evict (m : Monitor) : Option Monitor :=
  if (m.queue.length : Int) = m.capacity then
    match m.queue with
    | [] => none
    | front :: rest => some { m with totalHits := m.totalHits - front, queue := rest }
  else some m

/-- The rest of `Monitor.Tick` before `checkAlerts` (monitor.go:63-66). -/
def Monitor.pushTick (m : Monitor) (t : Int) : Monitor :=
  { m with tick := t, queue := m.queue ++ [m.tickHits],
           totalHits := m.totalHits + m.tickHits, tickHits := 0 }

/-- The method `Monitor.Tick` (monitor.go:54-68), with the calls of `sendAlert` it makes. -/
def Monitor.Tick (m : Monitor) (t : Int) : Option (Monitor × List AlertReport) :=
  match m.evict with
  | none => none
  | some m1 => some (m1.pushTick t).checkAlerts

/-- A call of one of the exported methods of `Monitor`. -/
inductive MonitorCall where
  | Sync (t : Int)
  | Hit
  | Tick (t : Int)
  deriving DecidableEq, Repr

/-- Performs one call on a monitor. -/
def Monitor.call (m : Monitor) : MonitorCall → Option (Monitor × List AlertReport)
  | MonitorCall.Sync t => some (m.Sync t, [])
  | MonitorCall.Hit => some (m.Hit, [])
  | MonitorCall.Tick t => m.Tick t

/-- Performs a sequence of calls on a monitor, collecting the reports in order. -/
def Monitor.run (m : Monitor) : List MonitorCall → Option (Monitor × List AlertReport)
  | [] => some (m, [])
  | c :: rest =>
    match m.call c with
    | none => none
    | some (m1, out1) =>
      match Monitor.run m1 rest with
      | none => none
      | some (m2, out2) => some (m2, out1 ++ out2)

/-- The calls made for one second with `h` hits that is closed by `Tick t`. -/
def secondCalls (e : Nat × Int) : List MonitorCall :=
  List.replicate e.1 MonitorCall.Hit ++ [MonitorCall.Tick e.2]

/-- The calls made for a sequence of seconds, each given by its hit count and the tick
value that closes it. -/
def trafficCalls (seconds : List (Nat × Int)) : List MonitorCall :=
  seconds.flatMap secondCalls

/-- Specification side: `S_k`, the sum of the last `min k N` of the first `k` counts. -/
def windowSum (N : Nat) (counts : List Nat) (k : Nat) : Int :=
  (((counts.take k).drop (k - min k N)).sum : Nat)

/-- Specification side: whether the window is at or above the threshold after the `k`-th
tick; before the first tick the state is taken as Normal. -/
def alertingAt (threshold : Int) (N : Nat) (counts : List Nat) : Nat → Bool
  | 0 => false
  | k + 1 => decide (threshold ≤ windowSum N counts (k + 1))

/-- Specification side: the report expected at the `k`-th tick (`k ≥ 1`): one report when
the comparison with the threshold changed, carrying `S_k` and the tick value. -/
def expectedReportAt (threshold : Int) (N : Nat) (seconds : List (Nat × Int)) (k : Nat) :
    List AlertReport :=
  let counts := seconds.map Prod.fst
  if alertingAt threshold N counts k = alertingAt threshold N counts (k - 1) then []
  else
    [⟨if alertingAt threshold N counts k then AlertState.AlertTraffic
        else AlertState.AlertNone,
      windowSum N counts k, ((seconds.map Prod.snd).getD (k - 1) 0)⟩]

/-- Specification side: the reports expected over the whole sequence of seconds. -/
def expectedReports (threshold : Int) (N : Nat) (seconds : List (Nat × Int)) :
    List AlertReport :=
  (List.range seconds.length).flatMap (fun i => expectedReportAt threshold N seconds (i + 1))

/-! ## stats.go -/

/-- The constant `defaultShowTopK` of `stats.go`. -/
def defaultShowTopK : Int := 10

/-- A Go `map[string]bool` used as a set: its keys, without repetition. Go leaves the
iteration order of a map open; the keys are listed in insertion order. -/
abbrev SectionSet := List String

/-- The statement `delete(sections, key)`. -/
def SectionSet.delete (sections : SectionSet) (key : String) : SectionSet :=
  sections.filter (fun k => k ≠ key)

/-- The statement `sections[key] = true`. -/
def SectionSet.set (sections : SectionSet) (key : String) : SectionSet :=
  if key ∈ sections then sections else sections ++ [key]

/-- The struct `TopKEntry` of `stats.go`. -/
structure TopKEntry where
  hits : Int
  sections : SectionSet
  deriving DecidableEq, Repr

/-- The struct `TopKResult` of `stats.go` (`section` is a Lean keyword, hence
`section_`). -/
structure TopKResult where
  section_ : String
  hits : Int
  deriving DecidableEq, Repr

/-- The `btree.BTree` of `TopKEntry` items ordered by `TopKEntry.Less`: the items in
ascending order of `hits`, at most one item per value of `hits`. -/
abbrev BTree := List TopKEntry

/-- The library call `BTree.Len`. -/
def BTree.Len (t : BTree) : Nat := t.length

/-- The library call `BTree.Get` with the key `TopKEntry{hits, nil}`: the item that is
neither less nor greater than the key. -/
def BTree.Get (t : BTree) (hits : Int) : Option TopKEntry :=
  t.find? (fun e => e.hits = hits)

/-- The library call `BTree.Delete` of the item with the given `hits`. -/
def BTree.Delete (t : BTree) (hits : Int) : BTree :=
  t.filter (fun e => e.hits ≠ hits)

/-- The library call `BTree.ReplaceOrInsert`. -/
def BTree.ReplaceOrInsert : BTree → TopKEntry → BTree
  | [], item => [item]
  | e :: rest, item =>
    if item.hits < e.hits then item :: e :: rest
    else if e.hits < item.hits then e :: BTree.ReplaceOrInsert rest item
    else item :: rest

/-- The effect on the tree of changing, through the shared map reference, the section
set of the item stored under `hits`. -/
def BTree.setSections (t : BTree) (hits : Int) (sections : SectionSet) : BTree :=
  t.map (fun e => if e.hits = hits then { e with sections := sections } else e)

/-- The struct `Stats` of `stats.go`; `hits` gives the value stored under a key of the Go
map, if any. -/
structure Stats where
  hits : String → Option Int
  topK : BTree
  tick : Int
  tickReport : Int
  interval : Int
  showTopK : Int

/-- The arguments of one call of `sendStats`. -/
structure StatsReport where
  tick : Int
  topK : List TopKResult
  deriving DecidableEq, Repr

/-- The function `NewStats` (stats.go:45-55). -/
def NewStats (interval : Int) : Stats :=
  { hits := fun _ => none, topK := [], tick := 0, tickReport := 0 + interval,
    interval := interval, showTopK := defaultShowTopK }

/-- The method `Stats.Sync` (stats.go:68-72). -/
def Stats.Sync (s : Stats) (t : Int) : Stats :=
  { s with tick := t, tickReport := wrapInt64 (t + s.interval) }

/-- The first half of `Stats.Hit` (stats.go:82-91), run when the section was found with
`count`: the section leaves the bucket of `count`, and the bucket is deleted when it is
left empty. With no such bucket, `item.(TopKEntry)` on the nil item panics. -/
def Stats.leaveBucket (topK : BTree) (count : Int) (key : String) : Option BTree :=
  match topK.Get count with
  | none => none
  | some item =>
    let sections := item.sections.delete key
    let topK1 := topK.setSections count sections
    if sections.length = 0 then some (topK1.Delete count) else some topK1

/-- The second half of `Stats.Hit` (stats.go:93-99): the section joins the bucket of
`count + 1`, which is created when absent. -/
def Stats.joinBucket (topK : BTree) (count : Int) (key : String) : BTree :=
  match topK.Get (count + 1) with
  | none => topK.ReplaceOrInsert ⟨count + 1, [key]⟩
  | some item => topK.setSections (count + 1) (item.sections.set key)

/-- The method `Stats.Hit` (stats.go:74-100). -/
def Stats.Hit (s : Stats) (key : String) : Option Stats :=
  let count : Int := (s.hits key).getD 0
  let found : Bool := (s.hits key).isSome
  let hits := Function.update s.hits key (some (count + 1))
  let left : Option BTree := if found then Stats.leaveBucket s.topK count key else some s.topK
  match left with
  | none => none
  | some topK => some { s with hits := hits, topK := Stats.joinBucket topK count key }

/-- The method `Stats.Clear` (stats.go:113-119). -/
def Stats.Clear (s : Stats) : Stats :=
  { s with hits := fun _ => none, topK := [] }

/-- The method `Stats.Hits` (stats.go:121-130). -/
def Stats.Hits (s : Stats) (key : String) : Int :=
  match s.hits key with
  | none => 0
  | some hits => hits

/-- The call `s.topK.Descend(it)` inside `Stats.TopK` (stats.go:141-149): the items are
visited from the greatest `hits` down, here given as `items`; each visit appends all
sections of the item, decrements `k` once per section, and continues while `k > 0`. The
decrement `k--` is an `int` operation: a countdown from a negative `k` can pass `minInt64`
and wrap round; a countdown from `k ≥ 0` cannot, a set holding fewer than `2^63`
sections. -/
def Stats.descend : List TopKEntry → Int → List TopKResult → List TopKResult
  | [], _, result => result
  | i :: rest, k, result =>
    let result1 := result ++ i.sections.map (fun sec => (⟨sec, i.hits⟩ : TopKResult))
    let k1 := if k < 0 then wrapInt64 (k - (i.sections.length : Int))
      else k - (i.sections.length : Int)
    if k1 > 0 then Stats.descend rest k1 result1 else result1

/-- The method `Stats.TopK` (stats.go:132-152). -/
def Stats.TopK (s : Stats) (k : Int) : List TopKResult :=
  if k = 0 ∨ s.topK.Len = 0 then []
  else Stats.descend s.topK.reverse k []

/-- The method `Stats.Tick` (stats.go:57-66), with the calls of `sendStats` it makes. -/
def Stats.Tick (s : Stats) (t : Int) : Stats × List StatsReport :=
  let s1 : Stats := { s with tick := t }
  if s1.tickReport ≤ s1.tick then
    let report : StatsReport := ⟨s1.tick, s1.TopK s1.showTopK⟩
    let s2 := s1.Clear
    ({ s2 with tickReport := wrapInt64 (s2.tickReport + s2.interval) }, [report])
  else (s1, [])

/-- A call of one of the exported methods of `Stats` that change it. -/
inductive StatsCall where
  | Hit (key : String)
  | Tick (t : Int)
  | Sync (t : Int)
  | Clear
  deriving DecidableEq, Repr

/-- Performs one call on a stats tracker. -/
def Stats.call (s : Stats) : StatsCall → Option (Stats × List StatsReport)
  | StatsCall.Hit key =>
    match s.Hit key with
    | none => none
    | some s1 => some (s1, [])
  | StatsCall.Tick t => some (s.Tick t)
  | StatsCall.Sync t => some (s.Sync t, [])
  | StatsCall.Clear => some (s.Clear, [])

/-- Performs a sequence of calls on a stats tracker, collecting the reports in order. -/
def Stats.run (s : Stats) : List StatsCall → Option (Stats × List StatsReport)
  | [] => some (s, [])
  | c :: rest =>
    match s.call c with
    | none => none
    | some (s1, out1) =>
      match Stats.run s1 rest with
      | none => none
      | some (s2, out2) => some (s2, out1 ++ out2)

/-- The hits of `makeTests` in `stats_test.go`, as performed by the tests: each section
is hit the given number of times, one section after the other. -/
def makeTestsCalls : List StatsCall :=
  [("/api", 8), ("/report", 7), ("/admin", 6), ("/user", 5), ("/login", 2), ("/logout", 4)].flatMap
    (fun test => List.replicate test.2 (StatsCall.Hit test.1))

/-- The results that one visit of the iterator in `Stats.TopK` appends: one per section
of the item, each with the `hits` of the item. -/
def TopKEntry.results (i : TopKEntry) : List TopKResult :=
  i.sections.map (fun sec => (⟨sec, i.hits⟩ : TopKResult))

/-- The results appended by visiting the given items in order. -/
def groupResults (items : List TopKEntry) : List TopKResult :=
  items.flatMap TopKEntry.results

/-- Successive calls of `Stats.Tick` with the given arguments, each report paired with the
report boundary (`tickReport`) that was scheduled when the call was made: the boundary the
report is attributable to. -/
def Stats.ticksAttributed (s : Stats) : List Int → List (Int × StatsReport)
  | [] => []
  | t :: rest =>
    (s.Tick t).2.map (fun r => (s.tickReport, r)) ++ Stats.ticksAttributed (s.Tick t).1 rest

/-- Specification side: after `Sync t0`, every boundary `t0 + j * interval` (`j ≥ 1`) that
some tick of `ts` reaches has exactly one report attributable to it, and that report is
sent at the first tick of `ts` that is at or after the boundary. -/
def ReportsAtBoundaries (s : Stats) (t0 : Int) (ts : List Int) : Prop :=
  ∀ j : Nat, 1 ≤ j → (∃ t ∈ ts, t0 + (j : Int) * s.interval ≤ t) →
    ∃ r : StatsReport,
      ((s.Sync t0).ticksAttributed ts).filter
          (fun q => decide (q.1 = t0 + (j : Int) * s.interval))
        = [(t0 + (j : Int) * s.interval, r)] ∧
      ts.find? (fun t => decide (t0 + (j : Int) * s.interval ≤ t)) = some r.tick

/-- Specification side: no tick of the sequence passes more than one boundary that the tick
before it (`t0` before the first) had not reached. -/
def OneBoundaryPerTick (I t0 : Int) (ts : List Int) : Prop :=
  List.Chain (fun p t : Int => ∀ j : Nat, p < t0 + (j : Int) * I → t < t0 + ((j : Int) + 1) * I)
    t0 ts

/-! ## player.go -/

/-- The struct `Reader` of `reader.go` without its channel: the file path and the map from
a header name to its column, which gives the value stored under a key, if any. -/
structure Reader where
  filePath : String
  logMap : String → Option Nat

/-- The function `NewReader` (reader.go:55-62). -/
def NewReader (filePath : String) : Reader :=
  { filePath := filePath, logMap := fun _ => none }

/-- The struct `Player` of `player.go`. -/
structure Player where
  reader : Reader
  stats : Stats
  monitor : Monitor

/-- The function `NewPlayer` (player.go:26-33). -/
def NewPlayer (filePath : String) (statsInterval : Int) (monitorRps : Int)
    (monitorWindow : Int) : Player :=
  { reader := NewReader filePath, stats := NewStats statsInterval,
    monitor := NewMonitor monitorRps monitorWindow }

/-- A call that `Player.Play` makes on its monitor or its stats tracker. -/
inductive PlayerCall where
  | MonitorSync (t : Int)
  | StatsSync (t : Int)
  | MonitorTick (t : Int)
  | StatsTick (t : Int)
  | MonitorHit
  | StatsHit (key : String)
  deriving DecidableEq, Repr

/-- The state of a run of `Player.Play`: the local variable `tick`, the monitor and the
stats tracker of the player, and what the run has done so far: the calls made on the two
(in order), the alerts and stats reports sent, and the records rejected on stderr. -/
structure PlayState where
  tick : Int
  monitor : Monitor
  stats : Stats
  calls : List PlayerCall
  alerts : List AlertReport
  reports : List StatsReport
  rejected : List LogModel

/-- The body of the inner `for` of `Player.Play` (player.go:57-58) followed by its post
statement `tick = tick + 1`, an `int64` addition. -/
def PlayState.tickOnce (st : PlayState) : Option PlayState :=
  match st.monitor.Tick st.tick with
  | none => none
  | some (monitor, alerts) =>
    some { st with
      tick := wrapInt64 (st.tick + 1)
      monitor := monitor
      stats := (st.stats.Tick st.tick).1
      calls := st.calls ++ [PlayerCall.MonitorTick st.tick, PlayerCall.StatsTick st.tick]
      alerts := st.alerts ++ alerts
      reports := st.reports ++ (st.stats.Tick st.tick).2 }

/-- The inner `for` of `Player.Play` (player.go:56-59): while `tick <= line.date`, tick
the monitor and the stats tracker and add one to `tick`. The first argument bounds the
number of iterations; the result is `none` when a `Tick` panics and when the loop has
not exited within the bound. -/
def PlayState.tickLoop : Nat → Int → PlayState → Option PlayState
  | 0, date, st => if st.tick ≤ date then none else some st
  | fuel + 1, date, st =>
    if st.tick ≤ date then
      match st.tickOnce with
      | none => none
      | some st1 => PlayState.tickLoop fuel date st1
    else some st

/-- The end of the body of the outer loop of `Player.Play` (player.go:61-63): the hit is
registered with the monitor and then with the stats tracker. -/
def PlayState.hit (st : PlayState) (line : LogModel) : Option PlayState :=
  match st.stats.Hit line.section_ with
  | none => none
  | some stats =>
    some { st with
      monitor := st.monitor.Hit
      stats := stats
      calls := st.calls ++ [PlayerCall.MonitorHit, PlayerCall.StatsHit line.section_] }

/-- The first statement of the body of the outer loop of `Player.Play` (player.go:42-47):
while `tick` is 0 the monitor and the stats tracker are synchronised with the record. -/
def PlayState.sync (st : PlayState) (line : LogModel) : PlayState :=
  if st.tick = 0 then
    { st with
      monitor := st.monitor.Sync line.date
      stats := st.stats.Sync line.date
      tick := wrapInt64 (line.date + 1)
      calls := st.calls ++ [PlayerCall.MonitorSync line.date, PlayerCall.StatsSync line.date] }
  else st

/-- The body of the outer loop of `Player.Play` for one record received from the reader
(player.go:41-64). The inner loop is given `line.date + 1 - tick` iterations: as many as
it takes when it exits, which it does unless `line.date` is `maxInt64`, where
`tick <= line.date` holds of every `int64` and the loop goes on for ever. -/
def PlayState.handle (st : PlayState) (line : LogModel) : Option PlayState :=
  let st1 := st.sync line
  if line.date < wrapInt64 (st1.tick - 1) then
    some { st1 with rejected := st1.rejected ++ [line] }
  else
    match PlayState.tickLoop (line.date + 1 - st1.tick).toNat line.date st1 with
    | none => none
    | some st2 => st2.hit line

/-- The outer loop of `Player.Play` over the records `src` received from the reader, from
a given state. -/
def PlayState.playFrom (st : PlayState) : List LogModel → Option PlayState
  | [] => some st
  | line :: rest =>
    match st.handle line with
    | none => none
    | some st1 => PlayState.playFrom st1 rest

/-- The method `Player.Play` (player.go:35-65) on the records `src` that the reader sends
on the channel, in order. -/
def Player.Play (p : Player) (src : List LogModel) : Option PlayState :=
  PlayState.playFrom
    { tick := 0, monitor := p.monitor, stats := p.stats, calls := [], alerts := [],
      reports := [], rejected := [] } src

/-- The integers `c, c + 1, ...`, `n` of them, in ascending order. -/
def tickRange (c : Int) : Nat → List Int
  | 0 => []
  | n + 1 => c :: tickRange (c + 1) n

/-- A record with the given timestamp and section, its other fields empty. -/
def LogModel.ofDateSection (date : Int) (sec : String) : LogModel :=
  ⟨"", "", "", date, 0, 0, "", "", "", sec, ""⟩

/-- The state of `Player.Play` after the first record `line`, of a date below `maxInt64`,
has synchronised the monitor and the stats tracker (player.go:42-47). -/
def Player.synced (p : Player) (line : LogModel) : PlayState :=
  { tick := line.date + 1, monitor := p.monitor.Sync line.date,
    stats := p.stats.Sync line.date,
    calls := [PlayerCall.MonitorSync line.date, PlayerCall.StatsSync line.date],
    alerts := [], reports := [], rejected := [] }

/-- The call on the monitor that a call of the player stands for, if it is one. -/
def PlayerCall.toMonitor : PlayerCall → Option MonitorCall
  | PlayerCall.MonitorSync t => some (MonitorCall.Sync t)
  | PlayerCall.MonitorTick t => some (MonitorCall.Tick t)
  | PlayerCall.MonitorHit => some MonitorCall.Hit
  | _ => none

/-- Whether a call of the player is a `Sync`, of the monitor or of the stats tracker. -/
def PlayerCall.isSync : PlayerCall → Bool
  | PlayerCall.MonitorSync _ => true
  | PlayerCall.StatsSync _ => true
  | _ => false

/-- The argument of a call if it is a `Tick` of the monitor. -/
def PlayerCall.monitorTick : PlayerCall → Option Int
  | PlayerCall.MonitorTick t => some t
  | _ => none

/-- Specification side: the records of `src` whose timestamp lies in `[lo, hi]`, in
their order of arrival. -/
def recordsBetween (src : List LogModel) (lo hi : Int) : List LogModel :=
  src.filter (fun r => decide (lo ≤ r.date ∧ r.date ≤ hi))

/-- Specification side: one `Stats.Hit` per record, for its section. -/
def hitCalls (records : List LogModel) : List StatsCall :=
  records.map (fun r => StatsCall.Hit r.section_)

/-- Specification side: the number of records of `src` with timestamp `d`. -/
def countAt (src : List LogModel) (d : Int) : Nat :=
  src.countP (fun r => decide (r.date = d))

/-- Specification side: the first `n` seconds from `t0` on, each with the number of
records of that second and the tick value that closes it. -/
def secondsOf (src : List LogModel) (t0 : Int) (n : Nat) : List (Nat × Int) :=
  (List.range n).map (fun i : Nat => (countAt src (t0 + (i : Int)), t0 + (i : Int) + 1))

/-- The timestamp of the last record of a stream, `d` for the empty stream. -/
def lastDate (d : Int) : List LogModel → Int
  | [] => d
  | r :: rest => lastDate r.date rest

/-! ## reader.go: decoding -/

/-- The library function `strings.Index` for a separator of one character: the position
of its first occurrence, or -1. A Go string is modelled by its characters; positions are
counted in characters, which cuts the same substrings as counting bytes does, since the
separators used (`/` and the space) are single bytes that occur in no longer UTF-8
sequence. -/
def stringsIndex : List Char → Char → Int
  | [], _ => -1
  | c :: rest, sep =>
    if c = sep then 0
    else if stringsIndex rest sep = -1 then -1 else stringsIndex rest sep + 1

/-- The function `getSection` (reader.go:166-176). -/
def getSection (endpoint : String) : String :=
  match endpoint.data with
  | [] => ""
  | c :: rest =>
    if c ≠ '/' then ""
    else
      let index := stringsIndex rest '/'
      if index = -1 then endpoint
      else String.mk ((c :: rest).take (index + 1).toNat)

/-- The library function `strings.Split` for a separator of one character. -/
def stringsSplit : List Char → Char → List (List Char)
  | [], _ => [[]]
  | c :: rest, sep =>
    if c = sep then [] :: stringsSplit rest sep
    else
      match stringsSplit rest sep with
      | [] => [[c]]
      | word :: words => (c :: word) :: words

/-- The struct `RequestData` of `reader.go` (`section` is a Lean keyword, hence
`section_`). -/
structure RequestData where
  method : String
  endpoint : String
  section_ : String
  protocol : String
  deriving DecidableEq, Repr

/-- The function `parseRequest` (reader.go:152-164). -/
def parseRequest (request : String) : RequestData :=
  match stringsSplit request.data ' ' with
  | [method, endpoint, protocol] =>
    { method := String.mk method, endpoint := String.mk endpoint,
      section_ := getSection (String.mk endpoint), protocol := String.mk protocol }
  | _ => { method := "", endpoint := "", section_ := "", protocol := "" }

/-- The value of a string of decimal digits, if it is one. -/
def digitsValue : List Char → Nat → Option Nat
  | [], acc => some acc
  | c :: rest, acc =>
    if '0' ≤ c ∧ c ≤ '9' then digitsValue rest (acc * 10 + (c.toNat - '0'.toNat)) else none

/-- The library function `strconv.Atoi` with its error result dropped, as `parseLog` calls
it: an optional sign followed by decimal digits gives their value, cut to the range of a
64-bit integer; anything else gives 0. -/
def strconvAtoi (s : String) : Int :=
  let value (digits : List Char) : Option Nat :=
    match digits with
    | [] => none
    | _ => digitsValue digits 0
  match s.data with
  | '-' :: digits =>
    match value digits with
    | none => 0
    | some n => max (-(n : Int)) (-(2 ^ 63))
  | '+' :: digits =>
    match value digits with
    | none => 0
    | some n => min (n : Int) (2 ^ 63 - 1)
  | digits =>
    match value digits with
    | none => 0
    | some n => min (n : Int) (2 ^ 63 - 1)

/-- The loop of `Reader.parseHeader`: the entries of the header are stored in the map
under their index, counted from `index`. -/
def Reader.parseHeaderFrom (logMap : String → Option Nat) (index : Nat) :
    List String → (String → Option Nat)
  | [] => logMap
  | entry :: rest =>
    Reader.parseHeaderFrom (Function.update logMap entry (some index)) (index + 1) rest

/-- The method `Reader.parseHeader` (reader.go:125-131). -/
def Reader.parseHeader (r : Reader) (header : List String) : Reader :=
  { r with logMap := Reader.parseHeaderFrom r.logMap 0 header }

/-- The expression `fields[r.logMap[name]]` of `parseLog`: a key that is not in the map
gives index 0, and an index out of range panics. -/
def Reader.field (r : Reader) (fields : List String) (name : String) : Option String :=
  fields[(r.logMap name).getD 0]?

/-- The method `Reader.parseLog` (reader.go:133-150). -/
def Reader.parseLog (r : Reader) (fields : List String) : Option LogModel :=
  match r.field fields "remotehost", r.field fields "rfc931", r.field fields "authuser",
      r.field fields "date", r.field fields "status", r.field fields "bytes",
      r.field fields "request" with
  | some remoteHost, some authServer, some authUser, some date, some status, some bytes,
      some request =>
    let requestData := parseRequest request
    some { remoteHost := remoteHost, authServer := authServer, authUser := authUser,
           date := strconvAtoi date, status := strconvAtoi status, bytes := strconvAtoi bytes,
           request := request, method := requestData.method,
           endpoint := requestData.endpoint, section_ := requestData.section_,
           protocol := requestData.protocol }
  | _, _, _, _, _, _, _ => none

/-! ## Invariants used in the proofs -/

/-- What holds of the state of `Reader.Process` after the records `pre` were received,
whatever their order. -/
structure FeedInv (W : Nat) (pre : List LogModel) (st : ProcessState) : Prop where
  held : st.queue.Len = min pre.length W
  sent : st.out.length = pre.length - W
  prio : ∀ it ∈ st.queue, it.priority = it.value.date
  perm : List.Perm (st.out ++ st.queue.map LogItem.value) pre

/-- What holds of the state of `Reader.Process` when the records still to arrive are
`fut` and the input is orderly: what was sent is sorted and not later than anything held
or still to arrive. -/
structure OrdInv (fut : List LogModel) (st : ProcessState) : Prop where
  sorted : NonDecreasing st.out
  below : ∀ o ∈ st.out, ∀ it ∈ st.queue, o.date ≤ it.value.date
  future : ∀ o ∈ st.out, ∀ f ∈ fut, o.date ≤ f.date

/-- The state invariant of the monitor for a window of at least one second. -/
structure MonitorInv (m : Monitor) : Prop where
  window : 1 ≤ m.capacity
  total : m.totalHits = m.queue.sum
  bound : (m.queue.length : Int) ≤ m.capacity

/-- What holds of the monitor after the seconds with hit counts `hs` were played. -/
structure WindowInv (r : Int) (N : Nat) (hs : List Nat) (m : Monitor) : Prop where
  capacity : m.capacity = (N : Int)
  threshold : m.threshold = r
  tickHits : m.tickHits = 0
  queue : m.queue = (hs.drop (hs.length - N)).map (fun h : Nat => (h : Int))
  total : m.totalHits = windowSum N hs hs.length
  alert : m.alert = if alertingAt r N hs hs.length then AlertState.AlertTraffic
    else AlertState.AlertNone

/-- The ordering invariant of the tree: strictly ascending `hits`. -/
def BTree.Ordered (t : BTree) : Prop :=
  List.Pairwise (fun a b : TopKEntry => a.hits < b.hits) t

/-- How the count map and the ordered index of a stats tracker fit together. -/
structure IndexInv (hits : String → Option Int) (t : BTree) : Prop where
  ordered : BTree.Ordered t
  nodup : ∀ e ∈ t, e.sections.Nodup
  nonempty : ∀ e ∈ t, e.sections ≠ []
  sound : ∀ e ∈ t, ∀ key ∈ e.sections, hits key = some e.hits
  complete : ∀ key c, hits key = some c → ∃ e ∈ t, e.hits = c ∧ key ∈ e.sections
  positive : ∀ key c, hits key = some c → 1 ≤ c

/-- The state invariant of the stats tracker. -/
def StatsInv (s : Stats) : Prop := IndexInv s.hits s.topK

/-- What the inner loop has done after `n` passes, in terms of the state `st0` it started
from. -/
structure TickedFrom (st0 : PlayState) (st : PlayState) : Prop where
  monitorInv : MonitorInv st.monitor
  statsInv : StatsInv st.stats
  ticked : ∃ (n : Nat) (alerts : List AlertReport) (reports : List StatsReport),
    st.tick = st0.tick + (n : Int) ∧
    st.calls = st0.calls ++ (tickRange st0.tick n).flatMap
      (fun s => [PlayerCall.MonitorTick s, PlayerCall.StatsTick s]) ∧
    st0.monitor.run ((tickRange st0.tick n).map MonitorCall.Tick) = some (st.monitor, alerts) ∧
    st.alerts = st0.alerts ++ alerts ∧
    st0.stats.run ((tickRange st0.tick n).map StatsCall.Tick) = some (st.stats, reports) ∧
    st.reports = st0.reports ++ reports ∧
    st.rejected = st0.rejected

/-- What holds of a run of `Player.Play` with stats interval `I` on a sorted stream that
started at second `t0`, after the records `pre`, as far as the stats tracker goes. -/
structure StatsPlayInv (I t0 : Int) (pre : List LogModel) (st : PlayState) : Prop where
  monitorInv : MonitorInv st.monitor
  interval : st.stats.interval = I
  showTopK : st.stats.showTopK = defaultShowTopK
  dates : ∀ r ∈ pre, r.date ≤ st.tick - 1
  boundary : st.stats.tickReport = t0 + ((st.reports.length : Int) + 1) * I
  ahead : st.tick - 1 < st.stats.tickReport
  near : st.stats.tickReport ≤ st.tick - 1 + I
  counts : ∃ sj, (NewStats I).run
      (hitCalls (recordsBetween pre (st.stats.tickReport - I) (st.stats.tickReport - 1)))
        = some (sj, []) ∧
    st.stats.hits = sj.hits ∧ st.stats.topK = sj.topK
  sent : ∀ j : Nat, j < st.reports.length →
    ∃ sj, (NewStats I).run
        (hitCalls (recordsBetween pre (t0 + (j : Int) * I) (t0 + ((j : Int) + 1) * I - 1)))
          = some (sj, []) ∧
      st.reports[j]? = some ⟨t0 + ((j : Int) + 1) * I, sj.TopK defaultShowTopK⟩

/-- What holds of a run of `Player.Play` on a sorted stream that started at second `t0`,
after the records `pre`, as far as the monitor goes: the calls made on the monitor are the
synchronisation, then for every closed second its hits followed by the tick that closed
it, then the hits of the open second. -/
structure MonitorPlayInv (rps N t0 : Int) (pre : List LogModel) (st : PlayState) : Prop where
  monitorInv : MonitorInv st.monitor
  statsInv : StatsInv st.stats
  dates : ∀ r ∈ pre, r.date ≤ st.tick - 1
  start : t0 ≤ st.tick - 1
  accepted : st.rejected = []
  monitorCalls : st.calls.filterMap PlayerCall.toMonitor
    = MonitorCall.Sync t0 :: trafficCalls (secondsOf pre t0 (st.tick - 1 - t0).toNat)
      ++ List.replicate (countAt pre (st.tick - 1)) MonitorCall.Hit
  ticks : st.calls.filterMap PlayerCall.monitorTick
    = tickRange (t0 + 1) (st.tick - 1 - t0).toNat
  run : (NewMonitor rps N).run (st.calls.filterMap PlayerCall.toMonitor)
    = some (st.monitor, st.alerts)

/-- What holds of a run of `Player.Play` that was synchronised by a record of second
`t0`, whatever the order of the records that followed: the monitor and the stats tracker
are in reachable states, the tick has not gone back nor left the 64-bit range, and the
only `Sync` calls made are the two of the first record. -/
structure SyncedOnce (t0 : Int) (st : PlayState) : Prop where
  monitorInv : MonitorInv st.monitor
  statsInv : StatsInv st.stats
  tick : t0 + 1 ≤ st.tick
  bound : st.tick ≤ maxInt64
  syncs : st.calls.filter PlayerCall.isSync
    = [PlayerCall.MonitorSync t0, PlayerCall.StatsSync t0]

/-! ## Theorems -/

/-! ### Machine integers -/

theorem wrapInt64_of_range {x : Int} (hlo : minInt64 ≤ x) (hhi : x ≤ maxInt64) :
    wrapInt64 x = x := by
  simp only [minInt64, maxInt64] at hlo hhi
  simp only [wrapInt64]
  omega

theorem wrapInt64_range (x : Int) : minInt64 ≤ wrapInt64 x ∧ wrapInt64 x ≤ maxInt64 := by
  simp only [minInt64, maxInt64, wrapInt64]
  omega

theorem wrapInt64_maxInt64_succ : wrapInt64 (maxInt64 + 1) = minInt64 := by decide

/-! ### The priority queue -/

theorem PriorityQueue.front_eq_none {pq : PriorityQueue} (h : PriorityQueue.front pq = none) :
    pq = [] := by
  cases pq with
  | nil => rfl
  | cons item rest =>
    simp only [PriorityQueue.front] at h
    split at h
    · cases h
    · split at h <;> cases h

theorem PriorityQueue.front_mem {pq : PriorityQueue} {m : LogItem}
    (h : PriorityQueue.front pq = some m) : m ∈ pq := by
  induction pq generalizing m with
  | nil => simp [PriorityQueue.front] at h
  | cons item rest ih =>
    simp only [PriorityQueue.front] at h
    split at h
    · cases h; exact List.mem_cons_self _ _
    · next other hother =>
      split at h
      · cases h; exact List.mem_cons_of_mem _ (ih hother)
      · cases h; exact List.mem_cons_self _ _

theorem PriorityQueue.front_le {pq : PriorityQueue} {m : LogItem}
    (h : PriorityQueue.front pq = some m) : ∀ it ∈ pq, m.priority ≤ it.priority := by
  induction pq generalizing m with
  | nil => simp [PriorityQueue.front] at h
  | cons item rest ih =>
    simp only [PriorityQueue.front] at h
    split at h
    · next hnone =>
      cases h
      have := PriorityQueue.front_eq_none hnone
      subst this
      intro it hit
      simp at hit
      subst hit
      exact le_refl _
    · next other hother =>
      have hle := ih hother
      split at h
      · next hlt =>
        cases h
        intro it hit
        rcases List.mem_cons.1 hit with rfl | hit
        · exact le_of_lt hlt
        · exact hle it hit
      · next hge =>
        cases h
        intro it hit
        rcases List.mem_cons.1 hit with rfl | hit
        · exact le_refl _
        · exact le_trans (not_lt.1 hge) (hle it hit)

theorem PriorityQueue.Pop_eq_some {pq : PriorityQueue} {m : LogItem} {rest : PriorityQueue}
    (h : PriorityQueue.Pop pq = some (m, rest)) :
    PriorityQueue.front pq = some m ∧ rest = List.erase pq m := by
  unfold PriorityQueue.Pop at h
  split at h
  · cases h
  · next item hitem =>
    cases h
    exact ⟨hitem, rfl⟩

theorem PriorityQueue.Pop_of_ne_nil {pq : PriorityQueue} (h : pq ≠ []) :
    ∃ m, PriorityQueue.front pq = some m ∧ PriorityQueue.Pop pq = some (m, List.erase pq m) := by
  cases hf : PriorityQueue.front pq with
  | none => exact absurd (PriorityQueue.front_eq_none hf) h
  | some m => exact ⟨m, rfl, by simp [PriorityQueue.Pop, hf]⟩

theorem PriorityQueue.length_erase_front {pq : PriorityQueue} {m : LogItem}
    (h : PriorityQueue.front pq = some m) : (List.erase pq m).length + 1 = pq.length := by
  have hm := PriorityQueue.front_mem h
  rw [List.length_erase_of_mem hm]
  have : 0 < pq.length := List.length_pos_of_mem hm
  omega

/-! ### One iteration of `Reader.Process` -/

theorem Reader.sendWhileFull_of_lt {W fuel : Nat} {st : ProcessState}
    (h : st.queue.Len < W) : Reader.sendWhileFull W (fuel + 1) st = some st := by
  simp [Reader.sendWhileFull, h]

theorem Reader.sendWhileFull_of_eq {W fuel : Nat} {st : ProcessState} {m : LogItem}
    (h : st.queue.Len = W) (hm : PriorityQueue.front st.queue = some m) :
    Reader.sendWhileFull W (fuel + 2) st
      = some ⟨List.erase st.queue m, st.out ++ [m.value]⟩ := by
  have hlen := PriorityQueue.length_erase_front hm
  have hpop : PriorityQueue.Pop st.queue = some (m, List.erase st.queue m) := by
    simp [PriorityQueue.Pop, hm]
  have h1 : ¬ st.queue.Len < W := by omega
  have h2 : PriorityQueue.Len (List.erase st.queue m) < W := by
    simp only [PriorityQueue.Len] at h ⊢
    omega
  rw [Reader.sendWhileFull]
  simp only [h1, if_false, hpop]
  exact Reader.sendWhileFull_of_lt h2

/-- What one receiving iteration does to a state whose queue holds at most `W` items. -/
theorem Reader.receive_spec {W : Nat} (hW : 1 ≤ W) (st : ProcessState) (x : LogModel)
    (hle : st.queue.Len ≤ W) :
    (st.queue.Len < W ∧
      Reader.receive W st x = some ⟨st.queue.Push ⟨x, x.date⟩, st.out⟩) ∨
    (st.queue.Len = W ∧ ∃ m, PriorityQueue.front st.queue = some m ∧
      Reader.receive W st x
        = some ⟨PriorityQueue.Push (List.erase st.queue m) ⟨x, x.date⟩, st.out ++ [m.value]⟩) := by
  rcases Nat.lt_or_ge st.queue.Len W with hlt | hge
  · left
    refine ⟨hlt, ?_⟩
    simp [Reader.receive, Reader.sendWhileFull_of_lt hlt]
  · right
    have heq : st.queue.Len = W := le_antisymm hle hge
    refine ⟨heq, ?_⟩
    have hne : st.queue ≠ [] := by
      intro h0
      simp [h0, PriorityQueue.Len] at heq
      omega
    obtain ⟨m, hm, -⟩ := PriorityQueue.Pop_of_ne_nil hne
    refine ⟨m, hm, ?_⟩
    have hfuel : st.queue.Len + 1 = (W - 1) + 2 := by omega
    simp [Reader.receive, hfuel, Reader.sendWhileFull_of_eq heq hm]

/-! ### Invariants of the receiving iterations -/

theorem FeedInv.init_feed (W : Nat) : FeedInv W [] ⟨[], []⟩ :=
  ⟨by simp [PriorityQueue.Len], by simp, by simp, by simp⟩

theorem FeedInv.receive {W : Nat} (hW : 1 ≤ W) {pre : List LogModel} {st : ProcessState}
    (hinv : FeedInv W pre st) (x : LogModel) :
    ∃ st1, Reader.receive W st x = some st1 ∧ FeedInv W (pre ++ [x]) st1 := by
  have hle : st.queue.Len ≤ W := by rw [hinv.held]; exact Nat.min_le_right _ _
  have hheld := hinv.held
  have hsent := hinv.sent
  rcases Reader.receive_spec hW st x hle with ⟨hlt, hrec⟩ | ⟨heq, m, hm, hrec⟩
  · refine ⟨_, hrec, ?_, ?_, ?_, ?_⟩
    · simp only [PriorityQueue.Len, PriorityQueue.Push, List.length_append,
        List.length_singleton] at hheld hlt ⊢
      omega
    · simp only [PriorityQueue.Len, List.length_append, List.length_singleton] at hheld hlt ⊢
      omega
    · intro it hit
      simp only [PriorityQueue.Push, List.mem_append, List.mem_singleton] at hit
      rcases hit with hit | rfl
      · exact hinv.prio it hit
      · rfl
    · simp only [PriorityQueue.Push, List.map_append, List.map_cons, List.map_nil]
      rw [← List.append_assoc]
      exact List.Perm.append_right _ hinv.perm
  · have hmem := PriorityQueue.front_mem hm
    have hlen := PriorityQueue.length_erase_front hm
    refine ⟨_, hrec, ?_, ?_, ?_, ?_⟩
    · simp only [PriorityQueue.Len, PriorityQueue.Push, List.length_append,
        List.length_singleton] at hheld heq ⊢
      omega
    · simp only [PriorityQueue.Len, List.length_append, List.length_singleton] at hheld heq ⊢
      omega
    · intro it hit
      simp only [PriorityQueue.Push, List.mem_append, List.mem_singleton] at hit
      rcases hit with hit | rfl
      · exact hinv.prio it (List.mem_of_mem_erase hit)
      · rfl
    · simp only [PriorityQueue.Push, List.map_append, List.map_cons, List.map_nil]
      have hq : List.Perm (st.queue.map LogItem.value)
          (m.value :: (List.erase st.queue m).map LogItem.value) :=
        (List.perm_cons_erase hmem).map LogItem.value
      have h1 : List.Perm (st.out ++ [m.value] ++ (List.erase st.queue m).map LogItem.value)
          pre := by
        rw [List.append_assoc]
        exact (List.Perm.append_left st.out hq.symm).trans hinv.perm
      rw [← List.append_assoc]
      exact List.Perm.append_right _ h1

theorem Reader.feed_append (W : Nat) (a b : List LogModel) (st : ProcessState) :
    Reader.feed W (a ++ b) st = (Reader.feed W a st).bind (Reader.feed W b) := by
  induction a generalizing st with
  | nil => simp [Reader.feed]
  | cons x a ih =>
    simp only [List.cons_append, Reader.feed]
    cases hrec : Reader.receive W st x with
    | none => simp
    | some st1 => simp [ih]

theorem FeedInv.feed_inv {W : Nat} (hW : 1 ≤ W) (rest : List LogModel) :
    ∀ (pre : List LogModel) (st : ProcessState), FeedInv W pre st →
      ∃ st1, Reader.feed W rest st = some st1 ∧ FeedInv W (pre ++ rest) st1 := by
  induction rest with
  | nil =>
    intro pre st hinv
    exact ⟨st, rfl, by simpa using hinv⟩
  | cons x rest ih =>
    intro pre st hinv
    obtain ⟨st1, hrec, hinv1⟩ := hinv.receive hW x
    obtain ⟨st2, hfeed, hinv2⟩ := ih (pre ++ [x]) st1 hinv1
    refine ⟨st2, ?_, by simpa using hinv2⟩
    simp [Reader.feed, hrec, hfeed]

/-- C2: release discipline of the reorder buffer. For every `W ≥ 1` (the code has
`W = 50`) and every input, after the records `lines` were received exactly
`max 0 (k - W)` records were sent and `min k W` are held (`k` the number of records), so
the occupancy never exceeds `W`; receiving one more record `x` sends nothing while fewer
than `W` are held, and otherwise sends exactly one record, of minimum timestamp among the
`W` held ones, before `x` joins the queue. -/
theorem Reader.release_discipline (W : Nat) (hW : 1 ≤ W) (lines : List LogModel)
    (x : LogModel) :
    ∃ st st1 : ProcessState,
      Reader.feed W lines ⟨[], []⟩ = some st ∧
      st.out.length = lines.length - W ∧
      st.queue.Len = min lines.length W ∧
      st.queue.Len ≤ W ∧
      Reader.feed W (lines ++ [x]) ⟨[], []⟩ = some st1 ∧
      (st.queue.Len < W →
        st1.out = st.out ∧ st1.queue = st.queue.Push ⟨x, x.date⟩) ∧
      (st.queue.Len = W →
        ∃ m ∈ st.queue, (∀ it ∈ st.queue, m.value.date ≤ it.value.date) ∧
          st1.out = st.out ++ [m.value] ∧
          st1.queue = PriorityQueue.Push (List.erase st.queue m) ⟨x, x.date⟩) := by
  obtain ⟨st, hfeed, hinv⟩ := FeedInv.feed_inv hW lines [] ⟨[], []⟩ (FeedInv.init_feed W)
  simp only [List.nil_append] at hinv
  have hle : st.queue.Len ≤ W := by rw [hinv.held]; exact Nat.min_le_right _ _
  have happ : ∀ st1, Reader.receive W st x = some st1 →
      Reader.feed W (lines ++ [x]) ⟨[], []⟩ = some st1 := by
    intro st1 h1
    rw [Reader.feed_append, hfeed]
    simp [Reader.feed, h1]
  rcases Reader.receive_spec hW st x hle with ⟨hlt, hrec⟩ | ⟨heq, m, hm, hrec⟩
  · refine ⟨st, _, hfeed, hinv.sent, hinv.held, hle, happ _ hrec, ?_, ?_⟩
    · intro _; exact ⟨rfl, rfl⟩
    · intro heq; omega
  · refine ⟨st, _, hfeed, hinv.sent, hinv.held, hle, happ _ hrec, ?_, ?_⟩
    · intro hlt; omega
    · intro _
      refine ⟨m, PriorityQueue.front_mem hm, ?_, rfl, rfl⟩
      intro it hit
      rw [← hinv.prio m (PriorityQueue.front_mem hm), ← hinv.prio it hit]
      exact PriorityQueue.front_le hm it hit

/-- The release discipline at the buffer size of the code, on a short input. -/
theorem Reader.release_discipline_witness :
    1 ≤ defaultPriorityQueueSize ∧
    ∃ st st1 : ProcessState,
      Reader.feed defaultPriorityQueueSize [LogModel.ofDate 2, LogModel.ofDate 1] ⟨[], []⟩
        = some st ∧
      st.out.length = [LogModel.ofDate 2, LogModel.ofDate 1].length - defaultPriorityQueueSize ∧
      st.queue.Len = min [LogModel.ofDate 2, LogModel.ofDate 1].length defaultPriorityQueueSize ∧
      st.queue.Len ≤ defaultPriorityQueueSize ∧
      Reader.feed defaultPriorityQueueSize
        ([LogModel.ofDate 2, LogModel.ofDate 1] ++ [LogModel.ofDate 3]) ⟨[], []⟩ = some st1 ∧
      (st.queue.Len < defaultPriorityQueueSize →
        st1.out = st.out ∧
        st1.queue = st.queue.Push ⟨LogModel.ofDate 3, (LogModel.ofDate 3).date⟩) ∧
      (st.queue.Len = defaultPriorityQueueSize →
        ∃ m ∈ st.queue, (∀ it ∈ st.queue, m.value.date ≤ it.value.date) ∧
          st1.out = st.out ++ [m.value] ∧
          st1.queue = PriorityQueue.Push (List.erase st.queue m)
            ⟨LogModel.ofDate 3, (LogModel.ofDate 3).date⟩) :=
  ⟨by decide, Reader.release_discipline defaultPriorityQueueSize (by decide)
    [LogModel.ofDate 2, LogModel.ofDate 1] (LogModel.ofDate 3)⟩

/-! ### Ordering of the released records -/

/-- A family of `m` distinct positions of `l` whose entries all satisfy `p` shows that
`p` holds of at least `m` entries. -/
theorem List.le_countP_of_injective {α : Type} (l : List α) (p : α → Bool) (m : Nat)
    (g : Fin m → Fin l.length) (hg : Function.Injective g)
    (hp : ∀ i, p (l.get (g i)) = true) : m ≤ l.countP p := by
  have h1 : (Finset.univ.map ⟨g, hg⟩).val ≤ (Finset.univ : Finset (Fin l.length)).val :=
    Finset.val_le_iff.2 (Finset.subset_univ _)
  have h2 := Multiset.map_le_map (f := l.get) h1
  have h3 : Multiset.map l.get (Finset.univ : Finset (Fin l.length)).val = (l : Multiset α) := by
    rw [Fin.univ_val_map, List.ofFn_get]
  rw [h3] at h2
  have h4 := Multiset.countP_le_of_le (fun a => p a = true) h2
  rw [Multiset.coe_countP] at h4
  have h5 : Multiset.countP (fun a => p a = true)
      (Multiset.map l.get (Finset.univ.map ⟨g, hg⟩).val) = m := by
    rw [Multiset.countP_eq_card.2]
    · simp
    · intro a ha
      simp only [Finset.map_val, Function.Embedding.coeFn_mk, Multiset.map_map,
        Multiset.mem_map, Function.comp_apply] at ha
      obtain ⟨i, -, rfl⟩ := ha
      exact hp i
  rw [h5] at h4
  simpa using h4

/-- Under bounded disorder, a record that arrives at position `k` or later is preceded,
among the first `k` arrivals, by more than `k - W` records that are not later than it. -/
theorem BoundedDisorder.count_le {W : Nat} {xs : List LogModel} (h : BoundedDisorder W xs)
    (k : Nat) (hk : W ≤ k) (f : LogModel) (hf : f ∈ xs.drop k) :
    k - W + 1 ≤ (xs.take k).countP (fun r => decide (r.date ≤ f.date)) := by
  obtain ⟨σ, hsorted, hdisp⟩ := h
  obtain ⟨i, hi, hfi⟩ := List.mem_drop_iff_getElem.1 hf
  have hp : k + i < xs.length := by omega
  let p : Fin xs.length := ⟨k + i, hp⟩
  let s : Fin xs.length := σ.symm p
  have hσs : σ s = p := Equiv.apply_symm_apply σ p
  have hs : k - W + 1 ≤ (s : Nat) := by
    have h1 := (hdisp s).1
    rw [hσs] at h1
    simp only [p] at h1
    omega
  have hslt : (s : Nat) < xs.length := s.2
  have hlt : ∀ a : Fin (k - W + 1), (a : Nat) < xs.length := fun a => by
    have := a.2
    omega
  have hbound : ∀ a : Fin (k - W + 1),
      ((σ ⟨a, hlt a⟩ : Fin xs.length) : Nat) < (xs.take k).length := by
    intro a
    have h1 := (hdisp ⟨a, hlt a⟩).1
    have h2 := (σ ⟨a, hlt a⟩).2
    have h3 := a.2
    simp only [List.length_take] at h1 ⊢
    exact Nat.lt_min.2 ⟨by omega, h2⟩
  refine List.le_countP_of_injective (xs.take k) _ (k - W + 1)
    (fun a => ⟨σ ⟨a, hlt a⟩, hbound a⟩) ?_ ?_
  · intro a b hab
    have h1 : ((σ ⟨a, hlt a⟩ : Fin xs.length) : Nat) = ((σ ⟨b, hlt b⟩ : Fin xs.length) : Nat) :=
      Fin.mk.inj hab
    have h2 : (⟨a, hlt a⟩ : Fin xs.length) = ⟨b, hlt b⟩ := σ.injective (Fin.ext h1)
    exact Fin.ext (Fin.mk.inj h2)
  · intro a
    have hle : (⟨a, hlt a⟩ : Fin xs.length) ≤ s := by
      have := a.2
      exact Fin.le_def.2 (by simp only; omega)
    have h1 := hsorted ⟨a, hlt a⟩ s hle
    rw [hσs] at h1
    have h2 : xs.get p = f := by simpa [p] using hfi
    rw [h2] at h1
    simp only [List.get_eq_getElem, List.getElem_take, decide_eq_true_eq]
    simpa using h1

theorem OrdInv.pop {fut : List LogModel} {queue : PriorityQueue} {out : List LogModel}
    {m : LogItem} (hprio : ∀ it ∈ queue, it.priority = it.value.date)
    (h : OrdInv fut ⟨queue, out⟩) (hm : PriorityQueue.front queue = some m)
    (hfut : ∀ f ∈ fut, m.value.date ≤ f.date) :
    OrdInv fut ⟨List.erase queue m, out ++ [m.value]⟩ := by
  have hmem := PriorityQueue.front_mem hm
  refine ⟨?_, ?_, ?_⟩
  · show List.Pairwise _ (out ++ [m.value])
    rw [List.pairwise_append]
    refine ⟨h.sorted, List.pairwise_singleton _ _, ?_⟩
    intro a ha b hb
    rw [List.mem_singleton] at hb
    subst hb
    exact h.below a ha m hmem
  · intro o ho it hit
    have hit1 : it ∈ queue := List.mem_of_mem_erase hit
    rcases List.mem_append.1 ho with ho | ho
    · exact h.below o ho it hit1
    · rw [List.mem_singleton] at ho
      subst ho
      rw [← hprio m hmem, ← hprio it hit1]
      exact PriorityQueue.front_le hm it hit1
  · intro o ho f hf
    rcases List.mem_append.1 ho with ho | ho
    · exact h.future o ho f hf
    · rw [List.mem_singleton] at ho
      subst ho
      exact hfut f hf

theorem OrdInv.push {x : LogModel} {rest : List LogModel} {queue : PriorityQueue}
    {out : List LogModel} (h : OrdInv (x :: rest) ⟨queue, out⟩) :
    OrdInv rest ⟨PriorityQueue.Push queue ⟨x, x.date⟩, out⟩ := by
  refine ⟨h.sorted, ?_, ?_⟩
  · intro o ho it hit
    simp only [PriorityQueue.Push, List.mem_append, List.mem_singleton] at hit
    rcases hit with hit | rfl
    · exact h.below o ho it hit
    · exact h.future o ho x (List.mem_cons_self _ _)
  · intro o ho f hf
    exact h.future o ho f (List.mem_cons_of_mem _ hf)

/-- When enough of the received records are not later than `f`, the front record is not
later than `f`. -/
theorem FeedInv.front_le_of_count {W : Nat} {pre : List LogModel} {st : ProcessState}
    (hinv : FeedInv W pre st) {m : LogItem}
    (hm : PriorityQueue.front st.queue = some m) (f : LogModel)
    (hcount : pre.length - W + 1 ≤ pre.countP (fun r => decide (r.date ≤ f.date))) :
    m.value.date ≤ f.date := by
  have h1 := hinv.perm.countP_eq (fun r => decide (r.date ≤ f.date))
  rw [List.countP_append] at h1
  have h2 : st.out.countP (fun r => decide (r.date ≤ f.date)) ≤ pre.length - W := by
    rw [← hinv.sent]
    exact List.countP_le_length _
  have h3 : 0 < (st.queue.map LogItem.value).countP (fun r => decide (r.date ≤ f.date)) := by
    omega
  obtain ⟨a, ha, hale⟩ := List.countP_pos_iff.1 h3
  obtain ⟨it, hit, rfl⟩ := List.mem_map.1 ha
  have hmem := PriorityQueue.front_mem hm
  have h4 := PriorityQueue.front_le hm it hit
  rw [hinv.prio m hmem, hinv.prio it hit] at h4
  exact le_trans h4 (by simpa using hale)

theorem OrdInv.feed_ord {W : Nat} (hW : 1 ≤ W) (xs : List LogModel)
    (hkey : ∀ k, W ≤ k → ∀ f ∈ xs.drop k,
      k - W + 1 ≤ (xs.take k).countP (fun r => decide (r.date ≤ f.date)))
    (rest : List LogModel) :
    ∀ (pre : List LogModel) (st : ProcessState), xs = pre ++ rest →
      FeedInv W pre st → OrdInv rest st →
      ∃ st1, Reader.feed W rest st = some st1 ∧ FeedInv W xs st1 ∧ OrdInv [] st1 := by
  induction rest with
  | nil =>
    intro pre st hxs hinv hord
    refine ⟨st, rfl, ?_, hord⟩
    rw [hxs]
    simpa using hinv
  | cons x rest ih =>
    intro pre st hxs hinv hord
    have hle : st.queue.Len ≤ W := by rw [hinv.held]; exact Nat.min_le_right _ _
    obtain ⟨st1, hrec, hinv1⟩ := hinv.receive hW x
    have hord1 : OrdInv rest st1 := by
      rcases Reader.receive_spec hW st x hle with ⟨_, hrec1⟩ | ⟨heq, m, hm, hrec1⟩
      · rw [hrec] at hrec1
        cases hrec1
        exact OrdInv.push hord
      · rw [hrec] at hrec1
        cases hrec1
        have hheld := hinv.held
        rw [heq] at hheld
        have hk : W ≤ pre.length := by omega
        have htake : xs.take pre.length = pre := by rw [hxs]; simp
        have hdrop : xs.drop pre.length = x :: rest := by rw [hxs]; simp
        have hfut : ∀ f ∈ x :: rest, m.value.date ≤ f.date := by
          intro f hf
          have hc := hkey pre.length hk f (by rw [hdrop]; exact hf)
          rw [htake] at hc
          exact hinv.front_le_of_count hm f hc
        exact OrdInv.push (OrdInv.pop hinv.prio hord hm hfut)
    obtain ⟨st2, hfeed, hinv2, hord2⟩ := ih (pre ++ [x]) st1 (by rw [hxs]; simp) hinv1 hord1
    exact ⟨st2, by simp [Reader.feed, hrec, hfeed], hinv2, hord2⟩

/-- After the input is closed, a state whose sent records are sorted and not later than
the held ones is drained into a sorted sequence holding the sent and the held records. -/
theorem Reader.drain_spec {W : Nat} (hW : 1 ≤ W) (fuel : Nat) :
    ∀ st : ProcessState, st.queue.Len < fuel → st.queue.Len ≤ W →
      (∀ it ∈ st.queue, it.priority = it.value.date) → OrdInv [] st →
      ∃ res, Reader.drain W fuel st = some res ∧ NonDecreasing res ∧
        List.Perm res (st.out ++ st.queue.map LogItem.value) := by
  induction fuel with
  | zero => intro st h; omega
  | succ fuel ih =>
    intro st hfuel hle hprio hord
    have hstep : ∃ st1, Reader.sendWhileFull W (st.queue.Len + 1) st = some st1 ∧
        st1.queue.Len ≤ st.queue.Len ∧ st1.queue.Len ≤ W ∧
        (∀ it ∈ st1.queue, it.priority = it.value.date) ∧ OrdInv [] st1 ∧
        List.Perm (st1.out ++ st1.queue.map LogItem.value)
          (st.out ++ st.queue.map LogItem.value) := by
      rcases Nat.lt_or_ge st.queue.Len W with hlt | hge
      · exact ⟨st, Reader.sendWhileFull_of_lt hlt, le_refl _, hle, hprio, hord, List.Perm.refl _⟩
      · have heq : st.queue.Len = W := le_antisymm hle hge
        have hne : st.queue ≠ [] := by
          intro h0
          simp [h0, PriorityQueue.Len] at heq
          omega
        obtain ⟨m, hm, -⟩ := PriorityQueue.Pop_of_ne_nil hne
        have hlen := PriorityQueue.length_erase_front hm
        have hmem := PriorityQueue.front_mem hm
        have hf : st.queue.Len + 1 = (W - 1) + 2 := by omega
        refine ⟨_, by rw [hf]; exact Reader.sendWhileFull_of_eq heq hm, ?_, ?_, ?_, ?_, ?_⟩
        · simp only [PriorityQueue.Len]; omega
        · simp only [PriorityQueue.Len] at heq ⊢; omega
        · intro it hit; exact hprio it (List.mem_of_mem_erase hit)
        · exact OrdInv.pop hprio hord hm (by simp)
        · have hq : List.Perm (st.queue.map LogItem.value)
              (m.value :: (List.erase st.queue m).map LogItem.value) :=
            (List.perm_cons_erase hmem).map LogItem.value
          simp only [List.append_assoc, List.singleton_append]
          exact List.Perm.append_left st.out hq.symm
    obtain ⟨st1, hsend, hlen1, hle1, hprio1, hord1, hperm1⟩ := hstep
    rw [Reader.drain, hsend]
    simp only
    by_cases hpos : st1.queue.Len > 0
    · have hne : st1.queue ≠ [] := by
        intro h0
        simp [h0, PriorityQueue.Len] at hpos
      obtain ⟨m, hm, hpop⟩ := PriorityQueue.Pop_of_ne_nil hne
      have hlen := PriorityQueue.length_erase_front hm
      have hmem := PriorityQueue.front_mem hm
      simp only [hpos, if_true, hpop]
      obtain ⟨res, hres, hsorted, hperm⟩ := ih ⟨List.erase st1.queue m, st1.out ++ [m.value]⟩
        (by simp only [PriorityQueue.Len] at hlen1 hfuel ⊢; omega)
        (by simp only [PriorityQueue.Len] at hle1 ⊢; omega)
        (fun it hit => hprio1 it (List.mem_of_mem_erase hit))
        (OrdInv.pop hprio1 hord1 hm (by simp))
      refine ⟨res, hres, hsorted, hperm.trans (List.Perm.trans ?_ hperm1)⟩
      have hq : List.Perm (st1.queue.map LogItem.value)
          (m.value :: (List.erase st1.queue m).map LogItem.value) :=
        (List.perm_cons_erase hmem).map LogItem.value
      simp only [List.append_assoc, List.singleton_append]
      exact List.Perm.append_left st1.out hq.symm
    · have h0 : st1.queue = [] := by
        cases hq : st1.queue with
        | nil => rfl
        | cons a l => simp [hq, PriorityQueue.Len] at hpos
      simp only [hpos, if_false]
      refine ⟨st1.out, rfl, hord1.sorted, ?_⟩
      refine List.Perm.trans ?_ hperm1
      simp [h0]

/-- C1: ordering of the reorder buffer. For every `W ≥ 1` and every input for which some
timestamp-sorted arrangement places every record at most `W - 1` positions away from its
arrival position, `Reader.Process` sends all its output and closes; the full sequence of
records sent holds every record of the input, each as often as the input does, and is
non-decreasing by timestamp. -/
theorem Reader.Process_nonDecreasing (W : Nat) (hW : 1 ≤ W) (lines : List LogModel)
    (h : BoundedDisorder W lines) :
    ∃ out, Reader.Process W lines = some out ∧ List.Perm out lines ∧
      out.length = lines.length ∧ NonDecreasing out := by
  obtain ⟨st, hfeed, hinv, hord⟩ := OrdInv.feed_ord hW lines
    (fun k hk f hf => h.count_le k hk f hf) lines [] ⟨[], []⟩ rfl (FeedInv.init_feed W)
    ⟨List.Pairwise.nil, by simp, by simp⟩
  have hle : st.queue.Len ≤ W := by rw [hinv.held]; exact Nat.min_le_right _ _
  obtain ⟨res, hres, hsorted, hperm⟩ :=
    Reader.drain_spec hW (st.queue.Len + 1) st (Nat.lt_succ_self _) hle hinv.prio hord
  have hp : List.Perm res lines := hperm.trans (by simpa using hinv.perm)
  exact ⟨res, by simp [Reader.Process, hfeed, hres], hp, hp.length_eq, hsorted⟩

/-- An input in which the first two records are swapped has disorder bounded by `2`. -/
theorem boundedDisorder_swapped :
    BoundedDisorder 2 [LogModel.ofDate 2, LogModel.ofDate 1, LogModel.ofDate 3] :=
  ⟨Equiv.swap ⟨0, by decide⟩ ⟨1, by decide⟩, by decide, by decide⟩

/-- The ordering theorem applied to an input whose first two records are swapped. -/
theorem Reader.Process_nonDecreasing_witness :
    1 ≤ 2 ∧ BoundedDisorder 2 [LogModel.ofDate 2, LogModel.ofDate 1, LogModel.ofDate 3] ∧
    ∃ out, Reader.Process 2 [LogModel.ofDate 2, LogModel.ofDate 1, LogModel.ofDate 3] = some out ∧
      List.Perm out [LogModel.ofDate 2, LogModel.ofDate 1, LogModel.ofDate 3] ∧
      out.length = [LogModel.ofDate 2, LogModel.ofDate 1, LogModel.ofDate 3].length ∧
      NonDecreasing out :=
  ⟨by decide, boundedDisorder_swapped,
    Reader.Process_nonDecreasing 2 (by decide) _ boundedDisorder_swapped⟩

/-! ### The traffic monitor -/

theorem Monitor.checkAlerts_fields (m : Monitor) :
    m.checkAlerts.1.queue = m.queue ∧ m.checkAlerts.1.capacity = m.capacity ∧
    m.checkAlerts.1.totalHits = m.totalHits ∧ m.checkAlerts.1.threshold = m.threshold ∧
    m.checkAlerts.1.tickHits = m.tickHits ∧ m.checkAlerts.1.tick = m.tick := by
  unfold Monitor.checkAlerts
  split
  · simp
  · split <;> simp

/-- The four cases of `checkAlerts`, in terms of the state it is called on. -/
theorem Monitor.checkAlerts_spec (m : Monitor) :
    (m.threshold ≤ m.checkAlerts.1.totalHits ∧ m.alert = AlertState.AlertNone →
      m.checkAlerts.1.alert = AlertState.AlertTraffic ∧
      m.checkAlerts.2 = [⟨AlertState.AlertTraffic, m.checkAlerts.1.totalHits, m.tick⟩]) ∧
    (m.checkAlerts.1.totalHits < m.threshold ∧ m.alert = AlertState.AlertTraffic →
      m.checkAlerts.1.alert = AlertState.AlertNone ∧
      m.checkAlerts.2 = [⟨AlertState.AlertNone, m.checkAlerts.1.totalHits, m.tick⟩]) ∧
    (m.threshold ≤ m.checkAlerts.1.totalHits ∧ m.alert = AlertState.AlertTraffic →
      m.checkAlerts.1.alert = m.alert ∧ m.checkAlerts.2 = []) ∧
    (m.checkAlerts.1.totalHits < m.threshold ∧ m.alert = AlertState.AlertNone →
      m.checkAlerts.1.alert = m.alert ∧ m.checkAlerts.2 = []) ∧
    m.checkAlerts.1.threshold = m.threshold := by
  have ht := (m.checkAlerts_fields).2.2.1
  have hthr := (m.checkAlerts_fields).2.2.2.1
  rw [ht]
  refine ⟨?_, ?_, ?_, ?_, hthr⟩
  · rintro ⟨hge, ha⟩
    simp [Monitor.checkAlerts, hge, ha]
  · rintro ⟨hlt, ha⟩
    have hnot : ¬ m.threshold ≤ m.totalHits := not_le.2 hlt
    simp [Monitor.checkAlerts, hnot, hlt, ha]
  · rintro ⟨hge, ha⟩
    have hnot : ¬ m.totalHits < m.threshold := not_lt.2 hge
    simp [Monitor.checkAlerts, hnot, ha]
  · rintro ⟨hlt, ha⟩
    have hnot : ¬ m.threshold ≤ m.totalHits := not_le.2 hlt
    simp [Monitor.checkAlerts, hnot, ha]

theorem Monitor.evict_cons {m : Monitor} {front : Int} {rest : List Int}
    (hq : m.queue = front :: rest) (hfull : (m.queue.length : Int) = m.capacity) :
    m.evict = some { m with totalHits := m.totalHits - front, queue := rest } := by
  unfold Monitor.evict
  rw [if_pos hfull]
  split
  · next h => rw [hq] at h; cases h
  · next f r h =>
    rw [hq] at h
    cases h
    rfl

theorem Monitor.evict_of_ne {m : Monitor} (hne : (m.queue.length : Int) ≠ m.capacity) :
    m.evict = some m := by
  unfold Monitor.evict
  rw [if_neg hne]

theorem MonitorInv.evict {m : Monitor} (h : MonitorInv m) :
    ∃ m1, m.evict = some m1 ∧ m1.capacity = m.capacity ∧ m1.totalHits = m1.queue.sum ∧
      (m1.queue.length : Int) + 1 ≤ m.capacity ∧ m1.tickHits = m.tickHits ∧
      m1.threshold = m.threshold ∧ m1.alert = m.alert := by
  have hw := h.window
  have ht := h.total
  have hb := h.bound
  by_cases hfull : (m.queue.length : Int) = m.capacity
  · cases hq : m.queue with
    | nil =>
      rw [hq] at hfull
      simp at hfull
      omega
    | cons front rest =>
      refine ⟨_, Monitor.evict_cons hq hfull, rfl, ?_, ?_, rfl, rfl, rfl⟩
      · rw [hq] at ht
        simp only [List.sum_cons] at ht
        simp only [ht]
        omega
      · rw [hq] at hfull
        simp only [List.length_cons] at hfull
        push_cast at hfull
        simp only
        omega
  · refine ⟨m, Monitor.evict_of_ne hfull, rfl, ht, ?_, rfl, rfl, rfl⟩
    omega

theorem MonitorInv.call_monitor {m : Monitor} (h : MonitorInv m) (c : MonitorCall) :
    ∃ m1 out, m.call c = some (m1, out) ∧ MonitorInv m1 ∧ m1.capacity = m.capacity := by
  cases c with
  | Sync t => exact ⟨_, _, rfl, ⟨h.window, h.total, h.bound⟩, rfl⟩
  | Hit => exact ⟨_, _, rfl, ⟨h.window, h.total, h.bound⟩, rfl⟩
  | Tick t =>
    obtain ⟨m1, hev, hcap, htot, hlen, -, -, -⟩ := h.evict
    obtain ⟨hq, hc, ht, -, -, -⟩ := (m1.pushTick t).checkAlerts_fields
    refine ⟨(m1.pushTick t).checkAlerts.1, (m1.pushTick t).checkAlerts.2, ?_, ⟨?_, ?_, ?_⟩, ?_⟩
    · simp [Monitor.call, Monitor.Tick, hev]
    · rw [hc]; simp only [Monitor.pushTick]; rw [hcap]; exact h.window
    · rw [ht, hq]; simp only [Monitor.pushTick, List.sum_append, List.sum_singleton, htot]
    · rw [hq, hc]
      simp only [Monitor.pushTick, List.length_append, List.length_singleton, hcap]
      push_cast
      exact hlen
    · rw [hc]; simp only [Monitor.pushTick]; exact hcap

theorem MonitorInv.run_monitor (calls : List MonitorCall) :
    ∀ m : Monitor, MonitorInv m →
      ∃ m1 out, m.run calls = some (m1, out) ∧ MonitorInv m1 ∧ m1.capacity = m.capacity := by
  induction calls with
  | nil => intro m h; exact ⟨m, [], rfl, h, rfl⟩
  | cons c rest ih =>
    intro m h
    obtain ⟨m1, out1, hcall, hinv1, hcap1⟩ := h.call_monitor c
    obtain ⟨m2, out2, hrun, hinv2, hcap2⟩ := ih m1 hinv1
    exact ⟨m2, out1 ++ out2, by simp [Monitor.run, hcall, hrun], hinv2, by rw [hcap2, hcap1]⟩

/-- C3: state invariant of the traffic monitor. For every monitor built by
`NewMonitor rps N` with `N ≥ 1` and every finite sequence of `Sync`, `Hit` and `Tick`
calls, the calls all return, and afterwards `totalHits` equals the sum of the per-second
counts held in the queue and the queue holds at most `N` entries. -/
theorem Monitor.run_invariant (rps N : Int) (hN : 1 ≤ N) (calls : List MonitorCall) :
    ∃ m out, (NewMonitor rps N).run calls = some (m, out) ∧
      m.totalHits = m.queue.sum ∧ (m.queue.length : Int) ≤ N := by
  have h0 : MonitorInv (NewMonitor rps N) := ⟨hN, by simp [NewMonitor], by
    simp only [NewMonitor, List.length_nil]; push_cast; omega⟩
  obtain ⟨m, out, hrun, hinv, hcap⟩ := MonitorInv.run_monitor calls _ h0
  refine ⟨m, out, hrun, hinv.total, ?_⟩
  have := hinv.bound
  rw [hcap] at this
  exact this

/-- The monitor invariant on the call sequence of `TestMonitor`, for a window of 3. -/
theorem Monitor.run_invariant_witness :
    (1 : Int) ≤ 3 ∧
    ∃ m out, (NewMonitor 1 3).run
        [MonitorCall.Hit, MonitorCall.Hit, MonitorCall.Hit, MonitorCall.Tick 1,
         MonitorCall.Hit, MonitorCall.Tick 2, MonitorCall.Tick 3, MonitorCall.Tick 4]
        = some (m, out) ∧
      m.totalHits = m.queue.sum ∧ (m.queue.length : Int) ≤ 3 :=
  ⟨by decide, Monitor.run_invariant 1 3 (by decide) _⟩

/-- C5, as stated, fails on two inputs. The threshold of `NewMonitor` is the product
computed in 64-bit arithmetic: for `rps = 2^62` and `window = 4` it is 0, not `2^64`, and
the first `Tick`, with no hit at all, raises the alert. And `Tick` has no result on every
monitor state: on a monitor of window 0 it fails. -/
theorem Monitor.threshold_counterexample :
    (NewMonitor 4611686018427387904 4).threshold = 0 ∧
    (4611686018427387904 : Int) * 4 = 18446744073709551616 ∧
    ((NewMonitor 4611686018427387904 4).Tick 1).map Prod.snd
      = some [⟨AlertState.AlertTraffic, 0, 1⟩] ∧
    (NewMonitor 1 0).Tick 1 = none := by
  decide

/-- C5, amended: the alert rule of `Monitor.Tick` is edge-triggered. For every monitor
state and every `Tick t`: either the queue is empty and the capacity is 0, and `Tick`
fails; or `Tick` returns and, with `sum` the value of `totalHits` after the window
update: when `sum ≥ threshold` and the state was `AlertNone`, the state becomes
`AlertTraffic` and the only report is `(AlertTraffic, sum, t)`; when `sum < threshold` and
the state was `AlertTraffic`, the state becomes `AlertNone` and the only report is
`(AlertNone, sum, t)`; in the two remaining cases the alert state is unchanged and nothing
is reported. The threshold after `NewMonitor` is `rps * window` in 64-bit arithmetic,
which is `rps * window` whenever that product is in the 64-bit range, and it is changed
by none of `Sync`, `Hit`, `Tick`. -/
theorem Monitor.Tick_edge_triggered (m : Monitor) (t : Int) :
    ((m.queue = [] ∧ m.capacity = 0 ∧ m.Tick t = none) ∨
      ∃ m0 m1 out, m.evict = some m0 ∧ m.Tick t = some (m1, out) ∧
        m1.totalHits = (m0.pushTick t).totalHits ∧
        (m.threshold ≤ m1.totalHits ∧ m.alert = AlertState.AlertNone →
          m1.alert = AlertState.AlertTraffic ∧
          out = [⟨AlertState.AlertTraffic, m1.totalHits, t⟩]) ∧
        (m1.totalHits < m.threshold ∧ m.alert = AlertState.AlertTraffic →
          m1.alert = AlertState.AlertNone ∧
          out = [⟨AlertState.AlertNone, m1.totalHits, t⟩]) ∧
        (m.threshold ≤ m1.totalHits ∧ m.alert = AlertState.AlertTraffic →
          m1.alert = m.alert ∧ out = []) ∧
        (m1.totalHits < m.threshold ∧ m.alert = AlertState.AlertNone →
          m1.alert = m.alert ∧ out = []) ∧
        m1.threshold = m.threshold) ∧
    (∀ t1, (m.Sync t1).threshold = m.threshold) ∧
    m.Hit.threshold = m.threshold ∧
    (∀ rps window, (NewMonitor rps window).threshold = wrapInt64 (rps * window)) ∧
    (∀ rps window, minInt64 ≤ rps * window → rps * window ≤ maxInt64 →
      (NewMonitor rps window).threshold = rps * window) := by
  refine ⟨?_, fun _ => rfl, rfl, fun _ _ => rfl,
    fun rps window hlo hhi => wrapInt64_of_range hlo hhi⟩
  have hev : (m.queue = [] ∧ m.capacity = 0 ∧ m.evict = none) ∨
      ∃ m0, m.evict = some m0 ∧ m0.threshold = m.threshold ∧ m0.alert = m.alert := by
    by_cases hfull : (m.queue.length : Int) = m.capacity
    · cases hq : m.queue with
      | nil =>
        left
        rw [hq] at hfull
        simp only [List.length_nil, Nat.cast_zero] at hfull
        exact ⟨rfl, hfull.symm, by simp [Monitor.evict, hq, ← hfull]⟩
      | cons front rest => exact Or.inr ⟨_, Monitor.evict_cons hq hfull, rfl, rfl⟩
    · exact Or.inr ⟨m, Monitor.evict_of_ne hfull, rfl, rfl⟩
  rcases hev with ⟨hq, hcap, hnone⟩ | ⟨m0, hm0, hthr, halert⟩
  · exact Or.inl ⟨hq, hcap, by simp [Monitor.Tick, hnone]⟩
  · right
    have hthr1 : (m0.pushTick t).threshold = m.threshold := hthr
    have halert1 : (m0.pushTick t).alert = m.alert := halert
    obtain ⟨h1, h2, h3, h4, h5⟩ := (m0.pushTick t).checkAlerts_spec
    rw [hthr1, halert1] at h1 h2 h3 h4
    rw [hthr1] at h5
    exact ⟨m0, (m0.pushTick t).checkAlerts.1, (m0.pushTick t).checkAlerts.2, hm0,
      by simp [Monitor.Tick, hm0], ((m0.pushTick t).checkAlerts_fields).2.2.1,
      h1, h2, h3, h4, h5⟩

/-- The alert rule on the monitor of `TestMonitor` (rate 1, window 3) after three hits:
the first `Tick` meets the threshold 3, raises the alert and sends the one report
`(AlertTraffic, 3, 1)`. -/
theorem Monitor.Tick_edge_triggered_witness :
    ∃ m1, (NewMonitor 1 3).Hit.Hit.Hit.Tick 1
        = some (m1, [⟨AlertState.AlertTraffic, 3, 1⟩]) ∧
      m1.alert = AlertState.AlertTraffic ∧ m1.threshold = 3 := by
  obtain ⟨h, -⟩ := Monitor.Tick_edge_triggered (NewMonitor 1 3).Hit.Hit.Hit 1
  rcases h with ⟨-, hcap, -⟩ | ⟨m0, m1, out, hev, htick, htot, h1, -, -, -, hthr⟩
  · exact absurd hcap (by decide)
  · have hm0 : m0 = (NewMonitor 1 3).Hit.Hit.Hit := by
      have h2 : (NewMonitor 1 3).Hit.Hit.Hit.evict = some (NewMonitor 1 3).Hit.Hit.Hit := by
        decide
      rw [h2] at hev
      exact (Option.some.inj hev).symm
    subst hm0
    have hsum : m1.totalHits = 3 := by rw [htot]; decide
    obtain ⟨ha, hout⟩ := h1 ⟨by rw [hsum]; decide, by decide⟩
    rw [hsum] at hout
    exact ⟨m1, by rw [htick, hout], ha, by rw [hthr]; decide⟩

/-! ### The sliding window -/

theorem Monitor.run_append {a b : List MonitorCall} {m m1 m2 : Monitor}
    {out1 out2 : List AlertReport} (ha : m.run a = some (m1, out1))
    (hb : m1.run b = some (m2, out2)) : m.run (a ++ b) = some (m2, out1 ++ out2) := by
  induction a generalizing m out1 with
  | nil =>
    simp only [Monitor.run, Option.some.injEq, Prod.mk.injEq] at ha
    obtain ⟨rfl, rfl⟩ := ha
    simpa using hb
  | cons c a ih =>
    simp only [Monitor.run] at ha
    cases hc : m.call c with
    | none => rw [hc] at ha; cases ha
    | some r1 =>
      obtain ⟨m3, out3⟩ := r1
      rw [hc] at ha
      simp only at ha
      cases hr : m3.run a with
      | none => rw [hr] at ha; cases ha
      | some r2 =>
        obtain ⟨m4, out4⟩ := r2
        rw [hr] at ha
        simp only [Option.some.injEq, Prod.mk.injEq] at ha
        obtain ⟨rfl, rfl⟩ := ha
        have h1 := ih hr
        show Monitor.run m (c :: (a ++ b)) = _
        simp only [Monitor.run, hc, h1, List.append_assoc]

theorem Monitor.run_replicate_hit (h : Nat) (m : Monitor) :
    m.run (List.replicate h MonitorCall.Hit)
      = some ({ m with tickHits := m.tickHits + (h : Int) }, []) := by
  induction h generalizing m with
  | zero => simp [Monitor.run]
  | succ h ih =>
    simp only [List.replicate_succ, Monitor.run, Monitor.call, ih, Monitor.Hit]
    simp only [List.append_nil, Option.some.injEq, Prod.mk.injEq, and_true]
    congr 1
    push_cast
    ring

theorem windowSum_append (N : Nat) (hs ys : List Nat) (j : Nat) (hj : j ≤ hs.length) :
    windowSum N (hs ++ ys) j = windowSum N hs j := by
  simp only [windowSum, List.take_append_of_le_length hj]

theorem alertingAt_append (r : Int) (N : Nat) (hs ys : List Nat) (j : Nat)
    (hj : j ≤ hs.length) : alertingAt r N (hs ++ ys) j = alertingAt r N hs j := by
  cases j with
  | zero => rfl
  | succ j => simp only [alertingAt, windowSum_append N hs ys (j + 1) hj]

theorem expectedReportAt_append (r : Int) (N : Nat) (secs ys : List (Nat × Int)) (j : Nat)
    (hj : j + 1 ≤ secs.length) :
    expectedReportAt r N (secs ++ ys) (j + 1) = expectedReportAt r N secs (j + 1) := by
  have h1 : j + 1 ≤ (secs.map Prod.fst).length := by simpa using hj
  have h2 : j ≤ (secs.map Prod.fst).length := by omega
  have h3 : j < (secs.map Prod.snd).length := by simpa using hj
  simp only [expectedReportAt, List.map_append, Nat.add_sub_cancel,
    alertingAt_append r N _ _ (j + 1) h1, alertingAt_append r N _ _ j h2,
    windowSum_append N _ _ (j + 1) h1, List.getD_append _ _ _ _ h3]

theorem expectedReports_append_singleton (r : Int) (N : Nat) (secs : List (Nat × Int))
    (e : Nat × Int) :
    expectedReports r N (secs ++ [e])
      = expectedReports r N secs ++ expectedReportAt r N (secs ++ [e]) (secs.length + 1) := by
  simp only [expectedReports, List.length_append, List.length_singleton, List.range_succ,
    List.flatMap_append, List.flatMap_singleton]
  congr 1
  apply List.flatMap_congr
  intro i hi
  exact expectedReportAt_append r N secs [e] i (by simpa using List.mem_range.1 hi)

theorem sum_map_natCast (l : List Nat) :
    (l.map (fun h : Nat => (h : Int))).sum = ((l.sum : Nat) : Int) := by
  induction l with
  | nil => rfl
  | cons a l ih => simp only [List.map_cons, List.sum_cons, ih]; push_cast; rfl

theorem windowSum_length (N : Nat) (hs : List Nat) :
    windowSum N hs hs.length = ((hs.drop (hs.length - N)).map (fun h : Nat => (h : Int))).sum := by
  rw [sum_map_natCast]
  simp only [windowSum, List.take_length]
  congr 3
  omega

/-- The result of `checkAlerts` on a state whose alert flag stands for the boolean `b`. -/
theorem Monitor.checkAlerts_eq (m : Monitor) (b : Bool)
    (hb : m.alert = if b then AlertState.AlertTraffic else AlertState.AlertNone) :
    m.checkAlerts =
      ({ m with alert := if decide (m.threshold ≤ m.totalHits) then AlertState.AlertTraffic
                         else AlertState.AlertNone },
       if decide (m.threshold ≤ m.totalHits) = b then []
       else [⟨if decide (m.threshold ≤ m.totalHits) then AlertState.AlertTraffic
              else AlertState.AlertNone, m.totalHits, m.tick⟩]) := by
  obtain ⟨q, c, th, tot, thr, al, tk⟩ := m
  simp only at hb
  subst hb
  cases b <;> by_cases hge : thr ≤ tot <;> simp [Monitor.checkAlerts, hge]

theorem Monitor.run_tick {m m1 : Monitor} {out : List AlertReport} {t : Int}
    (h : m.Tick t = some (m1, out)) : m.run [MonitorCall.Tick t] = some (m1, out) := by
  simp [Monitor.run, Monitor.call, h]

/-- Playing one more second on a monitor that satisfies the window invariant. -/
theorem WindowInv.second {r : Int} {N : Nat} (hN : 1 ≤ N) {secs : List (Nat × Int)}
    {m : Monitor} (h : WindowInv r N (secs.map Prod.fst) m) (e : Nat × Int) :
    ∃ m1, m.run (secondCalls e)
        = some (m1, expectedReportAt r N (secs ++ [e]) (secs.length + 1)) ∧
      WindowInv r N ((secs ++ [e]).map Prod.fst) m1 := by
  obtain ⟨hcap, hthr, hth, hq, htot, hal⟩ := h
  set hs := secs.map Prod.fst with hhs
  have hk : hs.length = secs.length := by simp [hhs]
  -- the state after the hits of this second
  have hhits := Monitor.run_replicate_hit e.1 m
  rw [hth, zero_add] at hhits
  -- the window update
  have hupd : ∃ m0, Monitor.evict { m with tickHits := (e.1 : Int) } = some m0 ∧
      m0.capacity = (N : Int) ∧ m0.threshold = r ∧ m0.tickHits = (e.1 : Int) ∧
      m0.alert = m.alert ∧
      m0.queue ++ [(e.1 : Int)]
        = ((hs ++ [e.1]).drop ((hs ++ [e.1]).length - N)).map (fun h : Nat => (h : Int)) ∧
      m0.totalHits + (e.1 : Int) = (m0.queue ++ [(e.1 : Int)]).sum := by
    rw [windowSum_length] at htot
    by_cases hfull : N ≤ hs.length
    · have hlt : hs.length - N < hs.length := by omega
      have hdrop : hs.drop (hs.length - N) = hs[hs.length - N] :: hs.drop (hs.length - N + 1) :=
        List.drop_eq_getElem_cons hlt
      rw [hdrop, List.map_cons] at hq
      have hlen : ((m.queue.length : Nat) : Int) = m.capacity := by
        rw [hcap, hq]
        simp only [List.length_cons, List.length_map, List.length_drop]
        congr 1
        omega
      refine ⟨_, Monitor.evict_cons (m := { m with tickHits := (e.1 : Int) }) hq hlen,
        hcap, hthr, rfl, rfl, ?_, ?_⟩
      · simp only [List.length_append, List.length_singleton]
        have h1 : hs.length + 1 - N = hs.length - N + 1 := by omega
        rw [h1, List.drop_append_of_le_length (by omega)]
        simp
      · simp only [List.sum_append, List.sum_singleton]
        rw [htot, hdrop, List.map_cons, List.sum_cons]
        ring
    · have hlt : hs.length < N := Nat.lt_of_not_le hfull
      have h0 : hs.length - N = 0 := by omega
      rw [h0, List.drop_zero] at hq
      have hlen : ((m.queue.length : Nat) : Int) ≠ m.capacity := by
        rw [hcap, hq, List.length_map]
        intro hc
        have := Int.ofNat.inj hc
        omega
      refine ⟨_, Monitor.evict_of_ne (m := { m with tickHits := (e.1 : Int) }) hlen,
        hcap, hthr, rfl, rfl, ?_, ?_⟩
      · simp only [List.length_append, List.length_singleton]
        have h1 : hs.length + 1 - N = 0 := by omega
        rw [h1, List.drop_zero]
        simp [hq]
      · simp only [List.sum_append, List.sum_singleton]
        rw [htot, h0, List.drop_zero, hq]
  obtain ⟨m0, hev, hcap0, hthr0, hth0, hal0, hq0, htot0⟩ := hupd
  have hS : (m0.pushTick e.2).totalHits
      = windowSum N (hs ++ [e.1]) (hs ++ [e.1]).length := by
    rw [windowSum_length, ← hq0, ← htot0]
    simp [Monitor.pushTick, hth0]
  have hb : (m0.pushTick e.2).alert
      = if alertingAt r N hs hs.length then AlertState.AlertTraffic else AlertState.AlertNone := by
    rw [← hal, ← hal0]
    rfl
  have hchk := Monitor.checkAlerts_eq (m0.pushTick e.2) _ hb
  have hthr2 : (m0.pushTick e.2).threshold = r := hthr0
  have htick : (Monitor.Tick { m with tickHits := (e.1 : Int) } e.2)
      = some ((m0.pushTick e.2).checkAlerts.1, (m0.pushTick e.2).checkAlerts.2) := by
    simp [Monitor.Tick, hev]
  have hlen1 : (hs ++ [e.1]).length = secs.length + 1 := by simp [hk]
  have hA : alertingAt r N (hs ++ [e.1]) (secs.length + 1)
      = decide (r ≤ (m0.pushTick e.2).totalHits) := by
    rw [hS, hlen1]
    rfl
  have hA0 : alertingAt r N (hs ++ [e.1]) secs.length = alertingAt r N hs hs.length := by
    rw [← hk]
    exact alertingAt_append r N hs [e.1] hs.length (le_refl _)
  have hout : (m0.pushTick e.2).checkAlerts.2
      = expectedReportAt r N (secs ++ [e]) (secs.length + 1) := by
    rw [hchk]
    have hget : (List.map Prod.snd secs ++ [e.2]).getD secs.length 0 = e.2 := by
      simp [List.getD_eq_getElem?_getD, List.getElem?_append_right]
    simp only [expectedReportAt, List.map_append, List.map_cons, List.map_nil,
      Nat.add_sub_cancel, ← hhs, hA, hA0, hthr2, hget, hS, hlen1]
    rfl
  refine ⟨(m0.pushTick e.2).checkAlerts.1, ?_, ?_⟩
  · rw [hout] at htick
    have hrun := Monitor.run_append hhits (Monitor.run_tick htick)
    rw [List.nil_append] at hrun
    exact hrun
  · obtain ⟨f1, f2, f3, f4, f5, -⟩ := (m0.pushTick e.2).checkAlerts_fields
    refine ⟨?_, ?_, ?_, ?_, ?_, ?_⟩
    · rw [f2]; exact hcap0
    · rw [f4]; exact hthr0
    · rw [f5]; rfl
    · rw [f1]
      simp only [List.map_append, List.map_cons, List.map_nil, ← hhs]
      rw [← hq0]
      simp [Monitor.pushTick, hth0]
    · rw [f3]
      simp only [List.map_append, List.map_cons, List.map_nil, ← hhs]
      exact hS
    · rw [hchk]
      simp only [List.map_append, List.map_cons, List.map_nil, ← hhs, hlen1, hA, hthr2]

theorem trafficCalls_append_singleton (secs : List (Nat × Int)) (e : Nat × Int) :
    trafficCalls (secs ++ [e]) = trafficCalls secs ++ secondCalls e := by
  simp [trafficCalls, List.flatMap_append]

theorem WindowInv.init_window (r : Int) (N : Nat) :
    WindowInv (wrapInt64 (r * (N : Int))) N [] (NewMonitor r N) :=
  ⟨rfl, rfl, rfl, by simp [NewMonitor], by simp [NewMonitor, windowSum],
    by simp [NewMonitor, alertingAt]⟩

/-- Playing a sequence of seconds on a fresh monitor sends the expected reports and
establishes the window invariant. -/
theorem WindowInv.run_window (r : Int) (N : Nat) (hN : 1 ≤ N) (secs : List (Nat × Int)) :
    ∃ m, (NewMonitor r N).run (trafficCalls secs)
        = some (m, expectedReports (wrapInt64 (r * (N : Int))) N secs) ∧
      WindowInv (wrapInt64 (r * (N : Int))) N (secs.map Prod.fst) m := by
  induction secs using List.reverseRecOn with
  | nil => exact ⟨NewMonitor r N, rfl, WindowInv.init_window r N⟩
  | append_singleton secs e ih =>
    obtain ⟨m, hrun, hinv⟩ := ih
    obtain ⟨m1, hsec, hinv1⟩ := hinv.second hN e
    refine ⟨m1, ?_, hinv1⟩
    rw [trafficCalls_append_singleton, expectedReports_append_singleton]
    exact Monitor.run_append hrun hsec

/-- C4, as stated, fails where `r * N` leaves the 64-bit range: for `r = 2^62` and `N = 4`
the threshold of the monitor is 0, and the first `Tick`, after no hit, sends an
`AlertTraffic` report, though `S_1 = 0` is below `r * N = 2^64` as it was before. -/
theorem Monitor.sliding_window_counterexample :
    ((NewMonitor 4611686018427387904 (4 : Nat)).run (trafficCalls [(0, 1)])).map Prod.snd
      = some [⟨AlertState.AlertTraffic, 0, 1⟩] ∧
    expectedReports (4611686018427387904 * ((4 : Nat) : Int)) 4 [(0, 1)] = [] ∧
    windowSum 4 [0] 1 = 0 ∧ (4611686018427387904 : Int) * ((4 : Nat) : Int) > 0 := by
  decide

/-- C4, amended: sliding-window correctness of the traffic monitor. For `NewMonitor r N`
with `N ≥ 1`, `θ` the product `r * N` in 64-bit arithmetic (which is `r * N` whenever
that is in the 64-bit range), and every sequence of seconds (hit count `h_k`, tick value
`t_k`), where `h_k` calls of `Hit` precede the `k`-th `Tick`: the calls return, after the
last `Tick` `totalHits` is `S_k`, the sum of the last `min k N` counts, and the reports
sent are the expected ones, that is, at the `k`-th `Tick` one report exactly when
`S_k ≥ θ` differs from `S_(k-1) ≥ θ` (Normal before the first tick), being `AlertTraffic`
when `S_k ≥ θ` and `AlertNone` otherwise, with `S_k` and `t_k`; this holds of the whole
run and of the step that plays one more second `e`. With `N = 3`, `r = 1` and counts
`[3, 1, 0, 0]` at ticks `c+1 .. c+4` the reports are `(AlertTraffic, 3, c+1)` and
`(AlertNone, 1, c+4)`. -/
theorem Monitor.sliding_window (r : Int) (N : Nat) (hN : 1 ≤ N) (seconds : List (Nat × Int))
    (e : Nat × Int) :
    (∃ m m1,
      (NewMonitor r N).run (trafficCalls seconds)
        = some (m, expectedReports (wrapInt64 (r * (N : Int))) N seconds) ∧
      m.totalHits = windowSum N (seconds.map Prod.fst) seconds.length ∧
      m.run (secondCalls e)
        = some (m1, expectedReportAt (wrapInt64 (r * (N : Int))) N (seconds ++ [e])
            (seconds.length + 1)) ∧
      m1.totalHits = windowSum N ((seconds ++ [e]).map Prod.fst) (seconds.length + 1)) ∧
    (minInt64 ≤ r * (N : Int) → r * (N : Int) ≤ maxInt64 →
      wrapInt64 (r * (N : Int)) = r * (N : Int)) ∧
    ∀ c : Int,
      ((NewMonitor 1 3).run (trafficCalls [(3, c + 1), (1, c + 2), (0, c + 3), (0, c + 4)])).map
          Prod.snd
        = some [⟨AlertState.AlertTraffic, 3, c + 1⟩, ⟨AlertState.AlertNone, 1, c + 4⟩] := by
  refine ⟨?_, fun hlo hhi => wrapInt64_of_range hlo hhi, ?_⟩
  · obtain ⟨m, hrun, hinv⟩ := WindowInv.run_window r N hN seconds
    obtain ⟨m1, hsec, hinv1⟩ := hinv.second hN e
    refine ⟨m, m1, hrun, ?_, hsec, ?_⟩
    · have := hinv.total
      simpa using this
    · have := hinv1.total
      simpa using this
  · intro c
    have hthr : (NewMonitor 1 3).threshold = 3 := by decide
    simp [trafficCalls, secondCalls, Monitor.run, Monitor.call, Monitor.Tick, Monitor.Hit,
      Monitor.evict, Monitor.pushTick, Monitor.checkAlerts, hthr]
    simp [NewMonitor]

/-- The sliding-window theorem on the seconds of `TestMonitor`, followed by a fifth
second with four hits. -/
theorem Monitor.sliding_window_witness :
    1 ≤ 3 ∧
    (∃ m m1,
      (NewMonitor 1 (3 : Nat)).run (trafficCalls [(3, 11), (1, 12), (0, 13), (0, 14)])
        = some (m, expectedReports (wrapInt64 (1 * ((3 : Nat) : Int))) 3
            [(3, 11), (1, 12), (0, 13), (0, 14)]) ∧
      m.totalHits
        = windowSum 3 ([((3 : Nat), (11 : Int)), (1, 12), (0, 13), (0, 14)].map Prod.fst)
            [((3 : Nat), (11 : Int)), (1, 12), (0, 13), (0, 14)].length ∧
      m.run (secondCalls (4, 15))
        = some (m1, expectedReportAt (wrapInt64 (1 * ((3 : Nat) : Int))) 3
            ([(3, 11), (1, 12), (0, 13), (0, 14)] ++ [(4, 15)])
            ([((3 : Nat), (11 : Int)), (1, 12), (0, 13), (0, 14)].length + 1)) ∧
      m1.totalHits
        = windowSum 3 (([((3 : Nat), (11 : Int)), (1, 12), (0, 13), (0, 14)] ++ [(4, 15)]).map
            Prod.fst) ([((3 : Nat), (11 : Int)), (1, 12), (0, 13), (0, 14)].length + 1)) ∧
    (minInt64 ≤ 1 * ((3 : Nat) : Int) → 1 * ((3 : Nat) : Int) ≤ maxInt64 →
      wrapInt64 (1 * ((3 : Nat) : Int)) = 1 * ((3 : Nat) : Int)) ∧
    ∀ c : Int,
      ((NewMonitor 1 3).run (trafficCalls [(3, c + 1), (1, c + 2), (0, c + 3), (0, c + 4)])).map
          Prod.snd
        = some [⟨AlertState.AlertTraffic, 3, c + 1⟩, ⟨AlertState.AlertNone, 1, c + 4⟩] :=
  ⟨by decide, Monitor.sliding_window 1 3 (by decide) [(3, 11), (1, 12), (0, 13), (0, 14)] (4, 15)⟩

/-! ### The ordered index of the stats tracker -/

theorem BTree.eq_of_hits_eq {t : BTree} (ht : BTree.Ordered t) {x y : TopKEntry}
    (hx : x ∈ t) (hy : y ∈ t) (h : x.hits = y.hits) : x = y := by
  induction t with
  | nil => cases hx
  | cons a t ih =>
    have hp := List.pairwise_cons.1 ht
    rcases List.mem_cons.1 hx with rfl | hx1 <;> rcases List.mem_cons.1 hy with rfl | hy1
    · rfl
    · have := hp.1 y hy1; omega
    · have := hp.1 x hx1; omega
    · exact ih hp.2 hx1 hy1

theorem BTree.Get_eq_some {t : BTree} {c : Int} {e : TopKEntry} (h : t.Get c = some e) :
    e ∈ t ∧ e.hits = c := by
  unfold BTree.Get at h
  exact ⟨List.mem_of_find?_eq_some h, by simpa using List.find?_some h⟩

theorem BTree.Get_eq_none {t : BTree} {c : Int} (h : t.Get c = none) :
    ∀ e ∈ t, e.hits ≠ c := by
  unfold BTree.Get at h
  intro e he
  simpa using List.find?_eq_none.1 h e he

theorem BTree.Get_of_mem {t : BTree} (ht : BTree.Ordered t) {e : TopKEntry} (he : e ∈ t) :
    t.Get e.hits = some e := by
  cases hg : t.Get e.hits with
  | none => exact absurd rfl (BTree.Get_eq_none hg e he)
  | some e1 =>
    obtain ⟨h1, h2⟩ := BTree.Get_eq_some hg
    rw [BTree.eq_of_hits_eq ht h1 he h2]

theorem BTree.mem_setSections {t : BTree} {c : Int} {secs : SectionSet} {x : TopKEntry} :
    x ∈ t.setSections c secs ↔
      (x ∈ t ∧ x.hits ≠ c) ∨ (x = ⟨c, secs⟩ ∧ ∃ e ∈ t, e.hits = c) := by
  unfold BTree.setSections
  rw [List.mem_map]
  constructor
  · rintro ⟨e, he, rfl⟩
    by_cases hc : e.hits = c
    · right
      refine ⟨?_, e, he, hc⟩
      simp only [hc, if_true]
    · left
      simp only [hc, if_false]
      exact ⟨he, hc⟩
  · rintro (⟨hx, hc⟩ | ⟨rfl, e, he, hc⟩)
    · exact ⟨x, hx, by simp [hc]⟩
    · exact ⟨e, he, by simp [hc]⟩

theorem BTree.Ordered.setSections {t : BTree} (ht : BTree.Ordered t) (c : Int)
    (secs : SectionSet) : BTree.Ordered (t.setSections c secs) := by
  unfold BTree.Ordered BTree.setSections
  rw [List.pairwise_map]
  refine List.Pairwise.imp ?_ ht
  intro a b hab
  by_cases ha : a.hits = c <;> by_cases hb : b.hits = c <;> simp [ha, hb] <;> omega

theorem BTree.mem_Delete {t : BTree} {c : Int} {x : TopKEntry} :
    x ∈ t.Delete c ↔ x ∈ t ∧ x.hits ≠ c := by
  simp [BTree.Delete, List.mem_filter]

theorem BTree.Ordered.Delete {t : BTree} (ht : BTree.Ordered t) (c : Int) :
    BTree.Ordered (t.Delete c) :=
  List.Pairwise.sublist (List.filter_sublist _) ht

theorem BTree.mem_ReplaceOrInsert {t : BTree} {item x : TopKEntry}
    (h : x ∈ t.ReplaceOrInsert item) : x = item ∨ x ∈ t := by
  induction t with
  | nil => simpa [BTree.ReplaceOrInsert] using h
  | cons e rest ih =>
    simp only [BTree.ReplaceOrInsert] at h
    split at h
    · rcases List.mem_cons.1 h with h | h
      · exact Or.inl h
      · exact Or.inr h
    · split at h
      · rcases List.mem_cons.1 h with h | h
        · exact Or.inr (h ▸ List.mem_cons_self _ _)
        · rcases ih h with h | h
          · exact Or.inl h
          · exact Or.inr (List.mem_cons_of_mem _ h)
      · rcases List.mem_cons.1 h with h | h
        · exact Or.inl h
        · exact Or.inr (List.mem_cons_of_mem _ h)

theorem BTree.mem_ReplaceOrInsert_of_fresh {t : BTree} {item x : TopKEntry}
    (hfresh : ∀ e ∈ t, e.hits ≠ item.hits) :
    x ∈ t.ReplaceOrInsert item ↔ x = item ∨ x ∈ t := by
  refine ⟨BTree.mem_ReplaceOrInsert, ?_⟩
  induction t with
  | nil => intro h; simpa [BTree.ReplaceOrInsert] using h
  | cons e rest ih =>
    intro h
    have he := hfresh e (List.mem_cons_self _ _)
    have hrest : ∀ e ∈ rest, e.hits ≠ item.hits :=
      fun e1 h1 => hfresh e1 (List.mem_cons_of_mem _ h1)
    simp only [BTree.ReplaceOrInsert]
    split
    · rcases h with rfl | h
      · exact List.mem_cons_self _ _
      · exact List.mem_cons_of_mem _ h
    · split
      · rcases h with rfl | h
        · exact List.mem_cons_of_mem _ (ih hrest (Or.inl rfl))
        · rcases List.mem_cons.1 h with rfl | h
          · exact List.mem_cons_self _ _
          · exact List.mem_cons_of_mem _ (ih hrest (Or.inr h))
      · exfalso; omega

theorem BTree.Ordered.ReplaceOrInsert {t : BTree} (ht : BTree.Ordered t) (item : TopKEntry) :
    BTree.Ordered (t.ReplaceOrInsert item) := by
  induction t with
  | nil => simp [BTree.ReplaceOrInsert, BTree.Ordered]
  | cons e rest ih =>
    have hp := List.pairwise_cons.1 ht
    simp only [BTree.ReplaceOrInsert]
    split
    · next hlt =>
      refine List.pairwise_cons.2 ⟨?_, ht⟩
      intro b hb
      rcases List.mem_cons.1 hb with rfl | hb
      · exact hlt
      · exact lt_trans hlt (hp.1 b hb)
    · split
      · next hgt =>
        refine List.pairwise_cons.2 ⟨?_, ih hp.2⟩
        intro b hb
        rcases BTree.mem_ReplaceOrInsert hb with rfl | hb
        · exact hgt
        · exact hp.1 b hb
      · next h1 h2 =>
        have heq : item.hits = e.hits := by omega
        refine List.pairwise_cons.2 ⟨?_, hp.2⟩
        intro b hb
        rw [heq]
        exact hp.1 b hb

theorem IndexInv.empty : IndexInv (fun _ => none) [] :=
  ⟨List.Pairwise.nil, by simp, by simp, by simp, by simp, by simp⟩

theorem SectionSet.mem_delete {sections : SectionSet} {key k : String} :
    k ∈ sections.delete key ↔ k ∈ sections ∧ k ≠ key := by
  simp [SectionSet.delete, List.mem_filter]

/-- The first half of `Hit` on a counted section returns, and the index then fits the
count map without that section. -/
theorem IndexInv.leave {hits : String → Option Int} {t : BTree} (h : IndexInv hits t)
    {key : String} {c : Int} (hk : hits key = some c) :
    ∃ t2, Stats.leaveBucket t c key = some t2 ∧ IndexInv (Function.update hits key none) t2 := by
  obtain ⟨e, he, hec, hkey⟩ := h.complete key c hk
  have hget : t.Get c = some e := by rw [← hec]; exact BTree.Get_of_mem h.ordered he
  have huniq : ∀ x ∈ t, x.hits = c → x = e := fun x hx hxc =>
    BTree.eq_of_hits_eq h.ordered hx he (by rw [hxc, hec])
  -- the tree after the section left its bucket
  have hex : ∃ t2, Stats.leaveBucket t c key = some t2 ∧ BTree.Ordered t2 ∧
      ∀ x, x ∈ t2 ↔ (x ∈ t ∧ x.hits ≠ c) ∨
        (x = ⟨c, e.sections.delete key⟩ ∧ e.sections.delete key ≠ []) := by
    by_cases hemp : (e.sections.delete key).length = 0
    · refine ⟨(t.setSections c (e.sections.delete key)).Delete c, ?_, ?_, ?_⟩
      · simp [Stats.leaveBucket, hget, hemp]
      · exact (h.ordered.setSections _ _).Delete _
      · intro x
        have hnil : e.sections.delete key = [] := List.length_eq_zero.1 hemp
        rw [BTree.mem_Delete, BTree.mem_setSections]
        constructor
        · rintro ⟨h1 | h1, h2⟩
          · exact Or.inl h1
          · exact absurd (by rw [h1.1]) h2
        · rintro (h1 | h1)
          · exact ⟨Or.inl h1, h1.2⟩
          · exact absurd hnil h1.2
    · refine ⟨t.setSections c (e.sections.delete key), ?_, ?_, ?_⟩
      · simp [Stats.leaveBucket, hget, hemp]
      · exact h.ordered.setSections _ _
      · intro x
        have hne : e.sections.delete key ≠ [] := fun h0 => hemp (by rw [h0]; rfl)
        rw [BTree.mem_setSections]
        constructor
        · rintro (h1 | h1)
          · exact Or.inl h1
          · exact Or.inr ⟨h1.1, hne⟩
        · rintro (h1 | h1)
          · exact Or.inl h1
          · exact Or.inr ⟨h1.1, e, he, hec⟩
  obtain ⟨t2, hleave, hord, hmem⟩ := hex
  refine ⟨t2, hleave, hord, ?_, ?_, ?_, ?_, ?_⟩
  · intro x hx
    rcases (hmem x).1 hx with h1 | h1
    · exact h.nodup x h1.1
    · rw [h1.1]
      exact (h.nodup e he).sublist (List.filter_sublist _)
  · intro x hx
    rcases (hmem x).1 hx with h1 | h1
    · exact h.nonempty x h1.1
    · rw [h1.1]
      exact h1.2
  · intro x hx k hkx
    rcases (hmem x).1 hx with h1 | h1
    · have hs := h.sound x h1.1 k hkx
      have hne : k ≠ key := by
        rintro rfl
        rw [hk] at hs
        exact h1.2 (Option.some.inj hs).symm
      rw [Function.update_noteq hne]
      exact hs
    · rw [h1.1] at hkx ⊢
      obtain ⟨hk1, hne⟩ := SectionSet.mem_delete.1 hkx
      rw [Function.update_noteq hne]
      have := h.sound e he k hk1
      rw [hec] at this
      exact this
  · intro k c1 hk1
    by_cases hne : k = key
    · subst hne
      simp at hk1
    · rw [Function.update_noteq hne] at hk1
      obtain ⟨x, hx, hxc, hkx⟩ := h.complete k c1 hk1
      by_cases hc1 : c1 = c
      · subst hc1
        have hxe := huniq x hx hxc
        subst hxe
        have hkd : k ∈ x.sections.delete key := SectionSet.mem_delete.2 ⟨hkx, hne⟩
        refine ⟨⟨c1, x.sections.delete key⟩, (hmem _).2 (Or.inr ⟨rfl, ?_⟩), rfl, hkd⟩
        exact List.ne_nil_of_mem hkd
      · exact ⟨x, (hmem x).2 (Or.inl ⟨hx, by rw [hxc]; exact hc1⟩), hxc, hkx⟩
  · intro k c1 hk1
    by_cases hne : k = key
    · subst hne
      simp at hk1
    · rw [Function.update_noteq hne] at hk1
      exact h.positive k c1 hk1

/-- The second half of `Hit` on a section that is in no bucket: the index then fits the
count map with the section counted `c + 1`. -/
theorem IndexInv.join {hits : String → Option Int} {t : BTree} (h : IndexInv hits t)
    {key : String} (hk : hits key = none) (c : Int) (hc : 0 ≤ c) :
    IndexInv (Function.update hits key (some (c + 1))) (Stats.joinBucket t c key) := by
  have hnot : ∀ x ∈ t, key ∉ x.sections := by
    intro x hx hkx
    have := h.sound x hx key hkx
    rw [hk] at this
    cases this
  -- the tree after the section joined its bucket
  have hex : ∃ secs : SectionSet, BTree.Ordered (Stats.joinBucket t c key) ∧
      secs.Nodup ∧ key ∉ secs ∧ (∀ k ∈ secs, hits k = some (c + 1)) ∧
      ∀ x, x ∈ Stats.joinBucket t c key ↔
        (x ∈ t ∧ x.hits ≠ c + 1) ∨ x = ⟨c + 1, secs ++ [key]⟩ := by
    cases hget : t.Get (c + 1) with
    | none =>
      have hfresh := BTree.Get_eq_none hget
      refine ⟨[], ?_, List.nodup_nil, by simp, by simp, ?_⟩
      · simp only [Stats.joinBucket, hget]
        exact h.ordered.ReplaceOrInsert _
      · intro x
        simp only [Stats.joinBucket, hget, List.nil_append]
        rw [@BTree.mem_ReplaceOrInsert_of_fresh t ⟨c + 1, [key]⟩ x hfresh]
        constructor
        · rintro (h1 | h1)
          · exact Or.inr h1
          · exact Or.inl ⟨h1, hfresh x h1⟩
        · rintro (h1 | h1)
          · exact Or.inr h1.1
          · exact Or.inl h1
    | some item =>
      obtain ⟨hitem, hic⟩ := BTree.Get_eq_some hget
      have hkn : key ∉ item.sections := hnot item hitem
      refine ⟨item.sections, ?_, h.nodup item hitem, hkn, ?_, ?_⟩
      · simp only [Stats.joinBucket, hget]
        exact h.ordered.setSections _ _
      · intro k hk1
        rw [← hic]
        exact h.sound item hitem k hk1
      · intro x
        simp only [Stats.joinBucket, hget, SectionSet.set, hkn, if_false]
        rw [BTree.mem_setSections]
        constructor
        · rintro (h1 | h1)
          · exact Or.inl h1
          · exact Or.inr h1.1
        · rintro (h1 | h1)
          · exact Or.inl h1
          · exact Or.inr ⟨h1, item, hitem, hic⟩
  obtain ⟨secs, hord, hnd, hkn, hsecs, hmem⟩ := hex
  refine ⟨hord, ?_, ?_, ?_, ?_, ?_⟩
  · intro x hx
    rcases (hmem x).1 hx with h1 | h1
    · exact h.nodup x h1.1
    · rw [h1]
      exact List.Nodup.append hnd (List.nodup_singleton _) (by simpa using hkn)
  · intro x hx
    rcases (hmem x).1 hx with h1 | h1
    · exact h.nonempty x h1.1
    · rw [h1]
      simp
  · intro x hx k hkx
    rcases (hmem x).1 hx with h1 | h1
    · have hne : k ≠ key := by
        rintro rfl
        exact hnot x h1.1 hkx
      rw [Function.update_noteq hne]
      exact h.sound x h1.1 k hkx
    · rw [h1] at hkx ⊢
      simp only [List.mem_append, List.mem_singleton] at hkx
      rcases hkx with hkx | rfl
      · have hne : k ≠ key := by
          rintro rfl
          exact hkn hkx
        rw [Function.update_noteq hne]
        exact hsecs k hkx
      · simp
  · intro k c1 hk1
    by_cases hne : k = key
    · subst hne
      simp only [Function.update_same, Option.some.injEq] at hk1
      subst hk1
      exact ⟨_, (hmem _).2 (Or.inr rfl), rfl, by simp⟩
    · rw [Function.update_noteq hne] at hk1
      obtain ⟨x, hx, hxc, hkx⟩ := h.complete k c1 hk1
      by_cases hc1 : c1 = c + 1
      · subst hc1
        have hx1 : ⟨c + 1, secs ++ [key]⟩ ∈ Stats.joinBucket t c key := (hmem _).2 (Or.inr rfl)
        refine ⟨_, hx1, rfl, ?_⟩
        -- `x` is the bucket the section joined
        have hxg := BTree.Get_of_mem h.ordered hx
        rw [hxc] at hxg
        have : x.sections = secs := by
          simp only [Stats.joinBucket, hxg] at hmem
          have h2 := (hmem ⟨c + 1, secs ++ [key]⟩).2 (Or.inr rfl)
          rw [BTree.mem_setSections] at h2
          rcases h2 with h2 | h2
          · exact absurd rfl h2.2
          · have h3 := h2.1
            simp only [SectionSet.set, hnot x hx, if_false, TopKEntry.mk.injEq, true_and] at h3
            exact (List.append_cancel_right h3).symm
        rw [← this]
        simp [hkx]
      · exact ⟨x, (hmem x).2 (Or.inl ⟨hx, by rw [hxc]; exact hc1⟩), hxc, hkx⟩
  · intro k c1 hk1
    by_cases hne : k = key
    · subst hne
      simp only [Function.update_same, Option.some.injEq] at hk1
      omega
    · rw [Function.update_noteq hne] at hk1
      exact h.positive k c1 hk1

/-- On a state that satisfies the invariant `Hit` returns, adds one to the count of the
section, and keeps the invariant and the clock fields. -/
theorem StatsInv.Hit {s : Stats} (h : StatsInv s) (key : String) :
    ∃ s1, s.Hit key = some s1 ∧ StatsInv s1 ∧
      s1.hits = Function.update s.hits key (some ((s.hits key).getD 0 + 1)) ∧
      s1.tick = s.tick ∧ s1.tickReport = s.tickReport ∧ s1.interval = s.interval ∧
      s1.showTopK = s.showTopK := by
  cases hk : s.hits key with
  | none =>
    have hj := IndexInv.join h hk 0 (le_refl _)
    refine ⟨{ s with hits := Function.update s.hits key (some (0 + 1)),
                     topK := Stats.joinBucket s.topK 0 key }, ?_, hj, ?_, rfl, rfl, rfl, rfl⟩
    · simp [Stats.Hit, hk]
    · simp
  | some c =>
    obtain ⟨t2, hleave, hinv2⟩ := IndexInv.leave h hk
    have hc := h.positive key c hk
    have hj := IndexInv.join hinv2 (Function.update_same _ _ _) c (by omega)
    rw [Function.update_idem] at hj
    refine ⟨{ s with hits := Function.update s.hits key (some (c + 1)),
                     topK := Stats.joinBucket t2 c key }, ?_, hj, ?_, rfl, rfl, rfl, rfl⟩
    · simp [Stats.Hit, hk, hleave]
    · simp

theorem StatsInv.Clear (s : Stats) : StatsInv s.Clear := IndexInv.empty

theorem StatsInv.call_stats {s : Stats} (h : StatsInv s) (c : StatsCall) :
    ∃ s1 out, s.call c = some (s1, out) ∧ StatsInv s1 := by
  cases c with
  | Hit key =>
    obtain ⟨s1, hhit, hinv, -⟩ := h.Hit key
    exact ⟨s1, [], by simp [Stats.call, hhit], hinv⟩
  | Tick t =>
    refine ⟨(s.Tick t).1, (s.Tick t).2, rfl, ?_⟩
    unfold Stats.Tick
    simp only
    split
    · exact IndexInv.empty
    · exact h
  | Sync t => exact ⟨_, _, rfl, h⟩
  | Clear => exact ⟨_, _, rfl, IndexInv.empty⟩

theorem StatsInv.run_stats (calls : List StatsCall) :
    ∀ s : Stats, StatsInv s → ∃ s1 out, s.run calls = some (s1, out) ∧ StatsInv s1 := by
  induction calls with
  | nil => intro s h; exact ⟨s, [], rfl, h⟩
  | cons c rest ih =>
    intro s h
    obtain ⟨s1, out1, hcall, hinv1⟩ := h.call_stats c
    obtain ⟨s2, out2, hrun, hinv2⟩ := ih s1 hinv1
    exact ⟨s2, out1 ++ out2, by simp [Stats.run, hcall, hrun], hinv2⟩

theorem StatsInv.init_stats (interval : Int) : StatsInv (NewStats interval) := IndexInv.empty

theorem Stats.Hits_eq {s : Stats} {key : String} {c : Int} (hc : 1 ≤ c) :
    s.Hits key = c ↔ s.hits key = some c := by
  unfold Stats.Hits
  cases hk : s.hits key with
  | none => simp; omega
  | some c1 => simp

theorem StatsInv.Hits_eq_zero {s : Stats} (h : StatsInv s) {key : String} :
    s.Hits key = 0 ↔ s.hits key = none := by
  unfold Stats.Hits
  cases hk : s.hits key with
  | none => simp
  | some c1 =>
    have := h.positive key c1 hk
    simp
    omega

/-- C6: index invariant of the stats tracker. In every state reached from `NewStats` by
`Hit`, `Tick`, `Sync` and `Clear` calls (which all return): for every section and every
count `c ≥ 1` the section is in the bucket keyed by `c` exactly when its hit count is
`c`; a section lies in at most one bucket; a section without recorded hits is in no
bucket; and no bucket is empty. -/
theorem Stats.index_invariant (interval : Int) (calls : List StatsCall) :
    ∃ s out, (NewStats interval).run calls = some (s, out) ∧
      (∀ (key : String) (c : Int), 1 ≤ c →
        ((∃ e, s.topK.Get c = some e ∧ key ∈ e.sections) ↔ s.Hits key = c)) ∧
      (∀ (key : String) (e1 e2 : TopKEntry), e1 ∈ s.topK → e2 ∈ s.topK →
        key ∈ e1.sections → key ∈ e2.sections → e1 = e2) ∧
      (∀ key : String, s.Hits key = 0 → ∀ e ∈ s.topK, key ∉ e.sections) ∧
      (∀ e ∈ s.topK, e.sections ≠ []) := by
  obtain ⟨s, out, hrun, hinv⟩ := StatsInv.run_stats calls _ (StatsInv.init_stats interval)
  refine ⟨s, out, hrun, ?_, ?_, ?_, hinv.nonempty⟩
  · intro key c hc
    rw [Stats.Hits_eq hc]
    constructor
    · rintro ⟨e, hget, hkey⟩
      obtain ⟨he, hec⟩ := BTree.Get_eq_some hget
      rw [← hec]
      exact hinv.sound e he key hkey
    · intro hk
      obtain ⟨e, he, hec, hkey⟩ := hinv.complete key c hk
      exact ⟨e, by rw [← hec]; exact BTree.Get_of_mem hinv.ordered he, hkey⟩
  · intro key e1 e2 h1 h2 hk1 hk2
    have a1 := hinv.sound e1 h1 key hk1
    have a2 := hinv.sound e2 h2 key hk2
    rw [a1] at a2
    exact BTree.eq_of_hits_eq hinv.ordered h1 h2 (Option.some.inj a2)
  · intro key h0 e he hkey
    have a1 := hinv.sound e he key hkey
    rw [hinv.Hits_eq_zero.1 h0] at a1
    cases a1

/-- One `Hit` raises the count of its section by one and leaves the other counts. -/
theorem StatsInv.Hits_Hit {s : Stats} (h : StatsInv s) (key : String) :
    ∃ s1, s.Hit key = some s1 ∧ StatsInv s1 ∧ s1.Hits key = s.Hits key + 1 ∧
      ∀ k, k ≠ key → s1.Hits k = s.Hits k := by
  obtain ⟨s1, hhit, hinv, hhits, -⟩ := h.Hit key
  refine ⟨s1, hhit, hinv, ?_, ?_⟩
  · simp only [Stats.Hits, hhits, Function.update_same]
    cases s.hits key <;> simp
  · intro k hk
    simp only [Stats.Hits, hhits, Function.update_noteq hk]

theorem StatsInv.run_hit_list (keys : List String) :
    ∀ s0 : Stats, StatsInv s0 →
      ∃ s, s0.run (keys.map StatsCall.Hit) = some (s, []) ∧ StatsInv s ∧
        ∀ k, s.Hits k = s0.Hits k + (keys.count k : Int) := by
  induction keys with
  | nil => intro s0 h; exact ⟨s0, rfl, h, by simp⟩
  | cons key keys ih =>
    intro s0 h
    obtain ⟨s1, hhit, hinv1, hsame, hother⟩ := h.Hits_Hit key
    obtain ⟨s, hrun, hinv, hcount⟩ := ih s1 hinv1
    refine ⟨s, by simp [Stats.run, Stats.call, hhit, hrun], hinv, ?_⟩
    intro k
    rw [hcount k, List.count_cons]
    by_cases hk : k = key
    · subst hk
      rw [hsame]
      simp
      ring
    · rw [hother k hk]
      have : (key == k) = false := by simpa using fun h1 => hk h1.symm
      simp [this]

/-- C7: hit counting. For every sequence of `Hit` calls made on a stats tracker since its
construction, or since a `Clear` in any reachable state, `Hits` of every section equals
the number of `Hit` calls for it (0 when never hit); in every reachable state one `Hit`
raises the count of its section by exactly 1 and leaves every other count; the hits of
`makeTests` yield the counts 8, 7, 6, 5, 2, 4. -/
theorem Stats.Hits_count (interval : Int) (pre : List StatsCall) (keys : List String)
    (key : String) :
    (∃ s, (NewStats interval).run (keys.map StatsCall.Hit) = some (s, []) ∧
      ∀ k, s.Hits k = (keys.count k : Int)) ∧
    (∃ s0 out0 s s1, (NewStats interval).run pre = some (s0, out0) ∧
      s0.Clear.run (keys.map StatsCall.Hit) = some (s, []) ∧
      (∀ k, s.Hits k = (keys.count k : Int)) ∧
      s0.Hit key = some s1 ∧ s1.Hits key = s0.Hits key + 1 ∧
      ∀ k, k ≠ key → s1.Hits k = s0.Hits k) ∧
    ((NewStats 10).run makeTestsCalls).map (fun r =>
        [r.1.Hits "/api", r.1.Hits "/report", r.1.Hits "/admin", r.1.Hits "/user",
         r.1.Hits "/login", r.1.Hits "/logout", r.1.Hits "/other"])
      = some [8, 7, 6, 5, 2, 4, 0] := by
  refine ⟨?_, ?_, by decide⟩
  · obtain ⟨s, hrun, -, hcount⟩ := StatsInv.run_hit_list keys _ (StatsInv.init_stats interval)
    exact ⟨s, hrun, fun k => by rw [hcount k]; simp [Stats.Hits, NewStats]⟩
  · obtain ⟨s0, out0, hrun0, hinv0⟩ := StatsInv.run_stats pre _ (StatsInv.init_stats interval)
    obtain ⟨s, hrun, -, hcount⟩ := StatsInv.run_hit_list keys _ (StatsInv.Clear s0)
    obtain ⟨s1, hhit, -, hsame, hother⟩ := hinv0.Hits_Hit key
    exact ⟨s0, out0, s, s1, hrun0, hrun,
      fun k => by rw [hcount k]; simp [Stats.Hits, Stats.Clear], hhit, hsame, hother⟩

/-- C10: `Clear` resets the tracker. For every state, after `Clear` the count of every
section is 0 and `TopK k` is empty for every `k`, while `tick`, the report boundary
`tickReport` and `interval` are unchanged. -/
theorem Stats.Clear_resets (s : Stats) :
    (∀ key, s.Clear.Hits key = 0) ∧ (∀ k, s.Clear.TopK k = []) ∧
    s.Clear.tick = s.tick ∧ s.Clear.tickReport = s.tickReport ∧
    s.Clear.interval = s.interval := by
  refine ⟨fun key => rfl, fun k => ?_, rfl, rfl, rfl⟩
  simp [Stats.TopK, Stats.Clear, BTree.Len]

/-! ### The descent of `TopK` -/

theorem groupResults_cons (i : TopKEntry) (rest : List TopKEntry) :
    groupResults (i :: rest) = i.results ++ groupResults rest := by
  simp [groupResults]

theorem groupResults_append (a b : List TopKEntry) :
    groupResults (a ++ b) = groupResults a ++ groupResults b := by
  simp [groupResults]

theorem mem_groupResults {l : List TopKEntry} {r : TopKResult} :
    r ∈ groupResults l ↔ ∃ e ∈ l, r.hits = e.hits ∧ r.section_ ∈ e.sections := by
  simp only [groupResults, List.mem_flatMap, TopKEntry.results, List.mem_map]
  constructor
  · rintro ⟨e, he, sec, hsec, rfl⟩
    exact ⟨e, he, rfl, hsec⟩
  · rintro ⟨e, he, h1, h2⟩
    exact ⟨e, he, r.section_, h2, by rw [← h1]⟩

/-- The descent from `k ≥ 0` stops after a first run of items: the items before the last
visited one hold fewer than `k` sections (when there are any), and the descent only stops
short of the end when `k` sections or more were appended. -/
theorem Stats.descend_split (items : List TopKEntry) :
    ∀ (k : Int) (result : List TopKResult), 0 ≤ k → items ≠ [] →
      ∃ pre g post, items = pre ++ g :: post ∧
        Stats.descend items k result = result ++ groupResults pre ++ g.results ∧
        (pre = [] ∨ ((groupResults pre).length : Int) < k) ∧
        (post = [] ∨ k ≤ ((groupResults pre).length : Int) + (g.results.length : Int)) := by
  induction items with
  | nil => intro k result _ h; exact absurd rfl h
  | cons i rest ih =>
    intro k result hk0 _
    have hneg : ¬ k < 0 := not_lt.2 hk0
    have hlen : i.results.length = i.sections.length := by simp [TopKEntry.results]
    by_cases hk : k - (i.sections.length : Int) > 0
    · by_cases hrest : rest = []
      · subst hrest
        refine ⟨[], i, [], rfl, ?_, Or.inl rfl, Or.inl rfl⟩
        simp [Stats.descend, hneg, hk, groupResults, TopKEntry.results]
      · obtain ⟨pre, g, post, hsplit, hdesc, hpre, hpost⟩ :=
          ih (k - (i.sections.length : Int)) (result ++ i.results) (by omega) hrest
        refine ⟨i :: pre, g, post, by rw [hsplit]; rfl, ?_, Or.inr ?_, ?_⟩
        · simp only [Stats.descend, hneg, if_false, hk, if_true]
          rw [groupResults_cons]
          simpa [TopKEntry.results, List.append_assoc] using hdesc
        · rw [groupResults_cons, List.length_append, hlen]
          rcases hpre with rfl | hpre
          · simp [groupResults]; omega
          · push_cast; omega
        · rcases hpost with rfl | hpost
          · exact Or.inl rfl
          · right
            rw [groupResults_cons, List.length_append, hlen]
            push_cast
            omega
    · refine ⟨[], i, rest, rfl, ?_, Or.inl rfl, Or.inr ?_⟩
      · simp [Stats.descend, hneg, hk, groupResults, TopKEntry.results]
      · simp only [groupResults, List.flatMap_nil, List.length_nil, hlen]
        push_cast
        omega

/-- Whatever `k` is, the descent appends the results of a first run of the items. -/
theorem Stats.descend_prefix (items : List TopKEntry) :
    ∀ (k : Int) (result : List TopKResult),
      ∃ pre post, items = pre ++ post ∧
        Stats.descend items k result = result ++ groupResults pre := by
  induction items with
  | nil => intro k result; exact ⟨[], [], rfl, by simp [Stats.descend, groupResults]⟩
  | cons i rest ih =>
    intro k result
    have hstep : Stats.descend (i :: rest) k result
        = if (if k < 0 then wrapInt64 (k - (i.sections.length : Int))
              else k - (i.sections.length : Int)) > 0
          then Stats.descend rest
            (if k < 0 then wrapInt64 (k - (i.sections.length : Int))
              else k - (i.sections.length : Int))
            (result ++ i.results)
          else result ++ i.results := rfl
    rw [hstep]
    by_cases hk1 : (if k < 0 then wrapInt64 (k - (i.sections.length : Int))
        else k - (i.sections.length : Int)) > 0
    · rw [if_pos hk1]
      obtain ⟨pre, post, hsplit, hdesc⟩ := ih
        (if k < 0 then wrapInt64 (k - (i.sections.length : Int))
          else k - (i.sections.length : Int))
        (result ++ i.results)
      refine ⟨i :: pre, post, by rw [hsplit]; rfl, ?_⟩
      rw [hdesc, groupResults_cons, List.append_assoc]
    · rw [if_neg hk1]
      exact ⟨[i], rest, rfl, by simp [groupResults]⟩

/-- The result of `TopK` is made of the results of a first run of the buckets, taken
from the greatest count down. -/
theorem Stats.TopK_eq_groups (s : Stats) (k : Int) :
    ∃ pre post, s.topK.reverse = pre ++ post ∧ s.TopK k = groupResults pre := by
  unfold Stats.TopK
  split
  · exact ⟨[], s.topK.reverse, rfl, rfl⟩
  · obtain ⟨pre, post, hsplit, hdesc⟩ := Stats.descend_prefix s.topK.reverse k []
    exact ⟨pre, post, hsplit, by rw [hdesc, List.nil_append]⟩

/-- The buckets of a state that satisfies the invariant, listed from the greatest count
down, have strictly falling counts. -/
theorem StatsInv.reverse_desc {s : Stats} (h : StatsInv s) :
    List.Pairwise (fun a b : TopKEntry => b.hits < a.hits) s.topK.reverse :=
  List.pairwise_reverse.2 h.ordered

theorem groupResults_sorted (l : List TopKEntry)
    (hl : List.Pairwise (fun a b : TopKEntry => b.hits < a.hits) l) :
    List.Pairwise (fun a b : TopKResult => b.hits ≤ a.hits) (groupResults l) := by
  induction l with
  | nil => simp [groupResults]
  | cons i rest ih =>
    have hp := List.pairwise_cons.1 hl
    rw [groupResults_cons, List.pairwise_append]
    refine ⟨?_, ih hp.2, ?_⟩
    · simp only [TopKEntry.results, List.pairwise_map]
      exact List.Pairwise.imp (fun _ => le_refl _) (List.pairwise_of_forall (fun _ _ => trivial))
    · intro a ha b hb
      obtain ⟨e, he, hbe, -⟩ := mem_groupResults.1 hb
      simp only [TopKEntry.results, List.mem_map] at ha
      obtain ⟨sec, -, rfl⟩ := ha
      rw [hbe]
      exact le_of_lt (hp.1 e he)

theorem StatsInv.groupResults_nodup {s : Stats} (h : StatsInv s) (l : List TopKEntry)
    (hl : List.Pairwise (fun a b : TopKEntry => b.hits < a.hits) l)
    (hmem : ∀ e ∈ l, e ∈ s.topK) :
    ((groupResults l).map TopKResult.section_).Nodup := by
  induction l with
  | nil => simp [groupResults]
  | cons i rest ih =>
    have hp := List.pairwise_cons.1 hl
    have hi := hmem i (List.mem_cons_self _ _)
    rw [groupResults_cons, List.map_append, List.nodup_append]
    refine ⟨?_, ih hp.2 (fun e he => hmem e (List.mem_cons_of_mem _ he)), ?_⟩
    · have : i.results.map TopKResult.section_ = i.sections := by
        simp [TopKEntry.results, Function.comp_def]
      rw [this]
      exact h.nodup i hi
    · intro sec h1 h2
      obtain ⟨a, ha, rfl⟩ := List.mem_map.1 h1
      obtain ⟨b, hb, hab⟩ := List.mem_map.1 h2
      simp only [TopKEntry.results, List.mem_map] at ha
      obtain ⟨sec, hsec, rfl⟩ := ha
      obtain ⟨e, he, -, hbsec⟩ := mem_groupResults.1 hb
      rw [hab] at hbsec
      have h3 := h.sound i hi sec hsec
      have h4 := h.sound e (hmem e (List.mem_cons_of_mem _ he)) sec hbsec
      rw [h3] at h4
      have := hp.1 e he
      have := Option.some.inj h4
      omega

/-- C8: `TopK` is sorted and accurate. In every state reached from `NewStats` by `Hit`,
`Tick`, `Sync` and `Clear` calls and for every `k`, the list returned by `TopK k` is
non-increasing in hit count, contains no section twice, and every returned pair
`(sec, h)` has `h = Hits sec ≥ 1`. -/
theorem Stats.TopK_sorted (interval : Int) (calls : List StatsCall) (k : Int) :
    ∃ s out, (NewStats interval).run calls = some (s, out) ∧
      List.Pairwise (fun a b : TopKResult => b.hits ≤ a.hits) (s.TopK k) ∧
      ((s.TopK k).map TopKResult.section_).Nodup ∧
      ∀ r ∈ s.TopK k, r.hits = s.Hits r.section_ ∧ 1 ≤ r.hits := by
  obtain ⟨s, out, hrun, hinv⟩ := StatsInv.run_stats calls _ (StatsInv.init_stats interval)
  obtain ⟨pre, post, hsplit, htop⟩ := Stats.TopK_eq_groups s k
  have hdesc : List.Pairwise (fun a b : TopKEntry => b.hits < a.hits) pre := by
    have := hinv.reverse_desc
    rw [hsplit] at this
    exact (List.pairwise_append.1 this).1
  have hmem : ∀ e ∈ pre, e ∈ s.topK := by
    intro e he
    have : e ∈ s.topK.reverse := by rw [hsplit]; exact List.mem_append_left _ he
    exact List.mem_reverse.1 this
  refine ⟨s, out, hrun, ?_, ?_, ?_⟩
  · rw [htop]; exact groupResults_sorted pre hdesc
  · rw [htop]; exact hinv.groupResults_nodup pre hdesc hmem
  · intro r hr
    rw [htop] at hr
    obtain ⟨e, he, hre, hsec⟩ := mem_groupResults.1 hr
    have h1 := hinv.sound e (hmem e he) _ hsec
    have h2 := hinv.positive _ _ h1
    refine ⟨?_, by rw [hre]; exact h2⟩
    simp [Stats.Hits, h1, hre]

/-! ### The cut-off of `TopK` -/

/-- For `k ≥ 1` and a non-empty index, `TopK k` visits the buckets `pre` and then the
bucket `g`: the buckets before `g` hold fewer than `k` sections, and buckets are left
unvisited only when `k` sections or more were returned. -/
theorem Stats.TopK_split (s : Stats) {k : Int} (hk : 1 ≤ k) (hne : s.topK ≠ []) :
    ∃ pre g post, s.topK.reverse = pre ++ g :: post ∧
      s.TopK k = groupResults pre ++ g.results ∧
      ((groupResults pre).length : Int) < k ∧
      (post = [] ∨ k ≤ ((s.TopK k).length : Int)) := by
  have hne1 : s.topK.reverse ≠ [] := by simpa using hne
  obtain ⟨pre, g, post, hsplit, hdesc, hpre, hpost⟩ :=
    Stats.descend_split _ k [] (by omega) hne1
  have htop : s.TopK k = groupResults pre ++ g.results := by
    unfold Stats.TopK
    have h1 : ¬ (k = 0 ∨ s.topK.Len = 0) := by
      rintro (h0 | h0)
      · omega
      · exact hne (List.length_eq_zero.1 h0)
    rw [if_neg h1, hdesc, List.nil_append]
  refine ⟨pre, g, post, hsplit, htop, ?_, ?_⟩
  · rcases hpre with rfl | hpre
    · simp [groupResults]; omega
    · exact hpre
  · rcases hpost with hpost | hpost
    · exact Or.inl hpost
    · right
      rw [htop, List.length_append]
      push_cast
      exact hpost

theorem StatsInv.topK_eq_nil {s : Stats} (h : StatsInv s)
    (h0 : ∀ key, s.Hits key = 0) : s.topK = [] := by
  cases ht : s.topK with
  | nil => rfl
  | cons e rest =>
    exfalso
    have he : e ∈ s.topK := by rw [ht]; exact List.mem_cons_self _ _
    obtain ⟨sec, hsec⟩ := List.exists_mem_of_ne_nil _ (h.nonempty e he)
    have h1 := h.sound e he sec hsec
    have h2 := h.positive _ _ h1
    have h3 := h0 sec
    simp only [Stats.Hits, h1] at h3
    omega

theorem StatsInv.Hits_of_mem {s : Stats} (h : StatsInv s) {e : TopKEntry} (he : e ∈ s.topK)
    {sec : String} (hsec : sec ∈ e.sections) : s.Hits sec = e.hits ∧ 1 ≤ e.hits := by
  have h1 := h.sound e he sec hsec
  exact ⟨by simp [Stats.Hits, h1], h.positive _ _ h1⟩

theorem StatsInv.exists_bucket {s : Stats} (h : StatsInv s) {key : String}
    (hkey : 1 ≤ s.Hits key) : ∃ e ∈ s.topK, e.hits = s.Hits key ∧ key ∈ e.sections :=
  h.complete key _ ((Stats.Hits_eq hkey).1 rfl)

/-- A nodup list whose members are all equal has at most one member. -/
theorem List.length_le_one_of_all_eq {α : Type} {l : List α} (hnd : l.Nodup)
    (heq : ∀ a ∈ l, ∀ b ∈ l, a = b) : l.length ≤ 1 := by
  match l, hnd, heq with
  | [], _, _ => simp
  | [_], _, _ => simp
  | a :: b :: rest, hnd, heq =>
    exfalso
    have hab : a = b := heq a (by simp) b (by simp)
    subst hab
    simp at hnd

theorem length_groupResults_of_singletons (l : List TopKEntry)
    (h1 : ∀ e ∈ l, e.sections.length = 1) : (groupResults l).length = l.length := by
  induction l with
  | nil => simp [groupResults]
  | cons i rest ih =>
    rw [groupResults_cons, List.length_append, ih (fun e he => h1 e (List.mem_cons_of_mem _ he))]
    have := h1 i (List.mem_cons_self _ _)
    simp [TopKEntry.results, this]
    omega

/-- The returned sections are closed upwards: with a returned pair, every section whose
count is at least as great is returned too. -/
theorem StatsInv.TopK_closed {s : Stats} (h : StatsInv s) {k : Int} (hk : 1 ≤ k)
    {r : TopKResult} (hr : r ∈ s.TopK k) {key : String} (hkey : r.hits ≤ s.Hits key) :
    (⟨key, s.Hits key⟩ : TopKResult) ∈ s.TopK k := by
  have hne : s.topK ≠ [] := by
    intro h0
    simp [Stats.TopK, h0, BTree.Len] at hr
  obtain ⟨pre, g, post, hsplit, htop, -, -⟩ := Stats.TopK_split s hk hne
  have htop1 : s.TopK k = groupResults (pre ++ [g]) := by
    rw [htop, groupResults_append]; simp [groupResults]
  rw [htop1] at hr ⊢
  obtain ⟨e, he, hre, hsec⟩ := mem_groupResults.1 hr
  have hrev : s.topK.reverse = (pre ++ [g]) ++ post := by simp [hsplit]
  have hdesc := h.reverse_desc
  rw [hrev] at hdesc
  have het : e ∈ s.topK := List.mem_reverse.1 (by rw [hrev]; exact List.mem_append_left _ he)
  have hpos := (h.Hits_of_mem het hsec).2
  obtain ⟨e1, he1, hc1, hk1⟩ := @StatsInv.exists_bucket s h key (by omega)
  have he1r : e1 ∈ (pre ++ [g]) ++ post := by rw [← hrev]; exact List.mem_reverse.2 he1
  rcases List.mem_append.1 he1r with hin | hin
  · exact mem_groupResults.2 ⟨e1, hin, hc1.symm, hk1⟩
  · have := (List.pairwise_append.1 hdesc).2.2 e he e1 hin
    omega

/-- Either `k` pairs or more are returned, or every counted section is. -/
theorem StatsInv.TopK_enough {s : Stats} (h : StatsInv s) {k : Int} (hk : 1 ≤ k) :
    k ≤ ((s.TopK k).length : Int) ∨
      ∀ key, 1 ≤ s.Hits key → (⟨key, s.Hits key⟩ : TopKResult) ∈ s.TopK k := by
  by_cases hne : s.topK = []
  · right
    intro key hkey
    obtain ⟨e, he, -⟩ := h.exists_bucket hkey
    rw [hne] at he
    cases he
  · obtain ⟨pre, g, post, hsplit, htop, -, hpost⟩ := Stats.TopK_split s hk hne
    rcases hpost with rfl | hpost
    · right
      intro key hkey
      obtain ⟨e, he, hc, hsec⟩ := h.exists_bucket hkey
      have htop1 : s.TopK k = groupResults (pre ++ [g]) := by
        rw [htop, groupResults_append]; simp [groupResults]
      rw [htop1, ← hsplit]
      exact mem_groupResults.2 ⟨e, List.mem_reverse.2 he, hc.symm, hsec⟩
    · exact Or.inl hpost

/-- Without the pairs of the least returned count, fewer than `k` pairs are left. -/
theorem StatsInv.TopK_minimal {s : Stats} (h : StatsInv s) {k : Int} (hk : 1 ≤ k)
    {low : TopKResult} (hlow : low ∈ s.TopK k) (hmin : ∀ r ∈ s.TopK k, low.hits ≤ r.hits) :
    (((s.TopK k).filter (fun r => decide (low.hits < r.hits))).length : Int) < k := by
  have hne : s.topK ≠ [] := by
    intro h0
    simp [Stats.TopK, h0, BTree.Len] at hlow
  obtain ⟨pre, g, post, hsplit, htop, hpre, -⟩ := Stats.TopK_split s hk hne
  have hdesc := h.reverse_desc
  rw [hsplit] at hdesc
  have hg : g ∈ s.topK := List.mem_reverse.1 (by rw [hsplit]; simp)
  -- every pair of the last visited bucket has the count of the bucket
  have hG : ∀ r ∈ g.results, r.hits = g.hits := by
    intro r hr
    simp only [TopKEntry.results, List.mem_map] at hr
    obtain ⟨sec, -, rfl⟩ := hr
    rfl
  -- every pair of the earlier buckets has a greater count
  have hA : ∀ r ∈ groupResults pre, g.hits < r.hits := by
    intro r hr
    obtain ⟨e, he, hre, -⟩ := mem_groupResults.1 hr
    rw [hre]
    exact (List.pairwise_append.1 hdesc).2.2 e he g (List.mem_cons_self _ _)
  obtain ⟨sec, hsec⟩ := List.exists_mem_of_ne_nil _ (h.nonempty g hg)
  have hwit : (⟨sec, g.hits⟩ : TopKResult) ∈ g.results := by
    simp only [TopKEntry.results, List.mem_map]
    exact ⟨sec, hsec, rfl⟩
  have hle : low.hits ≤ g.hits := hmin _ (by rw [htop]; exact List.mem_append_right _ hwit)
  have hge : g.hits ≤ low.hits := by
    rw [htop] at hlow
    rcases List.mem_append.1 hlow with h1 | h1
    · exact le_of_lt (hA low h1)
    · exact le_of_eq (hG low h1).symm
  have hfG : g.results.filter (fun r => decide (low.hits < r.hits)) = [] := by
    rw [List.filter_eq_nil_iff]
    intro r hr
    have := hG r hr
    simp only [decide_eq_true_eq]
    omega
  rw [htop, List.filter_append, hfG, List.append_nil]
  have := List.length_filter_le (fun r => decide (low.hits < r.hits)) (groupResults pre)
  omega

/-- With pairwise distinct counts, `TopK k` returns `min k n` pairs, in strictly falling
order of count, where `n` is the number of counted sections. -/
theorem StatsInv.TopK_distinct {s : Stats} (h : StatsInv s) {k : Int} (hk : 1 ≤ k)
    (hdist : ∀ key key1, 1 ≤ s.Hits key → s.Hits key = s.Hits key1 → key = key1)
    (counted : List String) (hnd : counted.Nodup)
    (hcounted : ∀ key, key ∈ counted ↔ 1 ≤ s.Hits key) :
    ((s.TopK k).length : Int) = min k (counted.length : Int) ∧
    List.Pairwise (fun a b : TopKResult => b.hits < a.hits) (s.TopK k) := by
  -- every bucket holds exactly one section
  have hone : ∀ e ∈ s.topK, e.sections.length = 1 := by
    intro e he
    have h1 : e.sections.length ≤ 1 := by
      apply List.length_le_one_of_all_eq (h.nodup e he)
      intro a ha b hb
      have ha1 := h.Hits_of_mem he ha
      have hb1 := h.Hits_of_mem he hb
      exact hdist a b (by rw [ha1.1]; exact ha1.2) (by rw [ha1.1, hb1.1])
    have h2 : 0 < e.sections.length := List.length_pos.2 (h.nonempty e he)
    omega
  -- the counted sections are as many as the buckets
  have hn : counted.length = s.topK.length := by
    have hall : ((groupResults s.topK.reverse).map TopKResult.section_).Nodup :=
      h.groupResults_nodup _ h.reverse_desc (fun e he => List.mem_reverse.1 he)
    have hperm : List.Perm counted ((groupResults s.topK.reverse).map TopKResult.section_) := by
      rw [List.perm_ext_iff_of_nodup hnd hall]
      intro key
      rw [hcounted key, List.mem_map]
      constructor
      · intro hkey
        obtain ⟨e, he, hc, hsec⟩ := h.exists_bucket hkey
        exact ⟨⟨key, e.hits⟩, mem_groupResults.2 ⟨e, List.mem_reverse.2 he, rfl, hsec⟩, rfl⟩
      · rintro ⟨r, hr, rfl⟩
        obtain ⟨e, he, -, hsec⟩ := mem_groupResults.1 hr
        have := h.Hits_of_mem (List.mem_reverse.1 he) hsec
        omega
    rw [hperm.length_eq, List.length_map,
      length_groupResults_of_singletons _ (fun e he => hone e (List.mem_reverse.1 he)),
      List.length_reverse]
  constructor
  · by_cases hne : s.topK = []
    · have : s.TopK k = [] := by simp [Stats.TopK, hne, BTree.Len]
      rw [this, hn, hne]
      simp
      omega
    · obtain ⟨pre, g, post, hsplit, htop, hpre, hpost⟩ := Stats.TopK_split s hk hne
      have hmem : ∀ e ∈ pre, e ∈ s.topK := fun e he =>
        List.mem_reverse.1 (by rw [hsplit]; exact List.mem_append_left _ he)
      have hg : g ∈ s.topK := List.mem_reverse.1 (by rw [hsplit]; simp)
      have hlenpre := length_groupResults_of_singletons pre (fun e he => hone e (hmem e he))
      have hleng : g.results.length = 1 := by simp [TopKEntry.results, hone g hg]
      have hlen : (s.TopK k).length = pre.length + 1 := by
        rw [htop, List.length_append, hlenpre, hleng]
      have htot : s.topK.length = pre.length + 1 + post.length := by
        have := congrArg List.length hsplit
        simp only [List.length_reverse, List.length_append, List.length_cons] at this
        omega
      rw [hlenpre] at hpre
      rw [hn, hlen, htot]
      rcases hpost with rfl | hpost
      · simp only [List.length_nil]
        push_cast
        rw [min_eq_right (by omega)]
        omega
      · rw [hlen] at hpost
        push_cast at hpost ⊢
        rw [min_eq_left (by omega)]
        omega
  · obtain ⟨pre, post, hsplit, htop⟩ := Stats.TopK_eq_groups s k
    have hdesc : List.Pairwise (fun a b : TopKEntry => b.hits < a.hits) pre := by
      have := h.reverse_desc
      rw [hsplit] at this
      exact (List.pairwise_append.1 this).1
    have hmem : ∀ e ∈ pre, e ∈ s.topK := fun e he =>
      List.mem_reverse.1 (by rw [hsplit]; exact List.mem_append_left _ he)
    have hsorted := groupResults_sorted pre hdesc
    have hnodup := h.groupResults_nodup pre hdesc hmem
    rw [List.Nodup, List.pairwise_map] at hnodup
    rw [htop]
    refine List.Pairwise.imp_of_mem ?_ (hsorted.and hnodup)
    intro a b ha hb hab
    obtain ⟨ea, hea, hae, hasec⟩ := mem_groupResults.1 ha
    obtain ⟨eb, heb, hbe, hbsec⟩ := mem_groupResults.1 hb
    have ha1 := h.Hits_of_mem (hmem ea hea) hasec
    have hb1 := h.Hits_of_mem (hmem eb heb) hbsec
    rcases lt_or_eq_of_le hab.1 with hlt | heq
    · exact hlt
    · exfalso
      apply hab.2
      exact hdist _ _ (by rw [ha1.1]; exact ha1.2) (by rw [ha1.1, hb1.1, ← hae, ← hbe, heq])

/-- C9: cut-off of `TopK` with ties. In every state reached from `NewStats` by `Hit`,
`Tick`, `Sync` and `Clear` calls and for `k ≥ 1`: with a returned pair, every section
whose count is equal (tied) or greater is returned too; `k` pairs or more are returned,
or else all counted sections; without the pairs of the least returned count fewer than
`k` pairs are left. `TopK 0` is empty, and `TopK` is empty when no section is recorded.
When the counted sections have pairwise distinct counts, `TopK k` returns exactly
`min k n` pairs in strictly descending order of count. After the hits of `makeTests`,
`TopK 2 = [(/api, 8), (/report, 7)]` and `TopK 3 = [(/api, 8), (/report, 7), (/admin, 6)]`. -/
theorem Stats.TopK_cutoff (interval : Int) (calls : List StatsCall) (k : Int) (hk : 1 ≤ k) :
    (∃ s out, (NewStats interval).run calls = some (s, out) ∧
      (∀ r ∈ s.TopK k, ∀ key : String, r.hits ≤ s.Hits key →
        (⟨key, s.Hits key⟩ : TopKResult) ∈ s.TopK k) ∧
      (k ≤ ((s.TopK k).length : Int) ∨
        ∀ key : String, 1 ≤ s.Hits key → (⟨key, s.Hits key⟩ : TopKResult) ∈ s.TopK k) ∧
      (∀ low ∈ s.TopK k, (∀ r ∈ s.TopK k, low.hits ≤ r.hits) →
        (((s.TopK k).filter (fun r => decide (low.hits < r.hits))).length : Int) < k) ∧
      s.TopK 0 = [] ∧
      ((∀ key : String, s.Hits key = 0) → ∀ k1 : Int, s.TopK k1 = []) ∧
      ((∀ key key1 : String, 1 ≤ s.Hits key → s.Hits key = s.Hits key1 → key = key1) →
        ∀ counted : List String, counted.Nodup → (∀ key, key ∈ counted ↔ 1 ≤ s.Hits key) →
          ((s.TopK k).length : Int) = min k (counted.length : Int) ∧
          List.Pairwise (fun a b : TopKResult => b.hits < a.hits) (s.TopK k))) ∧
    ((NewStats 10).run makeTestsCalls).map (fun r => (r.1.TopK 2, r.1.TopK 3))
      = some ([⟨"/api", 8⟩, ⟨"/report", 7⟩], [⟨"/api", 8⟩, ⟨"/report", 7⟩, ⟨"/admin", 6⟩]) := by
  refine ⟨?_, by decide⟩
  obtain ⟨s, out, hrun, hinv⟩ := StatsInv.run_stats calls _ (StatsInv.init_stats interval)
  refine ⟨s, out, hrun, ?_, hinv.TopK_enough hk, ?_, ?_, ?_, ?_⟩
  · intro r hr key hkey
    exact hinv.TopK_closed hk hr hkey
  · intro low hlow hmin
    exact hinv.TopK_minimal hk hlow hmin
  · simp [Stats.TopK]
  · intro h0 k1
    simp [Stats.TopK, hinv.topK_eq_nil h0, BTree.Len]
  · intro hdist counted hnd hcounted
    exact hinv.TopK_distinct hk hdist counted hnd hcounted

/-- The cut-off theorem for `k = 2` after the hits of `makeTests`. -/
theorem Stats.TopK_cutoff_witness :
    (1 : Int) ≤ 2 ∧
    (∃ s out, (NewStats 10).run makeTestsCalls = some (s, out) ∧
      (∀ r ∈ s.TopK 2, ∀ key : String, r.hits ≤ s.Hits key →
        (⟨key, s.Hits key⟩ : TopKResult) ∈ s.TopK 2) ∧
      ((2 : Int) ≤ ((s.TopK 2).length : Int) ∨
        ∀ key : String, 1 ≤ s.Hits key → (⟨key, s.Hits key⟩ : TopKResult) ∈ s.TopK 2) ∧
      (∀ low ∈ s.TopK 2, (∀ r ∈ s.TopK 2, low.hits ≤ r.hits) →
        (((s.TopK 2).filter (fun r => decide (low.hits < r.hits))).length : Int) < 2) ∧
      s.TopK 0 = [] ∧
      ((∀ key : String, s.Hits key = 0) → ∀ k1 : Int, s.TopK k1 = []) ∧
      ((∀ key key1 : String, 1 ≤ s.Hits key → s.Hits key = s.Hits key1 → key = key1) →
        ∀ counted : List String, counted.Nodup → (∀ key, key ∈ counted ↔ 1 ≤ s.Hits key) →
          ((s.TopK 2).length : Int) = min 2 (counted.length : Int) ∧
          List.Pairwise (fun a b : TopKResult => b.hits < a.hits) (s.TopK 2))) ∧
    ((NewStats 10).run makeTestsCalls).map (fun r => (r.1.TopK 2, r.1.TopK 3))
      = some ([⟨"/api", 8⟩, ⟨"/report", 7⟩], [⟨"/api", 8⟩, ⟨"/report", 7⟩, ⟨"/admin", 6⟩]) :=
  ⟨by decide, Stats.TopK_cutoff 10 makeTestsCalls 2 (by decide)⟩

/-! ### The reporting rule of `Stats.Tick` -/

theorem Stats.Tick_of_le {s : Stats} {t : Int} (h : s.tickReport ≤ t) :
    s.Tick t = ({ s with tick := t, hits := fun _ => none, topK := [],
                         tickReport := wrapInt64 (s.tickReport + s.interval) },
                [⟨t, s.TopK s.showTopK⟩]) := by
  simp [Stats.Tick, h, Stats.Clear, Stats.TopK]

theorem Stats.Tick_of_lt {s : Stats} {t : Int} (h : t < s.tickReport) :
    s.Tick t = ({ s with tick := t }, []) := by
  have h1 : ¬ s.tickReport ≤ t := not_le.2 h
  simp [Stats.Tick, h1]

theorem Stats.call_fields {s s1 : Stats} {c : StatsCall} {out : List StatsReport}
    (h : s.call c = some (s1, out)) : s1.interval = s.interval ∧ s1.showTopK = s.showTopK := by
  cases c with
  | Hit key =>
    simp only [Stats.call] at h
    cases hhit : s.Hit key with
    | none => rw [hhit] at h; cases h
    | some s2 =>
      rw [hhit] at h
      simp only [Option.some.injEq, Prod.mk.injEq] at h
      obtain ⟨rfl, -⟩ := h
      unfold Stats.Hit at hhit
      simp only at hhit
      split at hhit
      · cases hhit
      · cases hhit
        exact ⟨rfl, rfl⟩
  | Tick t =>
    simp only [Stats.call, Option.some.injEq] at h
    by_cases hle : s.tickReport ≤ t
    · rw [Stats.Tick_of_le hle] at h
      cases h
      exact ⟨rfl, rfl⟩
    · rw [Stats.Tick_of_lt (not_le.1 hle)] at h
      cases h
      exact ⟨rfl, rfl⟩
  | Sync t =>
    simp only [Stats.call, Option.some.injEq, Prod.mk.injEq] at h
    obtain ⟨rfl, -⟩ := h
    exact ⟨rfl, rfl⟩
  | Clear =>
    simp only [Stats.call, Option.some.injEq, Prod.mk.injEq] at h
    obtain ⟨rfl, -⟩ := h
    exact ⟨rfl, rfl⟩

theorem Stats.run_fields (calls : List StatsCall) :
    ∀ (s s1 : Stats) (out : List StatsReport), s.run calls = some (s1, out) →
      s1.interval = s.interval ∧ s1.showTopK = s.showTopK := by
  induction calls with
  | nil =>
    intro s s1 out h
    simp only [Stats.run, Option.some.injEq, Prod.mk.injEq] at h
    obtain ⟨rfl, -⟩ := h
    exact ⟨rfl, rfl⟩
  | cons c rest ih =>
    intro s s1 out h
    simp only [Stats.run] at h
    cases hc : s.call c with
    | none => rw [hc] at h; cases h
    | some r =>
      obtain ⟨s2, out2⟩ := r
      rw [hc] at h
      simp only at h
      cases hr : s2.run rest with
      | none => rw [hr] at h; cases h
      | some r3 =>
        obtain ⟨s3, out3⟩ := r3
        rw [hr] at h
        simp only [Option.some.injEq, Prod.mk.injEq] at h
        obtain ⟨rfl, -⟩ := h
        have h1 := ih s2 s3 out3 hr
        have h2 := Stats.call_fields hc
        exact ⟨by rw [h1.1, h2.1], by rw [h1.2, h2.2]⟩

/-- C11, as stated, fails where the sum leaves the 64-bit range: with `interval = 10`,
`Sync 9223372036854775802` sets the boundary to `-9223372036854775804`, not to
`t + interval`, and the next `Tick` already reports; and `Tick 9223372036854775807` on a
tracker with interval and boundary `9223372036854775807` moves the boundary to `-2`. -/
theorem Stats.boundary_counterexample :
    ((NewStats 10).Sync 9223372036854775802).tickReport = -9223372036854775804 ∧
    (9223372036854775802 : Int) + (NewStats 10).interval = 9223372036854775812 ∧
    (((NewStats 10).Sync 9223372036854775802).Tick 9223372036854775803).2
      = [⟨9223372036854775803, []⟩] ∧
    ((NewStats 9223372036854775807).Tick 9223372036854775807).1.tickReport = -2 ∧
    (NewStats 9223372036854775807).tickReport + (NewStats 9223372036854775807).interval
      = 18446744073709551614 := by
  decide

/-- C11, amended: reporting rule of `Stats.Tick`. For every state with boundary
`tickReport` and every `Tick t`: the tick becomes `t`; when `tickReport ≤ t` exactly one
report is sent, carrying `t` and `TopK showTopK` of the counts before the call, the counts
and the index are cleared and the boundary becomes `tickReport + interval` in 64-bit
arithmetic; when `tickReport > t` nothing is sent and counts, index and boundary are
unchanged. `Sync t` sets the tick to `t` and the boundary to `t + interval` in 64-bit
arithmetic and leaves every count. A sum in 64-bit arithmetic is the sum itself whenever
that is in the 64-bit range. In every state reached from `NewStats` the value of
`showTopK` is 10. -/
theorem Stats.Tick_rule (s : Stats) (t : Int) :
    (s.Tick t).1.tick = t ∧
    (s.tickReport ≤ t →
      (s.Tick t).2 = [⟨t, s.TopK s.showTopK⟩] ∧
      (∀ key, (s.Tick t).1.Hits key = 0) ∧ (s.Tick t).1.topK = [] ∧
      (s.Tick t).1.tickReport = wrapInt64 (s.tickReport + s.interval)) ∧
    (t < s.tickReport →
      (s.Tick t).2 = [] ∧ (s.Tick t).1.hits = s.hits ∧ (s.Tick t).1.topK = s.topK ∧
      (s.Tick t).1.tickReport = s.tickReport) ∧
    ((s.Sync t).tick = t ∧ (s.Sync t).tickReport = wrapInt64 (t + s.interval) ∧
      (s.Sync t).hits = s.hits ∧ (s.Sync t).topK = s.topK) ∧
    (minInt64 ≤ s.tickReport + s.interval → s.tickReport + s.interval ≤ maxInt64 →
      wrapInt64 (s.tickReport + s.interval) = s.tickReport + s.interval) ∧
    (minInt64 ≤ t + s.interval → t + s.interval ≤ maxInt64 →
      wrapInt64 (t + s.interval) = t + s.interval) ∧
    (∀ (interval : Int) (calls : List StatsCall),
      ∃ s1 out, (NewStats interval).run calls = some (s1, out) ∧ s1.showTopK = 10) := by
  refine ⟨?_, ?_, ?_, ⟨rfl, rfl, rfl, rfl⟩, fun hlo hhi => wrapInt64_of_range hlo hhi,
    fun hlo hhi => wrapInt64_of_range hlo hhi, ?_⟩
  · by_cases hle : s.tickReport ≤ t
    · rw [Stats.Tick_of_le hle]
    · rw [Stats.Tick_of_lt (not_le.1 hle)]
  · intro hle
    rw [Stats.Tick_of_le hle]
    exact ⟨rfl, fun key => rfl, rfl, rfl⟩
  · intro hlt
    rw [Stats.Tick_of_lt hlt]
    exact ⟨rfl, rfl, rfl, rfl⟩
  · intro interval calls
    obtain ⟨s1, out, hrun, -⟩ := StatsInv.run_stats calls _ (StatsInv.init_stats interval)
    exact ⟨s1, out, hrun, (Stats.run_fields calls _ _ _ hrun).2⟩

/-! ### Report boundaries under gaps -/

theorem boundary_step_le {t0 I : Int} (hI : 0 ≤ I) {k j : Nat} (h : k < j) :
    t0 + (k : Int) * I + I ≤ t0 + (j : Int) * I := by
  have h1 : ((k : Int) + 1) ≤ (j : Int) := by exact_mod_cast h
  have h2 := mul_le_mul_of_nonneg_right h1 hI
  linarith

theorem Stats.Tick_fields (s : Stats) (t : Int) :
    (s.Tick t).1.interval = s.interval ∧
    (s.tickReport ≤ t →
      (s.Tick t).1.tickReport = wrapInt64 (s.tickReport + s.interval) ∧
      (s.Tick t).2 = [⟨t, s.TopK s.showTopK⟩]) ∧
    (t < s.tickReport → (s.Tick t).1.tickReport = s.tickReport ∧ (s.Tick t).2 = []) := by
  refine ⟨?_, ?_, ?_⟩
  · by_cases hle : s.tickReport ≤ t
    · rw [Stats.Tick_of_le hle]
    · rw [Stats.Tick_of_lt (not_le.1 hle)]
  · intro hle
    rw [Stats.Tick_of_le hle]
    exact ⟨rfl, rfl⟩
  · intro hlt
    rw [Stats.Tick_of_lt hlt]
    exact ⟨rfl, rfl⟩

/-- Every report of a run of ticks is attributed to the boundary scheduled at the start
or to a later one. -/
theorem Stats.ticksAttributed_ge (ts : List Int) :
    ∀ s : Stats, 0 ≤ s.interval → minInt64 ≤ s.tickReport →
      (∀ t ∈ ts, t + s.interval ≤ maxInt64) →
      ∀ q ∈ s.ticksAttributed ts, s.tickReport ≤ q.1 := by
  induction ts with
  | nil => intro s _ _ _ q hq; cases hq
  | cons t rest ih =>
    intro s hI hlo hhi q hq
    simp only [Stats.ticksAttributed, List.mem_append, List.mem_map] at hq
    obtain ⟨hint, hle1, hlt1⟩ := Stats.Tick_fields s t
    have hhit := hhi t (List.mem_cons_self _ _)
    have hhir : ∀ t1 ∈ rest, t1 + (s.Tick t).1.interval ≤ maxInt64 := by
      intro t1 ht1
      rw [hint]
      exact hhi t1 (List.mem_cons_of_mem _ ht1)
    rcases hq with ⟨r, -, rfl⟩ | hq
    · exact le_refl _
    · by_cases hle : s.tickReport ≤ t
      · have hw : wrapInt64 (s.tickReport + s.interval) = s.tickReport + s.interval :=
          wrapInt64_of_range (by omega) (by omega)
        have h1 := ih (s.Tick t).1 (by rw [hint]; exact hI)
          (by rw [(hle1 hle).1, hw]; omega) hhir q hq
        rw [(hle1 hle).1, hw] at h1
        omega
      · have h1 := ih (s.Tick t).1 (by rw [hint]; exact hI)
          (by rw [(hlt1 (not_le.1 hle)).1]; exact hlo) hhir q hq
        rw [(hlt1 (not_le.1 hle)).1] at h1
        exact h1

/-- The reports of the ticks `rest`, made on a state whose boundary is the `(k + 1)`-th
one and lies beyond the ticks `done` made so far. -/
theorem Stats.ticksAttributed_spec (I t0 : Int) (hI : 1 ≤ I) (rest : List Int) :
    ∀ (done : List Int) (s : Stats) (k : Nat) (p : Int),
      s.interval = I → s.tickReport = t0 + ((k : Int) + 1) * I →
      minInt64 ≤ s.tickReport → (∀ t ∈ rest, t + I ≤ maxInt64) →
      (∀ t ∈ done, t < s.tickReport) → p < s.tickReport →
      List.Chain (fun a b : Int => a < b) p rest →
      List.Chain (fun a b : Int =>
        ∀ j : Nat, a < t0 + (j : Int) * I → b < t0 + ((j : Int) + 1) * I) p rest →
      ∀ j : Nat, k + 1 ≤ j → (∃ t ∈ rest, t0 + (j : Int) * I ≤ t) →
        ∃ r : StatsReport,
          (s.ticksAttributed rest).filter (fun q => decide (q.1 = t0 + (j : Int) * I))
            = [(t0 + (j : Int) * I, r)] ∧
          (done ++ rest).find? (fun t => decide (t0 + (j : Int) * I ≤ t)) = some r.tick := by
  induction rest with
  | nil =>
    intro done s k p _ _ _ _ _ _ _ _ j _ hex
    obtain ⟨t, ht, -⟩ := hex
    cases ht
  | cons t rest ih =>
    intro done s k p hint hrep hlo hhi hdone hp hinc hgap j hj hex
    have hhit := hhi t (List.mem_cons_self _ _)
    have hhir : ∀ t1 ∈ rest, t1 + I ≤ maxInt64 :=
      fun t1 ht1 => hhi t1 (List.mem_cons_of_mem _ ht1)
    have hinc1 := List.chain_cons.1 hinc
    have hgap1 := List.chain_cons.1 hgap
    have hI0 : (0 : Int) ≤ I := by omega
    have hbk : t0 + (((k + 1 : Nat) : Int)) * I = s.tickReport := by
      rw [hrep]; push_cast; ring
    obtain ⟨hint1, hle1, hlt1⟩ := Stats.Tick_fields s t
    rw [hint] at hint1 hle1
    by_cases hle : s.tickReport ≤ t
    · -- a report is sent at `t`, attributable to the boundary `tickReport`
      obtain ⟨hrep1, hout1⟩ := hle1 hle
      rw [wrapInt64_of_range (by omega) (by omega)] at hrep1
      have hnext : t < s.tickReport + I := by
        have := hgap1.1 (k + 1) (by rw [hbk]; exact hp)
        rw [hrep]
        push_cast at this ⊢
        linarith
      have hge := Stats.ticksAttributed_ge rest (s.Tick t).1 (by rw [hint1]; exact hI0)
        (by rw [hrep1]; omega) (by rw [hint1]; exact hhir)
      rw [hrep1] at hge
      rcases Nat.eq_or_lt_of_le hj with hjk | hjk
      · -- the boundary of this report
        subst hjk
        refine ⟨⟨t, s.TopK s.showTopK⟩, ?_, ?_⟩
        · simp only [Stats.ticksAttributed, hout1, List.map_cons, List.map_nil,
            List.cons_append, List.nil_append]
          rw [List.filter_cons_of_pos (by simpa using hbk.symm)]
          have hnone : ((s.Tick t).1.ticksAttributed rest).filter
              (fun q => decide (q.1 = t0 + (((k + 1 : Nat) : Int)) * I)) = [] := by
            rw [List.filter_eq_nil_iff]
            intro q hq
            have := hge q hq
            simp only [decide_eq_true_eq]
            omega
          rw [hnone, hbk]
        · rw [List.find?_append, List.find?_eq_none.2, Option.none_or,
            List.find?_cons_of_pos]
          · show decide (t0 + (((k + 1 : Nat) : Int)) * I ≤ t) = true
            rw [hbk]
            exact decide_eq_true hle
          · intro x hx
            have := hdone x hx
            simp only [decide_eq_true_eq]
            omega
      · -- a later boundary
        have hbj := @boundary_step_le t0 _ hI0 _ _ hjk
        rw [hbk] at hbj
        have hex1 : ∃ t1 ∈ rest, t0 + (j : Int) * I ≤ t1 := by
          obtain ⟨t1, ht1, hb1⟩ := hex
          rcases List.mem_cons.1 ht1 with rfl | ht1
          · omega
          · exact ⟨t1, ht1, hb1⟩
        obtain ⟨r, hr1, hr2⟩ := ih (done ++ [t]) (s.Tick t).1 (k + 1) t hint1
          (by rw [hrep1, hrep]; push_cast; ring) (by rw [hrep1]; omega) hhir
          (by
            intro x hx
            simp only [List.mem_append, List.mem_singleton] at hx
            rw [hrep1]
            rcases hx with hx | rfl
            · have := hdone x hx; omega
            · exact hnext)
          (by rw [hrep1]; exact hnext) hinc1.2 hgap1.2 j hjk hex1
        refine ⟨r, ?_, ?_⟩
        · simp only [Stats.ticksAttributed, hout1, List.map_cons, List.map_nil,
            List.cons_append, List.nil_append]
          rw [List.filter_cons_of_neg (by simp only [decide_eq_true_eq]; omega)]
          exact hr1
        · simpa using hr2
    · -- no report at `t`
      have hlt : t < s.tickReport := not_le.1 hle
      obtain ⟨hrep1, hout1⟩ := hlt1 hlt
      have hbj : s.tickReport ≤ t0 + (j : Int) * I := by
        rcases Nat.eq_or_lt_of_le hj with hjk | hjk
        · subst hjk; exact le_of_eq hbk.symm
        · have := @boundary_step_le t0 _ hI0 _ _ hjk
          rw [hbk] at this
          omega
      have hex1 : ∃ t1 ∈ rest, t0 + (j : Int) * I ≤ t1 := by
        obtain ⟨t1, ht1, hb1⟩ := hex
        rcases List.mem_cons.1 ht1 with rfl | ht1
        · omega
        · exact ⟨t1, ht1, hb1⟩
      obtain ⟨r, hr1, hr2⟩ := ih (done ++ [t]) (s.Tick t).1 k t hint1
        (by rw [hrep1]; exact hrep) (by rw [hrep1]; exact hlo) hhir
        (by
          intro x hx
          simp only [List.mem_append, List.mem_singleton] at hx
          rw [hrep1]
          rcases hx with hx | rfl
          · exact hdone x hx
          · exact hlt)
        (by rw [hrep1]; exact hlt) hinc1.2 hgap1.2 j hj hex1
      refine ⟨r, ?_, ?_⟩
      · simp only [Stats.ticksAttributed, hout1, List.map_nil, List.nil_append]
        exact hr1
      · simpa using hr2

/-- C12 (as stated) fails: with interval 10 after `Sync 0`, the ticks 25 and 26 are
strictly increasing and greater than 0, the boundary 20 is reached by the tick 25, but
the report attributable to it is sent at the tick 26. It also fails where a boundary
leaves the 64-bit range, with no tick passing two boundaries: with interval `2^62` after
`Sync 0` and the ticks `2^62 .. 2^62 + 4`, the boundary after `2^62` is `-2^63`, every
tick reports, and the boundary `2^62` comes round again, so that two reports are
attributable to it. -/
theorem Stats.gap_counterexample :
    (1 ≤ (NewStats 10).interval ∧ List.Chain (fun a b : Int => a < b) 0 [25, 26] ∧
      ¬ ReportsAtBoundaries (NewStats 10) 0 [25, 26]) ∧
    (1 ≤ (NewStats 4611686018427387904).interval ∧
      List.Chain (fun a b : Int => a < b) 0
        [4611686018427387904, 4611686018427387905, 4611686018427387906,
          4611686018427387907, 4611686018427387908] ∧
      OneBoundaryPerTick (NewStats 4611686018427387904).interval 0
        [4611686018427387904, 4611686018427387905, 4611686018427387906,
          4611686018427387907, 4611686018427387908] ∧
      ¬ ReportsAtBoundaries (NewStats 4611686018427387904) 0
        [4611686018427387904, 4611686018427387905, 4611686018427387906,
          4611686018427387907, 4611686018427387908]) := by
  refine ⟨⟨by decide, by simp, ?_⟩, ⟨by decide, by simp, ?_, ?_⟩⟩
  · intro h
    obtain ⟨r, h1, h2⟩ := h 2 (by decide) ⟨25, by decide, by decide⟩
    have h3 : (((NewStats 10).Sync 0).ticksAttributed [25, 26]).filter
        (fun q => decide (q.1 = 0 + ((2 : Nat) : Int) * (NewStats 10).interval))
        = [(20, ⟨26, []⟩)] := by decide
    rw [h3] at h1
    have h4 : ([25, 26] : List Int).find?
        (fun t => decide (0 + ((2 : Nat) : Int) * (NewStats 10).interval ≤ t)) = some 25 := by
      decide
    rw [h4] at h2
    simp only [List.cons.injEq, Prod.mk.injEq, and_true] at h1
    rw [← h1.2] at h2
    cases h2
  · simp only [OneBoundaryPerTick, NewStats, List.chain_cons, List.Chain.nil, and_true]
    refine ⟨?_, ?_, ?_, ?_, ?_⟩ <;> intro j hj <;> omega
  · intro h
    obtain ⟨r, h1, -⟩ := h 1 (by decide) ⟨4611686018427387904, by decide, by decide⟩
    have h3 : (((NewStats 4611686018427387904).Sync 0).ticksAttributed
        [4611686018427387904, 4611686018427387905, 4611686018427387906,
          4611686018427387907, 4611686018427387908]).filter
        (fun q => decide
          (q.1 = 0 + ((1 : Nat) : Int) * (NewStats 4611686018427387904).interval))
        = [(4611686018427387904, ⟨4611686018427387904, []⟩),
           (4611686018427387904, ⟨4611686018427387908, []⟩)] := by decide
    rw [h3] at h1
    simp at h1

/-- C12 (amended): for a stats tracker with interval `I ≥ 1` after `Sync t0`, with `t0`
in the 64-bit range, and every strictly increasing sequence of `Tick` arguments greater
than `t0` in which `t0 + I` and `t + I`, for every tick `t`, stay in the 64-bit range and
no tick passes more than one boundary not reached by the tick before it: every boundary
`t0 + j * I` (`j ≥ 1`) reached by some tick has exactly one report attributable to it,
sent at the first tick of the sequence that is at or after the boundary. -/
theorem Stats.reports_at_boundaries (s : Stats) (t0 : Int) (ts : List Int)
    (hI : 1 ≤ s.interval) (hinc : List.Chain (fun a b : Int => a < b) t0 ts)
    (hlo : minInt64 ≤ t0) (hhi : ∀ t ∈ t0 :: ts, t + s.interval ≤ maxInt64)
    (hgap : OneBoundaryPerTick s.interval t0 ts) : ReportsAtBoundaries s t0 ts := by
  intro j hj hex
  have h0 := hhi t0 (List.mem_cons_self _ _)
  have hw : wrapInt64 (t0 + s.interval) = t0 + s.interval :=
    wrapInt64_of_range (by omega) h0
  have := Stats.ticksAttributed_spec s.interval t0 hI ts [] (s.Sync t0) 0 t0 rfl
    (by simp [Stats.Sync, hw]) (by simp only [Stats.Sync, hw]; omega)
    (fun t ht => hhi t (List.mem_cons_of_mem _ ht)) (by simp)
    (by simp only [Stats.Sync, hw]; omega) hinc hgap j hj hex
  simpa using this

/-- The amended boundary theorem on the ticks 5, 15, 27 with interval 10. -/
theorem Stats.reports_at_boundaries_witness :
    1 ≤ (NewStats 10).interval ∧ List.Chain (fun a b : Int => a < b) 0 [5, 15, 27] ∧
    minInt64 ≤ 0 ∧ (∀ t ∈ [(0 : Int), 5, 15, 27], t + (NewStats 10).interval ≤ maxInt64) ∧
    OneBoundaryPerTick (NewStats 10).interval 0 [5, 15, 27] ∧
    ReportsAtBoundaries (NewStats 10) 0 [5, 15, 27] :=
  have hgap : OneBoundaryPerTick (NewStats 10).interval 0 [5, 15, 27] := by
    simp only [OneBoundaryPerTick, NewStats, List.chain_cons, List.Chain.nil, and_true]
    refine ⟨?_, ?_, ?_⟩ <;> intro j hj <;> omega
  ⟨by decide, by simp, by decide, by decide, hgap,
    Stats.reports_at_boundaries (NewStats 10) 0 [5, 15, 27] (by decide) (by simp)
      (by decide) (by decide) hgap⟩

/-! ### The playback driver: one record -/

theorem tickRange_succ (c : Int) (n : Nat) :
    tickRange c (n + 1) = tickRange c n ++ [c + (n : Int)] := by
  induction n generalizing c with
  | zero => simp [tickRange]
  | succ n ih =>
    rw [tickRange, ih (c + 1)]
    simp only [tickRange, List.cons_append]
    congr 2
    push_cast
    ring_nf

theorem mem_tickRange {c s : Int} {n : Nat} :
    s ∈ tickRange c n ↔ c ≤ s ∧ s < c + (n : Int) := by
  induction n generalizing c with
  | zero => simp [tickRange]
  | succ n ih =>
    simp only [tickRange, List.mem_cons, ih]
    push_cast
    omega

theorem Stats.run_stats_append {a b : List StatsCall} {s s1 s2 : Stats}
    {out1 out2 : List StatsReport} (ha : s.run a = some (s1, out1))
    (hb : s1.run b = some (s2, out2)) : s.run (a ++ b) = some (s2, out1 ++ out2) := by
  induction a generalizing s out1 with
  | nil =>
    simp only [Stats.run, Option.some.injEq, Prod.mk.injEq] at ha
    obtain ⟨rfl, rfl⟩ := ha
    simpa using hb
  | cons c a ih =>
    simp only [Stats.run] at ha
    cases hc : s.call c with
    | none => rw [hc] at ha; cases ha
    | some r1 =>
      obtain ⟨s3, out3⟩ := r1
      rw [hc] at ha
      simp only at ha
      cases hr : s3.run a with
      | none => rw [hr] at ha; cases ha
      | some r2 =>
        obtain ⟨s4, out4⟩ := r2
        rw [hr] at ha
        simp only [Option.some.injEq, Prod.mk.injEq] at ha
        obtain ⟨rfl, rfl⟩ := ha
        have h1 := ih hr
        show Stats.run s (c :: (a ++ b)) = _
        simp only [Stats.run, hc, h1, List.append_assoc]

theorem PlayState.tickOnce_wrap {st st1 : PlayState} (h : st.tickOnce = some st1) :
    st1.tick = wrapInt64 (st.tick + 1) := by
  unfold PlayState.tickOnce at h
  split at h
  · cases h
  · cases h
    rfl

theorem PlayState.tickOnce_tick {st st1 : PlayState} (h : st.tickOnce = some st1)
    (hlo : minInt64 ≤ st.tick) (hhi : st.tick < maxInt64) : st1.tick = st.tick + 1 := by
  rw [PlayState.tickOnce_wrap h]
  exact wrapInt64_of_range (by omega) (by omega)

/-- On a record of date `maxInt64` the inner loop of `Player.Play` does not exit, whatever
the number of iterations it is given: `tick <= line.date` holds of every 64-bit `tick`. -/
theorem PlayState.tickLoop_maxInt64 (fuel : Nat) :
    ∀ st : PlayState, st.tick ≤ maxInt64 → PlayState.tickLoop fuel maxInt64 st = none := by
  induction fuel with
  | zero => intro st h; simp [PlayState.tickLoop, h]
  | succ fuel ih =>
    intro st h
    simp only [PlayState.tickLoop, h, if_true]
    cases hone : st.tickOnce with
    | none => rfl
    | some st1 =>
      simp only
      refine ih st1 ?_
      rw [PlayState.tickOnce_wrap hone]
      exact (wrapInt64_range _).2

/-- The inner loop of `Player.Play` keeps every property that one pass through its body
keeps, and leaves `tick` at `date + 1`. -/
theorem PlayState.tickLoop_induct (P : PlayState → Prop) (date : Int)
    (hdate : date < maxInt64)
    (hstep : ∀ st, P st → minInt64 ≤ st.tick → st.tick ≤ date →
      ∃ st1, st.tickOnce = some st1 ∧ P st1) :
    ∀ (n : Nat) (st : PlayState), P st → (date + 1 - st.tick).toNat ≤ n →
      minInt64 ≤ st.tick → st.tick ≤ date + 1 →
      ∃ st1, PlayState.tickLoop n date st = some st1 ∧ P st1 ∧ st1.tick = date + 1 := by
  intro n
  induction n with
  | zero =>
    intro st hP hn _ hle
    have h1 : ¬ st.tick ≤ date := by omega
    exact ⟨st, by simp [PlayState.tickLoop, h1], hP, by omega⟩
  | succ n ih =>
    intro st hP hn hlo hle
    by_cases h1 : st.tick ≤ date
    · obtain ⟨st1, hone, hP1⟩ := hstep st hP hlo h1
      have ht := PlayState.tickOnce_tick hone hlo (by omega)
      obtain ⟨st2, hloop, hP2, htick2⟩ := ih st1 hP1 (by omega) (by omega) (by omega)
      exact ⟨st2, by simp [PlayState.tickLoop, h1, hone, hloop], hP2, htick2⟩
    · exact ⟨st, by simp [PlayState.tickLoop, h1], hP, by omega⟩

theorem PlayState.sync_of_ne {st : PlayState} (h : st.tick ≠ 0) (line : LogModel) :
    st.sync line = st := by
  simp [PlayState.sync, h]

theorem TickedFrom.start {st0 : PlayState} (hmon : MonitorInv st0.monitor)
    (hstats : StatsInv st0.stats) : TickedFrom st0 st0 :=
  ⟨hmon, hstats, 0, [], [], by simp, by simp [tickRange], by simp [tickRange, Monitor.run],
    by simp, by simp [tickRange, Stats.run], by simp, rfl⟩

theorem PlayState.tickOnce_eq {st : PlayState} {m1 : Monitor} {al1 : List AlertReport}
    (h : st.monitor.Tick st.tick = some (m1, al1)) :
    ∃ st1, st.tickOnce = some st1 ∧ st1.tick = wrapInt64 (st.tick + 1) ∧ st1.monitor = m1 ∧
      st1.stats = (st.stats.Tick st.tick).1 ∧
      st1.calls = st.calls ++ [PlayerCall.MonitorTick st.tick, PlayerCall.StatsTick st.tick] ∧
      st1.alerts = st.alerts ++ al1 ∧
      st1.reports = st.reports ++ (st.stats.Tick st.tick).2 ∧
      st1.rejected = st.rejected := by
  simp only [PlayState.tickOnce, h]
  exact ⟨_, rfl, rfl, rfl, rfl, rfl, rfl, rfl, rfl⟩

theorem TickedFrom.tickOnce_ticked {st0 st : PlayState} (h : TickedFrom st0 st)
    (hlo : minInt64 ≤ st.tick) (hhi : st.tick < maxInt64) :
    ∃ st1, st.tickOnce = some st1 ∧ TickedFrom st0 st1 := by
  have hw : wrapInt64 (st.tick + 1) = st.tick + 1 :=
    wrapInt64_of_range (by omega) (by omega)
  obtain ⟨hmon, hstats, n, alerts, reports, htick, hcalls, hmrun, halerts, hsrun, hreports,
    hrej⟩ := h
  obtain ⟨m1, al1, hcall, hmon1, -⟩ := hmon.call_monitor (MonitorCall.Tick st.tick)
  have hmtick : st.monitor.Tick st.tick = some (m1, al1) := hcall
  obtain ⟨s1, rp1, hscall, hstats1⟩ := hstats.call_stats (StatsCall.Tick st.tick)
  have hs1 : (st.stats.Tick st.tick) = (s1, rp1) := by
    simpa [Stats.call] using hscall
  obtain ⟨st1, hone, e1, e2, e3, e4, e5, e6, e7⟩ := PlayState.tickOnce_eq hmtick
  rw [hw] at e1
  rw [hs1] at e3 e6
  refine ⟨st1, hone, ⟨by rw [e2]; exact hmon1, by rw [e3]; exact hstats1, n + 1,
    alerts ++ al1, reports ++ rp1, ?_, ?_, ?_, ?_, ?_, ?_, by rw [e7, hrej]⟩⟩
  · rw [e1, htick]; push_cast; ring
  · rw [e4]
    simp only [hcalls, tickRange_succ, List.flatMap_append, List.flatMap_singleton, htick,
      List.append_assoc, List.flatMap_cons, List.flatMap_nil, List.append_nil]
  · rw [e2, tickRange_succ, List.map_append]
    refine Monitor.run_append hmrun ?_
    rw [← htick]
    exact Monitor.run_tick hmtick
  · rw [e5, halerts, List.append_assoc]
  · rw [e3, tickRange_succ, List.map_append]
    refine Stats.run_stats_append hsrun ?_
    rw [← htick]
    simp [Stats.run, Stats.call, hs1]
  · rw [e6, hreports, List.append_assoc]

/-- C13, as stated, fails on three inputs. With a monitor window of 0 the driver state
after a first record of second 5 has tick 6, and the step for a record of second 7 fails
at `Monitor.Tick 6`. From the state after a first record of second 9223372036854775806,
whose tick is 9223372036854775807, the step for a record of second 9223372036854775807
does not return: adding one to the tick wraps it round and `tick <= line.date` still
holds. And from the state after a first record of second -1, whose tick is 0, the step
for a record of second 5 calls no `Tick` for the seconds 0 to 5 but synchronises again. -/
theorem PlayState.handle_counterexample :
    ((NewPlayer "" 10 1 0).Play [LogModel.ofDateSection 5 "/a"]).map PlayState.tick
      = some 6 ∧
    (((NewPlayer "" 10 1 0).Play [LogModel.ofDateSection 5 "/a"]).bind
      (fun st => st.handle (LogModel.ofDateSection 7 "/b"))).isNone = true ∧
    ((NewPlayer "" 10 1 3).Play [LogModel.ofDateSection 9223372036854775806 "/a"]).map
        PlayState.tick = some 9223372036854775807 ∧
    (((NewPlayer "" 10 1 3).Play [LogModel.ofDateSection 9223372036854775806 "/a"]).bind
      (fun st => st.handle (LogModel.ofDateSection 9223372036854775807 "/b"))).isNone
      = true ∧
    ((NewPlayer "" 10 1 3).Play [LogModel.ofDateSection (-1) "/a"]).map PlayState.tick
      = some 0 ∧
    (((NewPlayer "" 10 1 3).Play [LogModel.ofDateSection (-1) "/a"]).bind
        (fun st => st.handle (LogModel.ofDateSection 5 "/b"))).map
        (fun st => (st.tick, st.calls.drop 4))
      = some (6, [PlayerCall.MonitorSync 5, PlayerCall.StatsSync 5, PlayerCall.MonitorHit,
          PlayerCall.StatsHit "/b"]) := by
  decide

/-- C13, amended: step of the playback driver for an accepted record. For every driver
state whose tick `c` is not 0 and is above `minInt64`, whose monitor (of window at least
1) and stats tracker satisfy their invariants, and every record with timestamp `t`,
`c - 1 ≤ t < maxInt64`: the step returns; it calls `Tick s` for each `s` from `c` through
`t` in ascending order, on the monitor and then on the stats tracker for the same `s`
(none when `t = c - 1`); then the tick is `t + 1`; then it registers exactly one
`Monitor.Hit` and one `Stats.Hit` of the section of the record. The new monitor and stats
tracker are the old ones after these calls. -/
theorem PlayState.handle_accepted (st : PlayState) (line : LogModel) (hsync : st.tick ≠ 0)
    (hlo : minInt64 < st.tick) (hdate : st.tick - 1 ≤ line.date)
    (hhi : line.date < maxInt64) (hmon : MonitorInv st.monitor)
    (hstats : StatsInv st.stats) :
    ∃ (st1 : PlayState) (alerts : List AlertReport) (reports : List StatsReport),
      st.handle line = some st1 ∧
      st1.calls = st.calls ++
        (tickRange st.tick (line.date + 1 - st.tick).toNat).flatMap
          (fun s => [PlayerCall.MonitorTick s, PlayerCall.StatsTick s]) ++
        [PlayerCall.MonitorHit, PlayerCall.StatsHit line.section_] ∧
      (∀ s, s ∈ tickRange st.tick (line.date + 1 - st.tick).toNat ↔
        st.tick ≤ s ∧ s ≤ line.date) ∧
      (line.date = st.tick - 1 → tickRange st.tick (line.date + 1 - st.tick).toNat = []) ∧
      st1.tick = line.date + 1 ∧
      st.monitor.run ((tickRange st.tick (line.date + 1 - st.tick).toNat).map MonitorCall.Tick
        ++ [MonitorCall.Hit]) = some (st1.monitor, alerts) ∧
      st1.alerts = st.alerts ++ alerts ∧
      st.stats.run ((tickRange st.tick (line.date + 1 - st.tick).toNat).map StatsCall.Tick
        ++ [StatsCall.Hit line.section_]) = some (st1.stats, reports) ∧
      st1.reports = st.reports ++ reports ∧
      st1.rejected = st.rejected := by
  have hw : wrapInt64 (st.tick - 1) = st.tick - 1 :=
    wrapInt64_of_range (by omega) (by omega)
  have hnot : ¬ line.date < wrapInt64 (st.tick - 1) := by rw [hw]; omega
  obtain ⟨st2, hloop, hticked, htick2⟩ :=
    PlayState.tickLoop_induct (TickedFrom st) line.date hhi
      (fun st1 h1 hlo1 hle1 => h1.tickOnce_ticked hlo1 (by omega))
      (line.date + 1 - st.tick).toNat st (TickedFrom.start hmon hstats) (le_refl _)
      (by omega) (by omega)
  obtain ⟨hmon2, hstats2, n, alerts, reports, htick, hcalls, hmrun, halerts, hsrun, hreports,
    hrej⟩ := hticked
  have hn : n = (line.date + 1 - st.tick).toNat := by omega
  subst hn
  obtain ⟨s3, hhit, -⟩ := hstats2.Hit line.section_
  refine ⟨{ st2 with monitor := st2.monitor.Hit, stats := s3,
                     calls := st2.calls ++ [PlayerCall.MonitorHit,
                       PlayerCall.StatsHit line.section_] },
    alerts, reports, ?_, ?_, ?_, ?_, htick2, ?_, ?_, ?_, ?_, hrej⟩
  · simp [PlayState.handle, PlayState.sync_of_ne hsync, hnot, hloop, PlayState.hit, hhit]
  · simp only [hcalls]
  · intro s
    rw [mem_tickRange]
    omega
  · intro h
    have : (line.date + 1 - st.tick).toNat = 0 := by omega
    rw [this]
    rfl
  · have := Monitor.run_append hmrun
      (show st2.monitor.run [MonitorCall.Hit] = some (st2.monitor.Hit, []) from rfl)
    simpa using this
  · exact halerts
  · have := Stats.run_stats_append hsrun
      (show st2.stats.run [StatsCall.Hit line.section_] = some (s3, []) by
        simp [Stats.run, Stats.call, hhit])
    simpa using this
  · exact hreports

/-- The step theorem on a fresh player that was synchronised at second 5 and receives a
record of second 7. -/
theorem PlayState.handle_accepted_witness :
    ((6 : Int) ≠ 0 ∧ minInt64 < 6 ∧ (6 : Int) - 1 ≤ 7 ∧ (7 : Int) < maxInt64 ∧
      MonitorInv (NewMonitor 1 3) ∧ StatsInv (NewStats 10)) ∧
    ∃ (st1 : PlayState) (alerts : List AlertReport) (reports : List StatsReport),
      PlayState.handle ⟨6, NewMonitor 1 3, NewStats 10, [], [], [], []⟩
        (LogModel.ofDateSection 7 "/api") = some st1 ∧
      st1.calls = [] ++
        (tickRange 6 ((LogModel.ofDateSection 7 "/api").date + 1 - 6).toNat).flatMap
          (fun s => [PlayerCall.MonitorTick s, PlayerCall.StatsTick s]) ++
        [PlayerCall.MonitorHit, PlayerCall.StatsHit (LogModel.ofDateSection 7 "/api").section_] ∧
      (∀ s, s ∈ tickRange 6 ((LogModel.ofDateSection 7 "/api").date + 1 - 6).toNat ↔
        6 ≤ s ∧ s ≤ (LogModel.ofDateSection 7 "/api").date) ∧
      ((LogModel.ofDateSection 7 "/api").date = 6 - 1 →
        tickRange 6 ((LogModel.ofDateSection 7 "/api").date + 1 - 6).toNat = []) ∧
      st1.tick = (LogModel.ofDateSection 7 "/api").date + 1 ∧
      (NewMonitor 1 3).run
        ((tickRange 6 ((LogModel.ofDateSection 7 "/api").date + 1 - 6).toNat).map
          MonitorCall.Tick ++ [MonitorCall.Hit]) = some (st1.monitor, alerts) ∧
      st1.alerts = [] ++ alerts ∧
      (NewStats 10).run
        ((tickRange 6 ((LogModel.ofDateSection 7 "/api").date + 1 - 6).toNat).map
          StatsCall.Tick ++ [StatsCall.Hit (LogModel.ofDateSection 7 "/api").section_])
        = some (st1.stats, reports) ∧
      st1.reports = [] ++ reports ∧
      st1.rejected = [] :=
  have hmon : MonitorInv (NewMonitor 1 3) := ⟨by decide, by decide, by decide⟩
  ⟨⟨by decide, by decide, by decide, by decide, hmon, StatsInv.init_stats 10⟩,
    PlayState.handle_accepted ⟨6, NewMonitor 1 3, NewStats 10, [], [], [], []⟩
      (LogModel.ofDateSection 7 "/api") (by decide) (by decide) (by decide) (by decide) hmon
      (StatsInv.init_stats 10)⟩

/-- C14: a late record that arrives when the tick is 0 is not dropped. After a first
record of second -1 the tick is 0 and the open second is -1; the record of second -10
that follows synchronises the monitor and the stats tracker again, moves the tick to -9,
is not written to the rejected records and is registered as a hit. The reorder buffer
does send -1 and then -10 on a log of 51 rows with the dates -1, 100 (49 times), -10. -/
theorem PlayState.handle_late_resyncs :
    ((NewPlayer "" 10 1 3).Play [LogModel.ofDateSection (-1) "/a"]).map
        (fun st => (st.tick, st.calls, st.rejected))
      = some (0, [PlayerCall.MonitorSync (-1), PlayerCall.StatsSync (-1),
          PlayerCall.MonitorHit, PlayerCall.StatsHit "/a"], []) ∧
    (((NewPlayer "" 10 1 3).Play [LogModel.ofDateSection (-1) "/a"]).bind
        (fun st => st.handle (LogModel.ofDateSection (-10) "/b"))).map
        (fun st => (st.tick, st.calls, st.rejected, st.monitor.tick, st.stats.tick))
      = some (-9, [PlayerCall.MonitorSync (-1), PlayerCall.StatsSync (-1),
          PlayerCall.MonitorHit, PlayerCall.StatsHit "/a", PlayerCall.MonitorSync (-10),
          PlayerCall.StatsSync (-10), PlayerCall.MonitorHit, PlayerCall.StatsHit "/b"], [],
          -10, -10) ∧
    (Reader.Process defaultPriorityQueueSize
        (LogModel.ofDateSection (-1) "/a" :: List.replicate 49 (LogModel.ofDateSection 100 "/c")
          ++ [LogModel.ofDateSection (-10) "/b"])).map
        (fun out => (out.take 2).map LogModel.date) = some [-1, -10] := by
  decide

/-- A late record that arrives when the tick is not 0 is dropped without effect: for
every driver state whose tick `c` is not 0 and is above `minInt64` and every record with
timestamp `t < c - 1`, the step returns and leaves the tick, the monitor, the stats
tracker, the calls made and the alerts and reports sent as they were, the record only
joining the rejected ones; the run goes on with the next record. -/
theorem PlayState.handle_late (st : PlayState) (line : LogModel) (hsync : st.tick ≠ 0)
    (hlo : minInt64 < st.tick) (hhi : st.tick ≤ maxInt64)
    (hlate : line.date < st.tick - 1) :
    ∃ st1, st.handle line = some st1 ∧
      st1.tick = st.tick ∧ st1.monitor = st.monitor ∧ st1.stats = st.stats ∧
      st1.calls = st.calls ∧ st1.alerts = st.alerts ∧ st1.reports = st.reports ∧
      st1.rejected = st.rejected ++ [line] ∧
      ∀ rest, PlayState.playFrom st (line :: rest) = PlayState.playFrom st1 rest := by
  have hw : wrapInt64 (st.tick - 1) = st.tick - 1 :=
    wrapInt64_of_range (by omega) (by omega)
  refine ⟨{ st with rejected := st.rejected ++ [line] }, ?_, rfl, rfl, rfl, rfl, rfl, rfl, rfl,
    ?_⟩
  · simp [PlayState.handle, PlayState.sync_of_ne hsync, hw, hlate]
  · intro rest
    simp [PlayState.playFrom, PlayState.handle, PlayState.sync_of_ne hsync, hw, hlate]

/-! ### The playback driver: a sorted stream -/

theorem PlayState.tickLoop_zero {st : PlayState} {date : Int} (h : date < st.tick) :
    PlayState.tickLoop 0 date st = some st := by
  have h1 : ¬ st.tick ≤ date := by omega
  simp [PlayState.tickLoop, h1]

theorem lastDate_ge (rest : List LogModel) :
    ∀ d : Int, List.Chain (fun a b : Int => a ≤ b) d (rest.map LogModel.date) →
      d ≤ lastDate d rest ∧ ∀ r ∈ rest, r.date ≤ lastDate d rest := by
  induction rest with
  | nil => intro d _; exact ⟨le_refl _, fun r hr => by cases hr⟩
  | cons x rest ih =>
    intro d h
    simp only [List.map_cons, List.chain_cons] at h
    obtain ⟨h1, h2⟩ := ih x.date h.2
    refine ⟨by simp only [lastDate]; omega, ?_⟩
    intro r hr
    simp only [lastDate]
    rcases List.mem_cons.1 hr with rfl | hr
    · exact h1
    · exact h2 r hr

/-- On a stream with non-decreasing timestamps, none above `B < maxInt64`, that starts at
or after the open second, `playFrom` returns and keeps every property that the tick of the
inner loop and the registration of a hit keep. -/
theorem PlayState.playFrom_sorted (Inv : List LogModel → PlayState → Prop) (B : Int)
    (hB : B < maxInt64)
    (hTick : ∀ pre st, Inv pre st → 1 ≤ st.tick → st.tick ≤ B →
      ∃ st1, st.tickOnce = some st1 ∧ Inv pre st1)
    (hHit : ∀ pre st x, Inv pre st → x.date = st.tick - 1 →
      ∃ st1, st.hit x = some st1 ∧ st1.tick = st.tick ∧ Inv (pre ++ [x]) st1)
    (rest : List LogModel) :
    ∀ (pre : List LogModel) (st : PlayState), Inv pre st → 1 ≤ st.tick →
      (∀ r ∈ rest, r.date ≤ B) →
      List.Chain (fun a b : Int => a ≤ b) (st.tick - 1) (rest.map LogModel.date) →
      ∃ st1, PlayState.playFrom st rest = some st1 ∧ Inv (pre ++ rest) st1 ∧
        st1.tick = lastDate (st.tick - 1) rest + 1 := by
  induction rest with
  | nil =>
    intro pre st hinv _ _ _
    exact ⟨st, rfl, by simpa using hinv, by simp [lastDate]⟩
  | cons x rest ih =>
    intro pre st hinv htick hdates hchain
    simp only [List.map_cons, List.chain_cons] at hchain
    obtain ⟨hx, hchain1⟩ := hchain
    have hxB := hdates x (List.mem_cons_self _ _)
    have hne : st.tick ≠ 0 := by omega
    have hw : wrapInt64 (st.tick - 1) = st.tick - 1 :=
      wrapInt64_of_range (by simp only [minInt64]; omega) (by omega)
    have hnot : ¬ x.date < wrapInt64 (st.tick - 1) := by rw [hw]; omega
    obtain ⟨st2, hloop, ⟨hinv2, -⟩, htick2⟩ :=
      PlayState.tickLoop_induct (fun s => Inv pre s ∧ 1 ≤ s.tick) x.date (by omega)
        (fun st1 h1 hlo1 hle1 => by
          obtain ⟨st2, hone, hinv2⟩ := hTick pre st1 h1.1 h1.2 (by omega)
          have := PlayState.tickOnce_tick hone hlo1 (by omega)
          exact ⟨st2, hone, hinv2, by omega⟩)
        (x.date + 1 - st.tick).toNat st ⟨hinv, htick⟩ (le_refl _)
        (by simp only [minInt64]; omega) (by omega)
    obtain ⟨st3, hhit, htick3, hinv3⟩ := hHit pre st2 x hinv2 (by omega)
    obtain ⟨st4, hplay, hinv4, htick4⟩ := ih (pre ++ [x]) st3 hinv3 (by omega)
      (fun r hr => hdates r (List.mem_cons_of_mem _ hr))
      (by rw [htick3, htick2]; simpa using hchain1)
    refine ⟨st4, ?_, by simpa using hinv4, ?_⟩
    · simp [PlayState.playFrom, PlayState.handle, PlayState.sync_of_ne hne, hnot, hloop, hhit,
        hplay]
    · rw [htick4, htick3, htick2]
      simp [lastDate]

/-- The first record of a stream, of a date below `maxInt64`, synchronises the player and
is registered as a hit. -/
theorem Player.Play_cons (p : Player) (x : LogModel) (rest : List LogModel)
    (hlo : minInt64 ≤ x.date) (hhi : x.date < maxInt64) {st1 : PlayState}
    (hhit : (p.synced x).hit x = some st1) :
    p.Play (x :: rest) = PlayState.playFrom st1 rest := by
  have hw : wrapInt64 (x.date + 1) = x.date + 1 := wrapInt64_of_range (by omega) (by omega)
  have hw1 : wrapInt64 (x.date + 1 - 1) = x.date + 1 - 1 :=
    wrapInt64_of_range (by omega) (by omega)
  have hsync : PlayState.sync
      { tick := 0, monitor := p.monitor, stats := p.stats, calls := [], alerts := [],
        reports := [], rejected := [] } x = p.synced x := by
    simp [PlayState.sync, Player.synced, hw]
  have hloop : PlayState.tickLoop (x.date + 1 - (p.synced x).tick).toNat x.date (p.synced x)
      = some (p.synced x) := by
    have : (x.date + 1 - (p.synced x).tick).toNat = 0 := by simp [Player.synced]
    rw [this]
    exact PlayState.tickLoop_zero (by simp [Player.synced])
  have hnot : ¬ x.date < wrapInt64 ((p.synced x).tick - 1) := by
    simp only [Player.synced, hw1]
    omega
  simp only [Player.Play, PlayState.playFrom, PlayState.handle, hsync, hnot, if_false, hloop,
    hhit]

/-- A stream whose first record has the date `maxInt64` is never played to its end: the
tick wraps round to `minInt64` and the inner loop does not exit. -/
theorem Player.Play_maxInt64 (p : Player) (x : LogModel) (rest : List LogModel)
    (hx : x.date = maxInt64) : p.Play (x :: rest) = none := by
  have hw : wrapInt64 (x.date + 1) = minInt64 := by rw [hx]; decide
  have hw1 : wrapInt64 (minInt64 - 1) = maxInt64 := by decide
  have hnot : ¬ x.date < maxInt64 := by omega
  simp only [Player.Play, PlayState.playFrom, PlayState.handle, PlayState.sync, if_true, hw,
    hw1, hnot, if_false]
  rw [hx, PlayState.tickLoop_maxInt64 _ _ (show minInt64 ≤ maxInt64 by decide)]

/-- On a stream with non-negative, non-decreasing timestamps, none above `B < maxInt64`,
`Player.Play` returns and establishes every property that holds after the synchronisation
and is kept by the tick of the inner loop and by the registration of a hit. -/
theorem Player.Play_sorted (Inv : List LogModel → PlayState → Prop) (B : Int)
    (hB : B < maxInt64)
    (hTick : ∀ pre st, Inv pre st → 1 ≤ st.tick → st.tick ≤ B →
      ∃ st1, st.tickOnce = some st1 ∧ Inv pre st1)
    (hHit : ∀ pre st x, Inv pre st → x.date = st.tick - 1 →
      ∃ st1, st.hit x = some st1 ∧ st1.tick = st.tick ∧ Inv (pre ++ [x]) st1)
    (p : Player) (x : LogModel) (rest : List LogModel) (h0 : 0 ≤ x.date)
    (hdates : ∀ r ∈ x :: rest, r.date ≤ B)
    (hsorted : List.Chain (fun a b : Int => a ≤ b) x.date (rest.map LogModel.date))
    (hinit : Inv [] (p.synced x)) :
    ∃ st, p.Play (x :: rest) = some st ∧ Inv (x :: rest) st ∧
      st.tick = lastDate x.date rest + 1 := by
  have hxB := hdates x (List.mem_cons_self _ _)
  obtain ⟨st1, hhit, htick1, hinv1⟩ := hHit [] (p.synced x) x hinit (by simp [Player.synced])
  have ht1 : st1.tick = x.date + 1 := by rw [htick1]; rfl
  obtain ⟨st2, hplay, hinv2, htick2⟩ :=
    PlayState.playFrom_sorted Inv B hB hTick hHit rest [x] st1
      (by simpa using hinv1) (by omega) (fun r hr => hdates r (List.mem_cons_of_mem _ hr))
      (by rw [ht1]; simpa using hsorted)
  refine ⟨st2, ?_, by simpa using hinv2, by rw [htick2, ht1]; simp⟩
  rw [Player.Play_cons p x rest (by simp only [minInt64]; omega) (by omega) hhit, hplay]

/-! ### End-to-end stats reports -/

theorem Stats.TopK_congr {s s2 : Stats} (ht : s.topK = s2.topK) (k : Int) :
    s.TopK k = s2.TopK k := by
  simp only [Stats.TopK, ht]

/-- `Hit` acts on the count map and the index only. -/
theorem Stats.Hit_congr {s s2 s3 : Stats} {key : String} (hh : s.hits = s2.hits)
    (ht : s.topK = s2.topK) (h : s2.Hit key = some s3) :
    ∃ s1, s.Hit key = some s1 ∧ s1.hits = s3.hits ∧ s1.topK = s3.topK ∧
      s1.tick = s.tick ∧ s1.tickReport = s.tickReport ∧ s1.interval = s.interval ∧
      s1.showTopK = s.showTopK := by
  unfold Stats.Hit at h ⊢
  simp only at h ⊢
  rw [hh, ht]
  split at h
  · cases h
  · next topK hleft =>
    cases h
    exact ⟨_, rfl, rfl, rfl, rfl, rfl, rfl, rfl⟩

theorem PlayState.hit_eq {st : PlayState} {line : LogModel} {s1 : Stats}
    (h : st.stats.Hit line.section_ = some s1) :
    ∃ st1, st.hit line = some st1 ∧ st1.tick = st.tick ∧ st1.monitor = st.monitor.Hit ∧
      st1.stats = s1 ∧
      st1.calls = st.calls ++ [PlayerCall.MonitorHit, PlayerCall.StatsHit line.section_] ∧
      st1.alerts = st.alerts ∧ st1.reports = st.reports ∧ st1.rejected = st.rejected := by
  simp only [PlayState.hit, h]
  exact ⟨_, rfl, rfl, rfl, rfl, rfl, rfl, rfl, rfl⟩

theorem recordsBetween_append (pre : List LogModel) (x : LogModel) (lo hi : Int) :
    recordsBetween (pre ++ [x]) lo hi
      = recordsBetween pre lo hi ++ (if lo ≤ x.date ∧ x.date ≤ hi then [x] else []) := by
  simp only [recordsBetween, List.filter_append, List.filter_cons, List.filter_nil]
  by_cases h : lo ≤ x.date ∧ x.date ≤ hi <;> simp [h]

theorem recordsBetween_eq_nil {pre : List LogModel} {lo hi : Int}
    (h : ∀ r ∈ pre, r.date < lo) : recordsBetween pre lo hi = [] := by
  simp only [recordsBetween, List.filter_eq_nil_iff, decide_eq_true_eq]
  intro r hr hc
  have := h r hr
  omega

theorem MonitorInv.hit_inv {m : Monitor} (h : MonitorInv m) : MonitorInv m.Hit :=
  ⟨h.window, h.total, h.bound⟩

theorem MonitorInv.Sync {m : Monitor} (h : MonitorInv m) (t : Int) : MonitorInv (m.Sync t) :=
  ⟨h.window, h.total, h.bound⟩

theorem MonitorInv.new_monitor (rps N : Int) (hN : 1 ≤ N) : MonitorInv (NewMonitor rps N) :=
  ⟨hN, by simp [NewMonitor], by simp only [NewMonitor, List.length_nil]; push_cast; omega⟩

theorem StatsPlayInv.tickOnce_stats {I t0 : Int} {pre : List LogModel}
    {st : PlayState} (h : StatsPlayInv I t0 pre st) (hlo : 1 ≤ st.tick)
    (hhi : st.tick + I ≤ maxInt64) :
    ∃ st1, st.tickOnce = some st1 ∧ StatsPlayInv I t0 pre st1 := by
  obtain ⟨m1, al1, hcall, hmon1, -⟩ := h.monitorInv.call_monitor (MonitorCall.Tick st.tick)
  have hmtick : st.monitor.Tick st.tick = some (m1, al1) := hcall
  obtain ⟨st1, hone, e1, e2, e3, e4, e5, e6, e7⟩ := PlayState.tickOnce_eq hmtick
  refine ⟨st1, hone, ?_⟩
  have hahead := h.ahead
  have hnear := h.near
  have hbound := h.boundary
  rw [wrapInt64_of_range (by simp only [minInt64]; omega) (by omega)] at e1
  obtain ⟨sj, hrun, hhits, htopK⟩ := h.counts
  by_cases hle : st.stats.tickReport ≤ st.tick
  · -- the boundary is reached: a report is sent and the counts are cleared
    have hb : st.stats.tickReport = st.tick := by omega
    have hwr : wrapInt64 (st.stats.tickReport + st.stats.interval)
        = st.stats.tickReport + st.stats.interval := by
      rw [h.interval]
      exact wrapInt64_of_range (by simp only [minInt64]; omega) (by omega)
    rw [Stats.Tick_of_le hle, hwr] at e3 e6
    have hlen : st1.reports.length = st.reports.length + 1 := by rw [e6]; simp
    refine ⟨by rw [e2]; exact hmon1, by rw [e3]; exact h.interval, by rw [e3]; exact h.showTopK,
      ?_, ?_, ?_, ?_, ?_, ?_⟩
    · intro r hr
      have := h.dates r hr
      omega
    · rw [e3, hlen]
      simp only [h.interval, hbound]
      push_cast
      ring
    · rw [e3, e1]
      simp only [h.interval]
      omega
    · rw [e3, e1]
      simp only [h.interval]
      omega
    · refine ⟨NewStats I, ?_, by rw [e3]; rfl, by rw [e3]; rfl⟩
      rw [e3]
      simp only [h.interval]
      rw [recordsBetween_eq_nil]
      · rfl
      · intro r hr
        have := h.dates r hr
        omega
    · intro j hj
      rw [hlen] at hj
      rcases Nat.lt_or_ge j st.reports.length with hlt | hge
      · obtain ⟨sj1, hrun1, hget1⟩ := h.sent j hlt
        refine ⟨sj1, hrun1, ?_⟩
        rw [e6, List.getElem?_append_left hlt]
        exact hget1
      · have hj1 : j = st.reports.length := by omega
        subst hj1
        refine ⟨sj, ?_, ?_⟩
        · have h1 : t0 + ((st.reports.length : Nat) : Int) * I = st.stats.tickReport - I := by
            rw [hbound]; ring
          have h2 : t0 + (((st.reports.length : Nat) : Int) + 1) * I - 1
              = st.stats.tickReport - 1 := by
            rw [hbound]
          rw [h1, h2]
          exact hrun
        · rw [e6, List.getElem?_append_right (le_refl _)]
          simp only [Nat.sub_self, List.getElem?_cons_zero, Option.some.injEq,
            StatsReport.mk.injEq]
          refine ⟨?_, ?_⟩
          · rw [← hb, hbound]
          · rw [h.showTopK]
            exact Stats.TopK_congr htopK _
  · -- the boundary is still ahead
    have hlt : st.tick < st.stats.tickReport := not_le.1 hle
    rw [Stats.Tick_of_lt hlt] at e3 e6
    have hrep : st1.reports = st.reports := by rw [e6]; simp
    refine ⟨by rw [e2]; exact hmon1, by rw [e3]; exact h.interval, by rw [e3]; exact h.showTopK,
      ?_, ?_, ?_, ?_, ?_, ?_⟩
    · intro r hr
      have := h.dates r hr
      omega
    · rw [e3, hrep]
      exact hbound
    · rw [e3, e1]
      simp only
      omega
    · rw [e3, e1]
      simp only
      omega
    · exact ⟨sj, by rw [e3]; exact hrun, by rw [e3]; exact hhits, by rw [e3]; exact htopK⟩
    · intro j hj
      rw [hrep] at hj ⊢
      exact h.sent j hj

theorem StatsPlayInv.hit_stats {I t0 : Int} {pre : List LogModel} {st : PlayState}
    (h : StatsPlayInv I t0 pre st) (x : LogModel) (hx : x.date = st.tick - 1) :
    ∃ st1, st.hit x = some st1 ∧ st1.tick = st.tick ∧ StatsPlayInv I t0 (pre ++ [x]) st1 := by
  have hahead := h.ahead
  have hnear := h.near
  have hbound := h.boundary
  have hI0 : (0 : Int) ≤ I := by omega
  obtain ⟨sj, hrun, hhits, htopK⟩ := h.counts
  have hsj : StatsInv sj := by
    obtain ⟨s1, out1, hrun1, hinv1⟩ := StatsInv.run_stats
      (hitCalls (recordsBetween pre (st.stats.tickReport - I) (st.stats.tickReport - 1)))
      _ (StatsInv.init_stats I)
    rw [hrun] at hrun1
    cases hrun1
    exact hinv1
  obtain ⟨sj1, hhit, -⟩ := hsj.Hit x.section_
  obtain ⟨s1, hhit1, f1, f2, f3, f4, f5, f6⟩ := Stats.Hit_congr hhits htopK hhit
  obtain ⟨st1, hst1, e1, e2, e3, e4, e5, e6, e7⟩ := PlayState.hit_eq hhit1
  refine ⟨st1, hst1, e1, ⟨by rw [e2]; exact h.monitorInv.hit_inv, by rw [e3, f5]; exact h.interval,
    by rw [e3, f6]; exact h.showTopK, ?_, ?_, ?_, ?_, ?_, ?_⟩⟩
  · intro r hr
    rw [e1]
    rcases List.mem_append.1 hr with hr | hr
    · exact h.dates r hr
    · rw [List.mem_singleton] at hr
      subst hr
      omega
  · rw [e3, f4, e6]; exact hbound
  · rw [e3, f4, e1]; exact hahead
  · rw [e3, f4, e1]; exact hnear
  · refine ⟨sj1, ?_, by rw [e3, f1], by rw [e3, f2]⟩
    rw [e3, f4, recordsBetween_append, if_pos (by omega)]
    simp only [hitCalls, List.map_append, List.map_cons, List.map_nil]
    have := Stats.run_stats_append hrun
      (show sj.run [StatsCall.Hit x.section_] = some (sj1, []) by
        simp [Stats.run, Stats.call, hhit])
    simpa [hitCalls] using this
  · intro j hj
    rw [e6] at hj ⊢
    obtain ⟨sj2, hrun2, hget2⟩ := h.sent j hj
    refine ⟨sj2, ?_, hget2⟩
    have hstep := @boundary_step_le t0 _ hI0 _ _ hj
    rw [recordsBetween_append, if_neg, List.append_nil]
    · exact hrun2
    · have h1 : t0 + ((st.reports.length : Nat) : Int) * I = st.stats.tickReport - I := by
        rw [hbound]; ring
      have h2 : t0 + ((j : Int) + 1) * I = t0 + (j : Int) * I + I := by ring
      rw [h2]
      omega

theorem StatsPlayInv.synced_stats {I : Int} (hI : 1 ≤ I) (filePath : String) (rps N : Int)
    (hN : 1 ≤ N) (x : LogModel) (h0 : 0 ≤ x.date) (hhi : x.date + I ≤ maxInt64) :
    StatsPlayInv I x.date [] ((NewPlayer filePath I rps N).synced x) := by
  have hw : wrapInt64 (x.date + I) = x.date + I :=
    wrapInt64_of_range (by simp only [minInt64]; omega) hhi
  refine ⟨(MonitorInv.new_monitor rps N hN).Sync x.date, rfl, rfl, by simp, ?_, ?_, ?_, ?_, ?_⟩
  · simp [Player.synced, NewPlayer, Stats.Sync, NewStats, hw]
  · simp only [Player.synced, NewPlayer, Stats.Sync, NewStats, hw]
    omega
  · simp only [Player.synced, NewPlayer, Stats.Sync, NewStats, hw]
    omega
  · exact ⟨NewStats I, rfl, rfl, rfl⟩
  · intro j hj
    simp [Player.synced] at hj

/-- C16, as stated, fails on three inputs. With a monitor window of 0 the run on records
of seconds 5 and 17 with interval 10 fails at the first `Tick` and never sends the report
due at 15. With interval 9223372036854775807 and records of seconds 5 and 6 the boundary
`5 + I` wraps round to a negative value and a report is sent at tick 6, long before the
first boundary. And on a record of second 9223372036854775807 the run does not return. -/
theorem Player.Play_stats_counterexample :
    ((NewPlayer "" 10 1 0).Play
      [LogModel.ofDateSection 5 "/a", LogModel.ofDateSection 17 "/b"]).isNone = true ∧
    ((NewPlayer "" 9223372036854775807 1 3).Play
        [LogModel.ofDateSection 5 "/a", LogModel.ofDateSection 6 "/b"]).map PlayState.reports
      = some [⟨6, [⟨"/a", 1⟩]⟩] ∧
    (6 : Int) < 5 + 1 * 9223372036854775807 ∧
    ((NewPlayer "" 10 1 3).Play
      [LogModel.ofDateSection 9223372036854775807 "/a"]).isNone = true := by
  refine ⟨by decide, by decide, by decide, ?_⟩
  rw [Player.Play_maxInt64 _ _ _ rfl]
  rfl

/-- C16, amended: end-to-end stats reports. For every record stream with non-negative,
non-decreasing timestamps, first timestamp `t0` and last `T`, every stats interval
`I ≥ 1` with `T + I ≤ maxInt64`, and a monitor window `N ≥ 1`, `Player.Play` returns and
has sent stats reports exactly at the ticks `t0 + j * I` with `j ≥ 1` up to `T` (there are
`n` of them), once each and in increasing order; the report at `b` carries `TopK 10` of
the counts obtained by hitting the sections of exactly the records with timestamp in
`[b - I, b - 1]` (the empty list when there are none). -/
theorem Player.Play_stats_reports (filePath : String) (I rps N : Int) (hI : 1 ≤ I)
    (hN : 1 ≤ N) (x : LogModel) (rest : List LogModel) (h0 : 0 ≤ x.date)
    (hsorted : List.Chain (fun a b : Int => a ≤ b) x.date (rest.map LogModel.date))
    (hfit : lastDate x.date rest + I ≤ maxInt64) :
    ∃ (st : PlayState) (n : Nat),
      (NewPlayer filePath I rps N).Play (x :: rest) = some st ∧
      x.date + (n : Int) * I ≤ lastDate x.date rest ∧
      lastDate x.date rest < x.date + ((n : Int) + 1) * I ∧
      st.reports.length = n ∧
      (st.reports.map StatsReport.tick
        = (List.range n).map (fun j : Nat => x.date + ((j : Int) + 1) * I)) ∧
      ∀ j : Nat, j < n →
        ∃ sj, (NewStats I).run (hitCalls (recordsBetween (x :: rest)
              (x.date + ((j : Int) + 1) * I - I) (x.date + ((j : Int) + 1) * I - 1)))
            = some (sj, []) ∧
          st.reports[j]? = some ⟨x.date + ((j : Int) + 1) * I, sj.TopK 10⟩ := by
  obtain ⟨hlast, hdates⟩ := lastDate_ge rest x.date hsorted
  have hall : ∀ r ∈ x :: rest, r.date ≤ lastDate x.date rest := by
    intro r hr
    rcases List.mem_cons.1 hr with rfl | hr
    · exact hlast
    · exact hdates r hr
  obtain ⟨st, hplay, hinv, htick⟩ := Player.Play_sorted (StatsPlayInv I x.date)
    (lastDate x.date rest) (by omega)
    (fun pre st h h1 hB => h.tickOnce_stats h1 (by omega)) (fun pre st y h hy => h.hit_stats y hy)
    (NewPlayer filePath I rps N) x rest h0 hall hsorted
    (StatsPlayInv.synced_stats hI filePath rps N hN x h0 (by omega))
  have hahead := hinv.ahead
  have hnear := hinv.near
  have hbound := hinv.boundary
  rw [htick] at hahead hnear
  have hsent : ∀ j : Nat, j < st.reports.length →
      ∃ sj, (NewStats I).run (hitCalls (recordsBetween (x :: rest)
            (x.date + ((j : Int) + 1) * I - I) (x.date + ((j : Int) + 1) * I - 1)))
          = some (sj, []) ∧
        st.reports[j]? = some ⟨x.date + ((j : Int) + 1) * I, sj.TopK 10⟩ := by
    intro j hj
    obtain ⟨sj, hrun, hget⟩ := hinv.sent j hj
    have h1 : x.date + ((j : Int) + 1) * I - I = x.date + (j : Int) * I := by ring
    rw [h1]
    exact ⟨sj, hrun, hget⟩
  refine ⟨st, st.reports.length, hplay, ?_, ?_, rfl, ?_, hsent⟩
  · have : x.date + ((st.reports.length : Int) + 1) * I
        = x.date + (st.reports.length : Int) * I + I := by ring
    omega
  · omega
  · apply List.ext_getElem?
    intro j
    by_cases hj : j < st.reports.length
    · obtain ⟨sj, -, hget⟩ := hsent j hj
      simp [hget, List.getElem?_range hj]
    · have h1 : st.reports.length ≤ j := Nat.le_of_not_lt hj
      rw [List.getElem?_eq_none (by simpa using h1), List.getElem?_eq_none (by simpa using h1)]

/-- The end-to-end stats theorem on two records, of second 5 and of second 17, with
interval 10. -/
theorem Player.Play_stats_reports_witness :
    ((1 : Int) ≤ 10 ∧ (1 : Int) ≤ 3 ∧ 0 ≤ (LogModel.ofDateSection 5 "/a").date ∧
      List.Chain (fun a b : Int => a ≤ b) (LogModel.ofDateSection 5 "/a").date
        ([LogModel.ofDateSection 17 "/b"].map LogModel.date) ∧
      lastDate (LogModel.ofDateSection 5 "/a").date [LogModel.ofDateSection 17 "/b"] + 10
        ≤ maxInt64) ∧
    ∃ (st : PlayState) (n : Nat),
      (NewPlayer "" 10 1 3).Play (LogModel.ofDateSection 5 "/a" :: [LogModel.ofDateSection 17 "/b"])
        = some st ∧
      (LogModel.ofDateSection 5 "/a").date + (n : Int) * 10
        ≤ lastDate (LogModel.ofDateSection 5 "/a").date [LogModel.ofDateSection 17 "/b"] ∧
      lastDate (LogModel.ofDateSection 5 "/a").date [LogModel.ofDateSection 17 "/b"]
        < (LogModel.ofDateSection 5 "/a").date + ((n : Int) + 1) * 10 ∧
      st.reports.length = n ∧
      (st.reports.map StatsReport.tick
        = (List.range n).map
            (fun j : Nat => (LogModel.ofDateSection 5 "/a").date + ((j : Int) + 1) * 10)) ∧
      ∀ j : Nat, j < n →
        ∃ sj, (NewStats 10).run (hitCalls (recordsBetween
              (LogModel.ofDateSection 5 "/a" :: [LogModel.ofDateSection 17 "/b"])
              ((LogModel.ofDateSection 5 "/a").date + ((j : Int) + 1) * 10 - 10)
              ((LogModel.ofDateSection 5 "/a").date + ((j : Int) + 1) * 10 - 1)))
            = some (sj, []) ∧
          st.reports[j]?
            = some ⟨(LogModel.ofDateSection 5 "/a").date + ((j : Int) + 1) * 10, sj.TopK 10⟩ :=
  ⟨⟨by decide, by decide, by decide, by simp [LogModel.ofDateSection], by decide⟩,
    Player.Play_stats_reports "" 10 1 3 (by decide) (by decide) (LogModel.ofDateSection 5 "/a")
      [LogModel.ofDateSection 17 "/b"] (by decide) (by simp [LogModel.ofDateSection])
      (by decide)⟩

/-! ### End-to-end accounting in the monitor -/

theorem countAt_append (pre : List LogModel) (x : LogModel) (d : Int) :
    countAt (pre ++ [x]) d = countAt pre d + (if x.date = d then 1 else 0) := by
  simp only [countAt, List.countP_append, List.countP_cons, List.countP_nil]
  by_cases h : x.date = d <;> simp [h]

theorem countAt_eq_zero {pre : List LogModel} {d : Int} (h : ∀ r ∈ pre, r.date < d) :
    countAt pre d = 0 := by
  simp only [countAt, List.countP_eq_zero, decide_eq_true_eq]
  intro r hr hc
  have := h r hr
  omega

theorem secondsOf_succ (pre : List LogModel) (t0 : Int) (n : Nat) :
    secondsOf pre t0 (n + 1)
      = secondsOf pre t0 n ++ [(countAt pre (t0 + (n : Int)), t0 + (n : Int) + 1)] := by
  simp [secondsOf, List.range_succ]

theorem secondsOf_append (pre : List LogModel) (x : LogModel) (t0 : Int) (n : Nat)
    (h : t0 + (n : Int) ≤ x.date) : secondsOf (pre ++ [x]) t0 n = secondsOf pre t0 n := by
  simp only [secondsOf]
  apply List.map_congr_left
  intro i hi
  have hi1 := List.mem_range.1 hi
  rw [countAt_append, if_neg (by omega)]
  rfl

theorem MonitorPlayInv.tickOnce_monitor {rps N t0 : Int} {pre : List LogModel} {st : PlayState}
    (h : MonitorPlayInv rps N t0 pre st) (hlo : 1 ≤ st.tick) (hhi : st.tick < maxInt64) :
    ∃ st1, st.tickOnce = some st1 ∧ MonitorPlayInv rps N t0 pre st1 := by
  obtain ⟨m1, al1, hcall, hmon1, -⟩ := h.monitorInv.call_monitor (MonitorCall.Tick st.tick)
  have hmtick : st.monitor.Tick st.tick = some (m1, al1) := hcall
  obtain ⟨s1, rp1, hscall, hstats1⟩ := h.statsInv.call_stats (StatsCall.Tick st.tick)
  have hs1 : (st.stats.Tick st.tick) = (s1, rp1) := by
    simpa [Stats.call] using hscall
  obtain ⟨st1, hone, e1, e2, e3, e4, e5, e6, e7⟩ := PlayState.tickOnce_eq hmtick
  rw [wrapInt64_of_range (by simp only [minInt64]; omega) (by omega)] at e1
  have hstart := h.start
  have hn : (st1.tick - 1 - t0).toNat = (st.tick - 1 - t0).toNat + 1 := by rw [e1]; omega
  have hlast : t0 + (((st.tick - 1 - t0).toNat : Nat) : Int) = st.tick - 1 := by omega
  have hcalls1 : st1.calls.filterMap PlayerCall.toMonitor
      = st.calls.filterMap PlayerCall.toMonitor ++ [MonitorCall.Tick st.tick] := by
    rw [e4]
    simp [List.filterMap_append, PlayerCall.toMonitor]
  have hzero : countAt pre (st1.tick - 1) = 0 := by
    apply countAt_eq_zero
    intro r hr
    have := h.dates r hr
    omega
  refine ⟨st1, hone, ⟨by rw [e2]; exact hmon1, by rw [e3, hs1]; exact hstats1, ?_, by omega,
    by rw [e7]; exact h.accepted, ?_, ?_, ?_⟩⟩
  · intro r hr
    have := h.dates r hr
    omega
  · rw [hcalls1, h.monitorCalls, hn, secondsOf_succ, trafficCalls_append_singleton, hzero, hlast]
    simp [secondCalls]
  · rw [e4]
    simp only [List.filterMap_append, h.ticks, hn, tickRange_succ]
    congr 1
    simp only [List.filterMap_cons, PlayerCall.monitorTick, List.filterMap_nil]
    congr 1
    omega
  · rw [hcalls1, e2, e5]
    exact Monitor.run_append h.run (Monitor.run_tick hmtick)

theorem MonitorPlayInv.hit_monitor {rps N t0 : Int} {pre : List LogModel} {st : PlayState}
    (h : MonitorPlayInv rps N t0 pre st) (x : LogModel) (hx : x.date = st.tick - 1) :
    ∃ st1, st.hit x = some st1 ∧ st1.tick = st.tick ∧
      MonitorPlayInv rps N t0 (pre ++ [x]) st1 := by
  obtain ⟨s1, hhit, hstats1, -⟩ := h.statsInv.Hit x.section_
  obtain ⟨st1, hst1, e1, e2, e3, e4, e5, e6, e7⟩ := PlayState.hit_eq hhit
  have hstart := h.start
  have hcalls1 : st1.calls.filterMap PlayerCall.toMonitor
      = st.calls.filterMap PlayerCall.toMonitor ++ [MonitorCall.Hit] := by
    rw [e4]
    simp [List.filterMap_append, PlayerCall.toMonitor]
  refine ⟨st1, hst1, e1, ⟨by rw [e2]; exact h.monitorInv.hit_inv, by rw [e3]; exact hstats1, ?_,
    by rw [e1]; exact hstart, by rw [e7]; exact h.accepted, ?_, ?_, ?_⟩⟩
  · intro r hr
    rw [e1]
    rcases List.mem_append.1 hr with hr | hr
    · exact h.dates r hr
    · rw [List.mem_singleton] at hr
      subst hr
      omega
  · rw [hcalls1, h.monitorCalls, e1, secondsOf_append _ _ _ _ (by omega), countAt_append,
      if_pos hx, List.replicate_succ']
    simp
  · rw [e4, e1]
    simp only [List.filterMap_append, h.ticks]
    simp [PlayerCall.monitorTick]
  · rw [hcalls1, e2, e5]
    have := Monitor.run_append h.run
      (show st.monitor.run [MonitorCall.Hit] = some (st.monitor.Hit, []) from rfl)
    simpa using this

theorem MonitorPlayInv.synced_monitor (filePath : String) (I rps N : Int) (hN : 1 ≤ N)
    (x : LogModel) :
    MonitorPlayInv rps N x.date [] ((NewPlayer filePath I rps N).synced x) := by
  refine ⟨(MonitorInv.new_monitor rps N hN).Sync x.date, StatsInv.init_stats I, by simp,
    by simp [Player.synced], rfl, ?_, ?_, ?_⟩
  · simp [Player.synced, PlayerCall.toMonitor, secondsOf, trafficCalls, countAt]
  · simp [Player.synced, PlayerCall.monitorTick, tickRange]
  · simp [Player.synced, PlayerCall.toMonitor, Monitor.run, Monitor.call, NewPlayer]

/-- Playing a sequence of seconds on a monitor that satisfies the window invariant for no
second yet sends the expected reports and establishes the window invariant. -/
theorem WindowInv.run_traffic (r : Int) (N : Nat) (hN : 1 ≤ N) (m0 : Monitor)
    (h0 : WindowInv r N [] m0) (secs : List (Nat × Int)) :
    ∃ m, m0.run (trafficCalls secs) = some (m, expectedReports r N secs) ∧
      WindowInv r N (secs.map Prod.fst) m := by
  induction secs using List.reverseRecOn with
  | nil => exact ⟨m0, rfl, h0⟩
  | append_singleton secs e ih =>
    obtain ⟨m, hrun, hinv⟩ := ih
    obtain ⟨m1, hsec, hinv1⟩ := hinv.second hN e
    refine ⟨m1, ?_, hinv1⟩
    rw [trafficCalls_append_singleton, expectedReports_append_singleton]
    exact Monitor.run_append hrun hsec

/-- The monitor after a synchronisation, a sequence of seconds and `h` further hits. -/
theorem Monitor.run_seconds_hits (r : Int) (N : Nat) (hN : 1 ≤ N) (t0 : Int)
    (secs : List (Nat × Int)) (h : Nat) :
    ∃ m, WindowInv (wrapInt64 (r * (N : Int))) N (secs.map Prod.fst) m ∧
      (NewMonitor r N).run
          (MonitorCall.Sync t0 :: trafficCalls secs ++ List.replicate h MonitorCall.Hit)
        = some ({ m with tickHits := (h : Int) },
            expectedReports (wrapInt64 (r * (N : Int))) N secs) := by
  have h0 : WindowInv (wrapInt64 (r * (N : Int))) N [] ((NewMonitor r N).Sync t0) := by
    obtain ⟨a1, a2, a3, a4, a5, a6⟩ := WindowInv.init_window r N
    exact ⟨a1, a2, a3, a4, a5, a6⟩
  obtain ⟨m, hrun, hinv⟩ := WindowInv.run_traffic _ N hN _ h0 secs
  refine ⟨m, hinv, ?_⟩
  have hhits := Monitor.run_replicate_hit h m
  rw [hinv.tickHits, zero_add] at hhits
  have h1 := Monitor.run_append hrun hhits
  have h2 : (NewMonitor r N).run [MonitorCall.Sync t0] = some ((NewMonitor r N).Sync t0, []) :=
    rfl
  have h3 := Monitor.run_append h2 h1
  simpa using h3

theorem Monitor.Tick_getLast {m m1 : Monitor} {t : Int} {out : List AlertReport}
    (h : m.Tick t = some (m1, out)) : m1.queue.getLast? = some m.tickHits := by
  unfold Monitor.Tick at h
  cases hev : m.evict with
  | none => rw [hev] at h; cases h
  | some m0 =>
    rw [hev] at h
    simp only [Option.some.injEq] at h
    have hq := ((m0.pushTick t).checkAlerts_fields).1
    have h1 : m1 = (m0.pushTick t).checkAlerts.1 := by rw [h]
    rw [h1, hq]
    have hth : m0.tickHits = m.tickHits := by
      unfold Monitor.evict at hev
      split at hev
      · split at hev
        · cases hev
        · cases hev; rfl
      · cases hev; rfl
    simp [Monitor.pushTick, hth]

/-- C17, as stated, fails on two inputs. With a monitor window of 0 the run on records of
seconds 5 and 7 fails at `Monitor.Tick 6`, the first `Tick` it calls. And on a record of
second 9223372036854775807 the run does not return: the tick wraps round and the inner
loop calls `Monitor.Tick` without end. -/
theorem Player.Play_monitor_counterexample :
    ((NewPlayer "" 10 1 0).Play [LogModel.ofDateSection 5 "/a"]).map
        (fun st => st.calls.filterMap PlayerCall.monitorTick) = some [] ∧
    ((NewPlayer "" 10 1 0).Play
      [LogModel.ofDateSection 5 "/a", LogModel.ofDateSection 7 "/b"]).isNone = true ∧
    (NewMonitor 1 0).Tick 6 = none ∧
    ((NewPlayer "" 10 1 3).Play
      [LogModel.ofDateSection 9223372036854775807 "/a"]).isNone = true := by
  refine ⟨by decide, by decide, by decide, ?_⟩
  rw [Player.Play_maxInt64 _ _ _ rfl]
  rfl

/-- C17, amended: end-to-end per-second accounting in the monitor. For every record stream
with non-negative, non-decreasing timestamps from `t0` to `T < maxInt64` and a monitor
window `N ≥ 1`, `Player.Play` returns and rejects no record; it calls `Monitor.Tick s` exactly once for
each `s` in `t0 + 1 .. T`, in ascending order; the calls on the monitor are the
synchronisation, then for each second `t0 + i < T` as many hits as there are records of
that second followed by `Tick (t0 + i + 1)`, which appends that number to the window,
then the hits of the records of second `T`. No final `Tick` follows, so the records of
second `T` are counted in `tickHits` only: the window holds the last `N` counts of the
seconds before `T` and `totalHits` is its sum. -/
theorem Player.Play_monitor_accounting (filePath : String) (I rps : Int) (N : Nat)
    (hN : 1 ≤ N) (x : LogModel) (rest : List LogModel) (h0 : 0 ≤ x.date)
    (hsorted : List.Chain (fun a b : Int => a ≤ b) x.date (rest.map LogModel.date))
    (hfit : lastDate x.date rest < maxInt64) :
    ∃ st : PlayState,
      (NewPlayer filePath I rps N).Play (x :: rest) = some st ∧
      st.rejected = [] ∧
      st.calls.filterMap PlayerCall.monitorTick
        = tickRange (x.date + 1) (lastDate x.date rest - x.date).toNat ∧
      st.calls.filterMap PlayerCall.toMonitor
        = MonitorCall.Sync x.date ::
            trafficCalls (secondsOf (x :: rest) x.date (lastDate x.date rest - x.date).toNat)
          ++ List.replicate (countAt (x :: rest) (lastDate x.date rest)) MonitorCall.Hit ∧
      (∀ i : Nat, i < (lastDate x.date rest - x.date).toNat →
        ∃ m out m1 out1,
          (NewMonitor rps N).run
              (MonitorCall.Sync x.date :: trafficCalls (secondsOf (x :: rest) x.date i)
                ++ List.replicate (countAt (x :: rest) (x.date + (i : Int))) MonitorCall.Hit)
            = some (m, out) ∧
          m.Tick (x.date + (i : Int) + 1) = some (m1, out1) ∧
          m1.queue.getLast? = some ((countAt (x :: rest) (x.date + (i : Int)) : Nat) : Int)) ∧
      st.monitor.tickHits = ((countAt (x :: rest) (lastDate x.date rest) : Nat) : Int) ∧
      st.monitor.queue
        = ((((secondsOf (x :: rest) x.date (lastDate x.date rest - x.date).toNat).map
              Prod.fst).drop ((lastDate x.date rest - x.date).toNat - N)).map
            (fun h : Nat => (h : Int))) ∧
      st.monitor.totalHits = st.monitor.queue.sum := by
  obtain ⟨hlast, hdates⟩ := lastDate_ge rest x.date hsorted
  have hall : ∀ r ∈ x :: rest, r.date ≤ lastDate x.date rest := by
    intro r hr
    rcases List.mem_cons.1 hr with rfl | hr
    · exact hlast
    · exact hdates r hr
  obtain ⟨st, hplay, hinv, htick⟩ := Player.Play_sorted (MonitorPlayInv rps N x.date)
    (lastDate x.date rest) hfit
    (fun pre st h h1 hB => h.tickOnce_monitor h1 (by omega))
    (fun pre st y h hy => h.hit_monitor y hy)
    (NewPlayer filePath I rps N) x rest h0 hall hsorted
    (MonitorPlayInv.synced_monitor filePath I rps N (by exact_mod_cast hN) x)
  have hT : st.tick - 1 = lastDate x.date rest := by omega
  have hcalls := hinv.monitorCalls
  have hticks := hinv.ticks
  have hrun := hinv.run
  rw [hT] at hcalls hticks
  obtain ⟨m, hwin, hrun1⟩ := Monitor.run_seconds_hits rps N hN x.date
    (secondsOf (x :: rest) x.date (lastDate x.date rest - x.date).toNat)
    (countAt (x :: rest) (lastDate x.date rest))
  rw [hcalls, hrun1] at hrun
  simp only [Option.some.injEq, Prod.mk.injEq] at hrun
  have hmon := hrun.1
  have hlen : ((secondsOf (x :: rest) x.date (lastDate x.date rest - x.date).toNat).map
      Prod.fst).length = (lastDate x.date rest - x.date).toNat := by
    simp [secondsOf]
  refine ⟨st, hplay, hinv.accepted, hticks, hcalls, ?_, ?_, ?_, ?_⟩
  · intro i _
    obtain ⟨m2, -, hrun2⟩ := Monitor.run_seconds_hits rps N hN x.date
      (secondsOf (x :: rest) x.date i) (countAt (x :: rest) (x.date + (i : Int)))
    obtain ⟨m3, out3, hrun3, hinv3, -⟩ := MonitorInv.run_monitor
      (MonitorCall.Sync x.date :: trafficCalls (secondsOf (x :: rest) x.date i)
        ++ List.replicate (countAt (x :: rest) (x.date + (i : Int))) MonitorCall.Hit)
      _ (MonitorInv.new_monitor rps N (by exact_mod_cast hN))
    have h3 := hrun3
    rw [hrun2] at h3
    simp only [Option.some.injEq, Prod.mk.injEq] at h3
    obtain ⟨m4, out4, hcall4, -, -⟩ := hinv3.call_monitor (MonitorCall.Tick (x.date + (i : Int) + 1))
    have htick4 : m3.Tick (x.date + (i : Int) + 1) = some (m4, out4) := hcall4
    refine ⟨m3, out3, m4, out4, hrun3, htick4, ?_⟩
    rw [Monitor.Tick_getLast htick4, ← h3.1]
  · rw [← hmon]
  · rw [← hmon]
    simp only
    rw [hwin.queue, hlen]
  · rw [← hmon]
    simp only
    rw [hwin.total, windowSum_length, hwin.queue]

/-- The accounting theorem on three records, two of second 5 and one of second 7, with a
window of 3 seconds. -/
theorem Player.Play_monitor_accounting_witness :
    (1 ≤ 3 ∧ 0 ≤ (LogModel.ofDateSection 5 "/a").date ∧
      List.Chain (fun a b : Int => a ≤ b) (LogModel.ofDateSection 5 "/a").date
        ([LogModel.ofDateSection 5 "/b", LogModel.ofDateSection 7 "/a"].map LogModel.date) ∧
      lastDate (LogModel.ofDateSection 5 "/a").date
        [LogModel.ofDateSection 5 "/b", LogModel.ofDateSection 7 "/a"] < maxInt64) ∧
    ∃ st : PlayState,
      (NewPlayer "" 10 1 (3 : Nat)).Play
          (LogModel.ofDateSection 5 "/a" ::
            [LogModel.ofDateSection 5 "/b", LogModel.ofDateSection 7 "/a"]) = some st ∧
      st.rejected = [] ∧
      st.calls.filterMap PlayerCall.monitorTick
        = tickRange ((LogModel.ofDateSection 5 "/a").date + 1)
            (lastDate (LogModel.ofDateSection 5 "/a").date
              [LogModel.ofDateSection 5 "/b", LogModel.ofDateSection 7 "/a"]
              - (LogModel.ofDateSection 5 "/a").date).toNat ∧
      st.calls.filterMap PlayerCall.toMonitor
        = MonitorCall.Sync (LogModel.ofDateSection 5 "/a").date ::
            trafficCalls (secondsOf
              (LogModel.ofDateSection 5 "/a" ::
                [LogModel.ofDateSection 5 "/b", LogModel.ofDateSection 7 "/a"])
              (LogModel.ofDateSection 5 "/a").date
              (lastDate (LogModel.ofDateSection 5 "/a").date
                [LogModel.ofDateSection 5 "/b", LogModel.ofDateSection 7 "/a"]
                - (LogModel.ofDateSection 5 "/a").date).toNat)
          ++ List.replicate (countAt
              (LogModel.ofDateSection 5 "/a" ::
                [LogModel.ofDateSection 5 "/b", LogModel.ofDateSection 7 "/a"])
              (lastDate (LogModel.ofDateSection 5 "/a").date
                [LogModel.ofDateSection 5 "/b", LogModel.ofDateSection 7 "/a"]))
            MonitorCall.Hit ∧
      (∀ i : Nat, i < (lastDate (LogModel.ofDateSection 5 "/a").date
            [LogModel.ofDateSection 5 "/b", LogModel.ofDateSection 7 "/a"]
            - (LogModel.ofDateSection 5 "/a").date).toNat →
        ∃ m out m1 out1,
          (NewMonitor 1 (3 : Nat)).run
              (MonitorCall.Sync (LogModel.ofDateSection 5 "/a").date ::
                trafficCalls (secondsOf
                  (LogModel.ofDateSection 5 "/a" ::
                    [LogModel.ofDateSection 5 "/b", LogModel.ofDateSection 7 "/a"])
                  (LogModel.ofDateSection 5 "/a").date i)
                ++ List.replicate (countAt
                    (LogModel.ofDateSection 5 "/a" ::
                      [LogModel.ofDateSection 5 "/b", LogModel.ofDateSection 7 "/a"])
                    ((LogModel.ofDateSection 5 "/a").date + (i : Int))) MonitorCall.Hit)
            = some (m, out) ∧
          m.Tick ((LogModel.ofDateSection 5 "/a").date + (i : Int) + 1) = some (m1, out1) ∧
          m1.queue.getLast? = some ((countAt
              (LogModel.ofDateSection 5 "/a" ::
                [LogModel.ofDateSection 5 "/b", LogModel.ofDateSection 7 "/a"])
              ((LogModel.ofDateSection 5 "/a").date + (i : Int)) : Nat) : Int)) ∧
      st.monitor.tickHits = ((countAt
          (LogModel.ofDateSection 5 "/a" ::
            [LogModel.ofDateSection 5 "/b", LogModel.ofDateSection 7 "/a"])
          (lastDate (LogModel.ofDateSection 5 "/a").date
            [LogModel.ofDateSection 5 "/b", LogModel.ofDateSection 7 "/a"]) : Nat) : Int) ∧
      st.monitor.queue
        = ((((secondsOf
              (LogModel.ofDateSection 5 "/a" ::
                [LogModel.ofDateSection 5 "/b", LogModel.ofDateSection 7 "/a"])
              (LogModel.ofDateSection 5 "/a").date
              (lastDate (LogModel.ofDateSection 5 "/a").date
                [LogModel.ofDateSection 5 "/b", LogModel.ofDateSection 7 "/a"]
                - (LogModel.ofDateSection 5 "/a").date).toNat).map
              Prod.fst).drop ((lastDate (LogModel.ofDateSection 5 "/a").date
                [LogModel.ofDateSection 5 "/b", LogModel.ofDateSection 7 "/a"]
                - (LogModel.ofDateSection 5 "/a").date).toNat - 3)).map
            (fun h : Nat => (h : Int))) ∧
      st.monitor.totalHits = st.monitor.queue.sum :=
  ⟨⟨by decide, by decide, by simp [LogModel.ofDateSection], by decide⟩,
    Player.Play_monitor_accounting "" 10 1 3 (by decide) (LogModel.ofDateSection 5 "/a")
      [LogModel.ofDateSection 5 "/b", LogModel.ofDateSection 7 "/a"] (by decide)
      (by simp [LogModel.ofDateSection]) (by decide)⟩


/-- C15: the first record of a stream with timestamp -1 leaves `tick` at 0, the value by
which `Player.Play` recognises that it has not synchronised yet. On the records with
timestamps -1 and 5 the second record is then treated as a first one: `Monitor.Sync` and
`Stats.Sync` are each called twice, and no `Tick` is issued for the seconds 0 to 5. On
the records with timestamps -1 and -10 the second synchronisation moves `tick` from 0
down to -9. -/
theorem Player.Play_syncs_twice :
    ((NewPlayer "" 10 1 3).Play
        [LogModel.ofDateSection (-1) "/a", LogModel.ofDateSection 5 "/b"]).map
        (fun st => (st.calls, st.tick, st.rejected))
      = some ([PlayerCall.MonitorSync (-1), PlayerCall.StatsSync (-1), PlayerCall.MonitorHit,
               PlayerCall.StatsHit "/a", PlayerCall.MonitorSync 5, PlayerCall.StatsSync 5,
               PlayerCall.MonitorHit, PlayerCall.StatsHit "/b"], 6, []) ∧
    ((NewPlayer "" 10 1 3).Play [LogModel.ofDateSection (-1) "/a"]).map PlayState.tick
      = some 0 ∧
    ((NewPlayer "" 10 1 3).Play
        [LogModel.ofDateSection (-1) "/a", LogModel.ofDateSection (-10) "/b"]).map
        (fun st => (st.calls, st.tick, st.rejected))
      = some ([PlayerCall.MonitorSync (-1), PlayerCall.StatsSync (-1), PlayerCall.MonitorHit,
               PlayerCall.StatsHit "/a", PlayerCall.MonitorSync (-10),
               PlayerCall.StatsSync (-10), PlayerCall.MonitorHit, PlayerCall.StatsHit "/b"],
              -9, []) := by
  decide

theorem stringsIndex_of_not_mem {sep : Char} :
    ∀ {s : List Char}, sep ∉ s → stringsIndex s sep = -1
  | [], _ => rfl
  | c :: rest, h => by
    have hc : c ≠ sep := fun e => h (by simp [e])
    have hrest : sep ∉ rest := fun e => h (by simp [e])
    simp [stringsIndex, hc, stringsIndex_of_not_mem hrest]

theorem stringsIndex_append {sep : Char} (b : List Char) :
    ∀ {a : List Char}, sep ∉ a → stringsIndex (a ++ sep :: b) sep = (a.length : Int)
  | [], _ => by simp [stringsIndex]
  | c :: rest, h => by
    have hc : c ≠ sep := fun e => h (by simp [e])
    have hrest : sep ∉ rest := fun e => h (by simp [e])
    have ih := stringsIndex_append b hrest
    have hne : ((rest.length : Int)) ≠ -1 := by omega
    have hstep : stringsIndex (c :: (rest ++ sep :: b)) sep
        = if stringsIndex (rest ++ sep :: b) sep = -1 then -1
          else stringsIndex (rest ++ sep :: b) sep + 1 := by
      simp [stringsIndex, hc]
    rw [List.cons_append, hstep, ih, if_neg hne, List.length_cons]
    push_cast
    rfl

/-- C18: `getSection p` is the empty string when `p` is empty or does not begin with `/`;
it is `p` itself when `p` begins with `/` and holds no further `/`; otherwise it is the
part of `p` before its second `/`. In every case it is a prefix of `p`. On the six inputs
of `TestGetSection` it gives the values expected there. -/
theorem getSection_spec (p : String) :
    ((p = "" ∨ p.data.head? ≠ some '/') → getSection p = "") ∧
    (∀ rest : List Char, p.data = '/' :: rest → '/' ∉ rest → getSection p = p) ∧
    (∀ a b : List Char, p.data = '/' :: (a ++ '/' :: b) → '/' ∉ a →
      getSection p = String.mk ('/' :: a)) ∧
    (getSection p).data <+: p.data ∧
    getSection "/api/user" = "/api" ∧ getSection "/report" = "/report" ∧
    getSection "/fee/fi/fo/fum" = "/fee" ∧ getSection "/" = "/" ∧ getSection "" = "" ∧
    getSection "///" = "/" := by
  refine ⟨?_, ?_, ?_, ?_, by decide, by decide, by decide, by decide, by decide, by decide⟩
  · intro h
    rcases h with h | h
    · subst h; rfl
    · unfold getSection
      cases hd : p.data with
      | nil => rfl
      | cons c rest =>
        have hc : c ≠ '/' := by
          intro e
          apply h
          simp [hd, e]
        simp [hc]
  · intro rest hd hno
    unfold getSection
    simp [hd, stringsIndex_of_not_mem hno]
  · intro a b hd hno
    unfold getSection
    have hne : ((a.length : Int)) ≠ -1 := by omega
    simp only [hd, stringsIndex_append b hno, hne, if_false, ne_eq, not_true_eq_false]
    have hn : ((a.length : Int) + 1).toNat = a.length + 1 := by omega
    rw [hn]
    simp
  · unfold getSection
    cases hd : p.data with
    | nil => simp
    | cons c rest =>
      by_cases hc : c = '/'
      · by_cases hi : stringsIndex rest '/' = -1
        · subst hc
          simp [hi, hd]
        · simp only [hc, hi, if_false, ne_eq, not_true_eq_false]
          exact List.take_prefix _ _
      · simp [hc]

theorem Reader.drain_perm {W : Nat} (hW : 1 ≤ W) (fuel : Nat) :
    ∀ st : ProcessState, st.queue.Len < fuel → st.queue.Len ≤ W →
      ∃ res, Reader.drain W fuel st = some res ∧
        List.Perm res (st.out ++ st.queue.map LogItem.value) := by
  induction fuel with
  | zero => intro st h; omega
  | succ fuel ih =>
    intro st hfuel hle
    have hstep : ∃ st1, Reader.sendWhileFull W (st.queue.Len + 1) st = some st1 ∧
        st1.queue.Len ≤ st.queue.Len ∧ st1.queue.Len ≤ W ∧
        List.Perm (st1.out ++ st1.queue.map LogItem.value)
          (st.out ++ st.queue.map LogItem.value) := by
      rcases Nat.lt_or_ge st.queue.Len W with hlt | hge
      · exact ⟨st, Reader.sendWhileFull_of_lt hlt, le_refl _, hle, List.Perm.refl _⟩
      · have heq : st.queue.Len = W := le_antisymm hle hge
        have hne : st.queue ≠ [] := by
          intro h0
          simp [h0, PriorityQueue.Len] at heq
          omega
        obtain ⟨m, hm, -⟩ := PriorityQueue.Pop_of_ne_nil hne
        have hlen := PriorityQueue.length_erase_front hm
        have hmem := PriorityQueue.front_mem hm
        have hf : st.queue.Len + 1 = (W - 1) + 2 := by omega
        refine ⟨_, by rw [hf]; exact Reader.sendWhileFull_of_eq heq hm, ?_, ?_, ?_⟩
        · simp only [PriorityQueue.Len]; omega
        · simp only [PriorityQueue.Len] at heq ⊢; omega
        · have hq : List.Perm (st.queue.map LogItem.value)
              (m.value :: (List.erase st.queue m).map LogItem.value) :=
            (List.perm_cons_erase hmem).map LogItem.value
          simp only [List.append_assoc, List.singleton_append]
          exact List.Perm.append_left st.out hq.symm
    obtain ⟨st1, hsend, hlen1, hle1, hperm1⟩ := hstep
    rw [Reader.drain, hsend]
    simp only
    by_cases hpos : st1.queue.Len > 0
    · have hne : st1.queue ≠ [] := by
        intro h0
        simp [h0, PriorityQueue.Len] at hpos
      obtain ⟨m, hm, hpop⟩ := PriorityQueue.Pop_of_ne_nil hne
      have hlen := PriorityQueue.length_erase_front hm
      have hmem := PriorityQueue.front_mem hm
      simp only [hpos, if_true, hpop]
      obtain ⟨res, hres, hperm⟩ := ih ⟨List.erase st1.queue m, st1.out ++ [m.value]⟩
        (by simp only [PriorityQueue.Len] at hlen1 hfuel ⊢; omega)
        (by simp only [PriorityQueue.Len] at hle1 ⊢; omega)
      refine ⟨res, hres, hperm.trans (List.Perm.trans ?_ hperm1)⟩
      have hq : List.Perm (st1.queue.map LogItem.value)
          (m.value :: (List.erase st1.queue m).map LogItem.value) :=
        (List.perm_cons_erase hmem).map LogItem.value
      simp only [List.append_assoc, List.singleton_append]
      exact List.Perm.append_left st1.out hq.symm
    · have h0 : st1.queue = [] := by
        cases hq : st1.queue with
        | nil => rfl
        | cons a l => simp [hq, PriorityQueue.Len] at hpos
      simp only [hpos, if_false]
      refine ⟨st1.out, rfl, ?_⟩
      refine List.Perm.trans ?_ hperm1
      simp [h0]

/-- C20: for every `W ≥ 1` and every input, ordered or not, `Reader.Process` sends all
its output and closes `out`, and the records sent are the records of the input, each as
many times as it occurs there: none is lost and none is sent twice. In particular every
record still held when the input ends is sent before `out` is closed. -/
theorem Reader.Process_perm (W : Nat) (hW : 1 ≤ W) (lines : List LogModel) :
    ∃ out, Reader.Process W lines = some out ∧ List.Perm out lines ∧
      out.length = lines.length := by
  obtain ⟨st, hfeed, hinv⟩ := FeedInv.feed_inv hW lines [] ⟨[], []⟩ (FeedInv.init_feed W)
  have hle : st.queue.Len ≤ W := by rw [hinv.held]; exact Nat.min_le_right _ _
  obtain ⟨res, hres, hperm⟩ := Reader.drain_perm hW (st.queue.Len + 1) st (Nat.lt_succ_self _) hle
  have hp : List.Perm res lines := hperm.trans (by simpa using hinv.perm)
  exact ⟨res, by simp [Reader.Process, hfeed, hres], hp, hp.length_eq⟩

/-- C20 at the capacity of the code, on an input that is not ordered and repeats a
record. -/
theorem Reader.Process_perm_witness :
    1 ≤ defaultPriorityQueueSize ∧
    ∃ out, Reader.Process defaultPriorityQueueSize
        [LogModel.ofDate 5, LogModel.ofDate 1, LogModel.ofDate 5, LogModel.ofDate 3] = some out ∧
      List.Perm out [LogModel.ofDate 5, LogModel.ofDate 1, LogModel.ofDate 5, LogModel.ofDate 3] ∧
      out.length = [LogModel.ofDate 5, LogModel.ofDate 1, LogModel.ofDate 5, LogModel.ofDate 3].length :=
  ⟨by decide, Reader.Process_perm defaultPriorityQueueSize (by decide) _⟩


theorem Reader.parseHeaderFrom_of_not_mem (key : String) :
    ∀ (header : List String) (logMap : String → Option Nat) (index : Nat), key ∉ header →
      Reader.parseHeaderFrom logMap index header key = logMap key
  | [], _, _, _ => rfl
  | entry :: rest, logMap, index, h => by
    have hne : key ≠ entry := fun e => h (by simp [e])
    have hrest : key ∉ rest := fun e => h (by simp [e])
    rw [Reader.parseHeaderFrom, Reader.parseHeaderFrom_of_not_mem key rest _ _ hrest,
      Function.update_noteq hne]

theorem Reader.parseHeaderFrom_getElem :
    ∀ (header : List String) (logMap : String → Option Nat) (index : Nat), header.Nodup →
      ∀ (j : Nat) (key : String), header[j]? = some key →
        Reader.parseHeaderFrom logMap index header key = some (index + j)
  | [], _, _, _, j, key, h => by simp at h
  | entry :: rest, logMap, index, hnd, j, key, h => by
    rw [List.nodup_cons] at hnd
    cases j with
    | zero =>
      simp only [List.getElem?_cons_zero, Option.some.injEq] at h
      subst h
      rw [Reader.parseHeaderFrom, Reader.parseHeaderFrom_of_not_mem entry rest _ _ hnd.1,
        Function.update_same]
      rfl
    | succ j =>
      simp only [List.getElem?_cons_succ] at h
      rw [Reader.parseHeaderFrom, Reader.parseHeaderFrom_getElem rest _ _ hnd.2 j key h]
      congr 1
      omega

theorem Reader.field_parseHeader (r : Reader) (cols : List (String × String))
    (hnd : (cols.map Prod.fst).Nodup) (key value : String) (hmem : (key, value) ∈ cols) :
    (r.parseHeader (cols.map Prod.fst)).field (cols.map Prod.snd) key = some value := by
  obtain ⟨j, hj, hget⟩ := List.getElem_of_mem hmem
  have hkey : (cols.map Prod.fst)[j]? = some key := by
    rw [List.getElem?_map, List.getElem?_eq_getElem hj, hget]
    rfl
  have hmap := Reader.parseHeaderFrom_getElem (cols.map Prod.fst) r.logMap 0 hnd j key hkey
  unfold Reader.field Reader.parseHeader
  simp only [hmap, Option.getD_some, Nat.zero_add]
  rw [List.getElem?_map, List.getElem?_eq_getElem hj, hget]
  rfl

/-- C19: decoding does not depend on the order of the columns. Let the seven column names
`remotehost, rfc931, authuser, date, request, status, bytes` be given values, and let
`cols` be any arrangement of the seven (name, value) pairs. After `parseHeader` on the
names in the order of `cols`, whatever the reader held before, `parseLog` on the values
in the same order returns the one `LogModel` whose fields are those values (the numeric
ones converted by `strconv.Atoi`, the request also split by `parseRequest`): the
arrangement does not appear in the result. -/
theorem Reader.parseLog_order_independent (r : Reader)
    (remotehost rfc931 authuser date request status bytes : String)
    (cols : List (String × String))
    (hperm : cols.Perm [("remotehost", remotehost), ("rfc931", rfc931), ("authuser", authuser),
      ("date", date), ("request", request), ("status", status), ("bytes", bytes)]) :
    (r.parseHeader (cols.map Prod.fst)).parseLog (cols.map Prod.snd)
      = some { remoteHost := remotehost, authServer := rfc931, authUser := authuser,
               date := strconvAtoi date, status := strconvAtoi status,
               bytes := strconvAtoi bytes, request := request,
               method := (parseRequest request).method,
               endpoint := (parseRequest request).endpoint,
               section_ := (parseRequest request).section_,
               protocol := (parseRequest request).protocol } := by
  have hnd : (cols.map Prod.fst).Nodup := by
    rw [(hperm.map Prod.fst).nodup_iff]
    show ["remotehost", "rfc931", "authuser", "date", "request", "status", "bytes"].Nodup
    decide
  have hf : ∀ key value : String,
      (key, value) ∈ [("remotehost", remotehost), ("rfc931", rfc931), ("authuser", authuser),
        ("date", date), ("request", request), ("status", status), ("bytes", bytes)] →
      (r.parseHeader (cols.map Prod.fst)).field (cols.map Prod.snd) key = some value :=
    fun key value h => Reader.field_parseHeader r cols hnd key value (hperm.mem_iff.mpr h)
  unfold Reader.parseLog
  rw [hf "remotehost" remotehost (by simp), hf "rfc931" rfc931 (by simp),
    hf "authuser" authuser (by simp), hf "date" date (by simp),
    hf "status" status (by simp), hf "bytes" bytes (by simp),
    hf "request" request (by simp)]

/-- C19 on the two header orders and rows of `TestParseLog`, the second decoded by the
reader that has already read the first header, as in the test. -/
theorem Reader.parseLog_order_independent_witness :
    List.Perm
      [("bytes", "1194"), ("remotehost", "10.0.0.5"), ("authuser", "apache"), ("rfc931", "-"),
        ("status", "500"), ("request", "POST /report HTTP/1.0"), ("date", "1549574134")]
      [("remotehost", "10.0.0.5"), ("rfc931", "-"), ("authuser", "apache"),
        ("date", "1549574134"), ("request", "POST /report HTTP/1.0"), ("status", "500"),
        ("bytes", "1194")] ∧
    (((NewReader "").parseHeader
        ["remotehost", "rfc931", "authuser", "date", "request", "status", "bytes"]).parseHeader
        ["bytes", "remotehost", "authuser", "rfc931", "status", "request", "date"]).parseLog
        ["1194", "10.0.0.5", "apache", "-", "500", "POST /report HTTP/1.0", "1549574134"]
      = some ⟨"10.0.0.5", "-", "apache", 1549574134, 500, 1194, "POST /report HTTP/1.0",
          "POST", "/report", "/report", "HTTP/1.0"⟩ ∧
    ((NewReader "").parseHeader
        ["remotehost", "rfc931", "authuser", "date", "request", "status", "bytes"]).parseLog
        ["10.0.0.2", "-", "apache", "1549573860", "GET /api/user HTTP/1.0", "200", "1234"]
      = some ⟨"10.0.0.2", "-", "apache", 1549573860, 200, 1234, "GET /api/user HTTP/1.0",
          "GET", "/api/user", "/api", "HTTP/1.0"⟩ :=
  ⟨by decide,
   (Reader.parseLog_order_independent
      ((NewReader "").parseHeader
        ["remotehost", "rfc931", "authuser", "date", "request", "status", "bytes"])
      "10.0.0.5" "-" "apache" "1549574134" "POST /report HTTP/1.0" "500" "1194"
      [("bytes", "1194"), ("remotehost", "10.0.0.5"), ("authuser", "apache"), ("rfc931", "-"),
        ("status", "500"), ("request", "POST /report HTTP/1.0"), ("date", "1549574134")]
      (by decide)).trans (by decide),
   by decide⟩


/-! ### Synchronisation on streams with a non-negative first timestamp -/

theorem SyncedOnce.tickOnce_synced {t0 : Int} (h0 : 0 ≤ t0) {st : PlayState}
    (h : SyncedOnce t0 st) (hhi : st.tick < maxInt64) :
    ∃ st1, st.tickOnce = some st1 ∧ SyncedOnce t0 st1 ∧ st1.tick = st.tick + 1 := by
  obtain ⟨m1, al1, hcall, hmon1, -⟩ := h.monitorInv.call_monitor (MonitorCall.Tick st.tick)
  have hmtick : st.monitor.Tick st.tick = some (m1, al1) := hcall
  obtain ⟨s1, rp1, hscall, hstats1⟩ := h.statsInv.call_stats (StatsCall.Tick st.tick)
  have hs1 : (st.stats.Tick st.tick) = (s1, rp1) := by
    simpa [Stats.call] using hscall
  obtain ⟨st1, hone, e1, e2, e3, e4, -⟩ := PlayState.tickOnce_eq hmtick
  rw [hs1] at e3
  have htick := h.tick
  rw [wrapInt64_of_range (by simp only [minInt64]; omega) (by omega)] at e1
  refine ⟨st1, hone, ⟨by rw [e2]; exact hmon1, by rw [e3]; exact hstats1, by omega,
    by omega, ?_⟩, e1⟩
  rw [e4, List.filter_append, h.syncs]
  simp [PlayerCall.isSync]

theorem SyncedOnce.hit_synced {t0 : Int} {st : PlayState} (h : SyncedOnce t0 st)
    (line : LogModel) :
    ∃ st1, st.hit line = some st1 ∧ SyncedOnce t0 st1 ∧ st1.tick = st.tick := by
  obtain ⟨s1, hhit, hstats1, -⟩ := h.statsInv.Hit line.section_
  obtain ⟨st1, hst1, e1, e2, e3, e4, -⟩ := PlayState.hit_eq hhit
  have htick := h.tick
  have hbound := h.bound
  refine ⟨st1, hst1, ⟨by rw [e2]; exact h.monitorInv.hit_inv, by rw [e3]; exact hstats1,
    by omega, by omega, ?_⟩, e1⟩
  rw [e4, List.filter_append, h.syncs]
  simp [PlayerCall.isSync]

theorem SyncedOnce.handle_synced {t0 : Int} (h0 : 0 ≤ t0) {st : PlayState}
    (h : SyncedOnce t0 st) (line : LogModel) (hline : line.date < maxInt64) :
    ∃ st1, st.handle line = some st1 ∧ SyncedOnce t0 st1 ∧ st.tick ≤ st1.tick := by
  have htick := h.tick
  have hbound := h.bound
  have hne : st.tick ≠ 0 := by omega
  have hw : wrapInt64 (st.tick - 1) = st.tick - 1 :=
    wrapInt64_of_range (by simp only [minInt64]; omega) (by omega)
  by_cases hlate : line.date < st.tick - 1
  · refine ⟨{ st with rejected := st.rejected ++ [line] }, ?_,
      ⟨h.monitorInv, h.statsInv, h.tick, h.bound, h.syncs⟩, le_refl _⟩
    simp [PlayState.handle, PlayState.sync_of_ne hne, hw, hlate]
  · have hnot : ¬ line.date < wrapInt64 (st.tick - 1) := by rw [hw]; exact hlate
    obtain ⟨st2, hloop, hinv2, htick2⟩ :=
      PlayState.tickLoop_induct (SyncedOnce t0) line.date hline
        (fun st1 h1 _ hle1 => by
          obtain ⟨st2, hone, hinv, -⟩ := h1.tickOnce_synced h0 (by omega)
          exact ⟨st2, hone, hinv⟩)
        (line.date + 1 - st.tick).toNat st h (le_refl _) (by simp only [minInt64]; omega)
        (by omega)
    obtain ⟨st3, hhit, hinv3, htick3⟩ := hinv2.hit_synced line
    refine ⟨st3, ?_, hinv3, by omega⟩
    simp [PlayState.handle, PlayState.sync_of_ne hne, hnot, hloop, hhit]

theorem SyncedOnce.playFrom_synced {t0 : Int} (h0 : 0 ≤ t0) (rest : List LogModel) :
    ∀ st : PlayState, SyncedOnce t0 st → (∀ r ∈ rest, r.date < maxInt64) →
      ∃ st1, PlayState.playFrom st rest = some st1 ∧ SyncedOnce t0 st1 ∧
        st.tick ≤ st1.tick := by
  induction rest with
  | nil => intro st h _; exact ⟨st, rfl, h, le_refl _⟩
  | cons x rest ih =>
    intro st h hdates
    obtain ⟨st1, hhandle, hinv1, hle1⟩ :=
      h.handle_synced h0 x (hdates x (List.mem_cons_self _ _))
    obtain ⟨st2, hplay, hinv2, hle2⟩ :=
      ih st1 hinv1 (fun r hr => hdates r (List.mem_cons_of_mem _ hr))
    exact ⟨st2, by simp [PlayState.playFrom, hhandle, hplay], hinv2, by omega⟩

theorem PlayState.playFrom_append (a b : List LogModel) :
    ∀ st : PlayState, PlayState.playFrom st (a ++ b)
      = (PlayState.playFrom st a).bind (fun st1 => PlayState.playFrom st1 b) := by
  induction a with
  | nil => intro st; rfl
  | cons x a ih =>
    intro st
    simp only [List.cons_append, PlayState.playFrom]
    cases st.handle x with
    | none => rfl
    | some st1 => exact ih st1

/-- When the first record of a stream has a non-negative timestamp `t0`, no timestamp is
`maxInt64` and the monitor window is at least 1, `Player.Play` synchronises once:
whatever the order of the records that follow, after every prefix `x :: a` of the stream
the only `Sync` calls made are `Monitor.Sync t0` and `Stats.Sync t0`, the tick is at least
`t0 + 1`, and the tick after a longer prefix is not smaller. -/
theorem Player.Play_sync_once_of_nonneg (filePath : String) (I rps N : Int) (hN : 1 ≤ N)
    (x : LogModel) (h0 : 0 ≤ x.date) (a b : List LogModel)
    (hdates : ∀ r ∈ x :: (a ++ b), r.date < maxInt64) :
    ∃ sa sb : PlayState,
      (NewPlayer filePath I rps N).Play (x :: a) = some sa ∧
      (NewPlayer filePath I rps N).Play (x :: (a ++ b)) = some sb ∧
      sa.calls.filter PlayerCall.isSync
        = [PlayerCall.MonitorSync x.date, PlayerCall.StatsSync x.date] ∧
      sb.calls.filter PlayerCall.isSync
        = [PlayerCall.MonitorSync x.date, PlayerCall.StatsSync x.date] ∧
      x.date + 1 ≤ sa.tick ∧ sa.tick ≤ sb.tick := by
  have hx := hdates x (List.mem_cons_self _ _)
  have hinit : SyncedOnce x.date ((NewPlayer filePath I rps N).synced x) :=
    ⟨(MonitorInv.new_monitor rps N hN).Sync x.date, StatsInv.init_stats I,
      by simp [Player.synced], by simp only [Player.synced]; omega,
      by simp [Player.synced, PlayerCall.isSync]⟩
  obtain ⟨st1, hhit, hinv1, -⟩ := hinit.hit_synced x
  have hfirst : ∀ rest : List LogModel,
      (NewPlayer filePath I rps N).Play (x :: rest) = PlayState.playFrom st1 rest :=
    fun rest => Player.Play_cons _ x rest (by simp only [minInt64]; omega) hx hhit
  obtain ⟨sa, hsa, hinva, -⟩ := SyncedOnce.playFrom_synced h0 a st1 hinv1
    (fun r hr => hdates r (by simp [hr]))
  obtain ⟨sb, hsb, hinvb, hle⟩ := SyncedOnce.playFrom_synced h0 b sa hinva
    (fun r hr => hdates r (by simp [hr]))
  refine ⟨sa, sb, by rw [hfirst, hsa], ?_, hinva.syncs, hinvb.syncs, hinva.tick, hle⟩
  rw [hfirst, PlayState.playFrom_append, hsa]
  exact hsb

/-! ### Safety of `Monitor.Tick` -/

theorem Monitor.Tick_of_capacity_ne_zero {m : Monitor} (h : m.capacity ≠ 0) (t : Int) :
    ∃ m1 out, m.Tick t = some (m1, out) ∧ m1.capacity = m.capacity := by
  have hev : ∃ m0, m.evict = some m0 ∧ m0.capacity = m.capacity := by
    by_cases hfull : (m.queue.length : Int) = m.capacity
    · cases hq : m.queue with
      | nil =>
        rw [hq] at hfull
        simp only [List.length_nil, Nat.cast_zero] at hfull
        exact absurd hfull.symm h
      | cons front rest => exact ⟨_, Monitor.evict_cons hq hfull, rfl⟩
    · exact ⟨m, Monitor.evict_of_ne hfull, rfl⟩
  obtain ⟨m0, hm0, hcap⟩ := hev
  obtain ⟨-, hc, -⟩ := (m0.pushTick t).checkAlerts_fields
  refine ⟨(m0.pushTick t).checkAlerts.1, (m0.pushTick t).checkAlerts.2, ?_, ?_⟩
  · simp [Monitor.Tick, hm0]
  · rw [hc]
    simp only [Monitor.pushTick]
    exact hcap

theorem Monitor.run_of_capacity_ne_zero (calls : List MonitorCall) :
    ∀ m : Monitor, m.capacity ≠ 0 →
      ∃ m1 out, m.run calls = some (m1, out) ∧ m1.capacity = m.capacity := by
  induction calls with
  | nil => intro m _; exact ⟨m, [], rfl, rfl⟩
  | cons c rest ih =>
    intro m h
    have hcall : ∃ m1 out, m.call c = some (m1, out) ∧ m1.capacity = m.capacity := by
      cases c with
      | Sync t => exact ⟨_, _, rfl, rfl⟩
      | Hit => exact ⟨_, _, rfl, rfl⟩
      | Tick t => exact Monitor.Tick_of_capacity_ne_zero h t
    obtain ⟨m1, out1, hc, hcap1⟩ := hcall
    obtain ⟨m2, out2, hrun, hcap2⟩ := ih m1 (by rw [hcap1]; exact h)
    exact ⟨m2, out1 ++ out2, by simp [Monitor.run, hc, hrun], by rw [hcap2, hcap1]⟩

theorem Monitor.run_without_tick (pre : List MonitorCall) :
    ∀ m : Monitor, (∀ c ∈ pre, ∀ t, c ≠ MonitorCall.Tick t) →
      ∃ m1, m.run pre = some (m1, []) ∧ m1.queue = m.queue ∧ m1.capacity = m.capacity := by
  induction pre with
  | nil => intro m _; exact ⟨m, rfl, rfl, rfl⟩
  | cons c rest ih =>
    intro m h
    have hrest : ∀ c ∈ rest, ∀ t, c ≠ MonitorCall.Tick t :=
      fun c1 hc1 => h c1 (List.mem_cons_of_mem _ hc1)
    cases c with
    | Sync t =>
      obtain ⟨m1, hrun, hq, hcap⟩ := ih (m.Sync t) hrest
      exact ⟨m1, by simp [Monitor.run, Monitor.call, hrun], hq, hcap⟩
    | Hit =>
      obtain ⟨m1, hrun, hq, hcap⟩ := ih m.Hit hrest
      exact ⟨m1, by simp [Monitor.run, Monitor.call, hrun], hq, hcap⟩
    | Tick t => exact absurd rfl (h _ (List.mem_cons_self _ _) t)

theorem Monitor.run_append_none {a b : List MonitorCall} {m m1 : Monitor}
    {out1 : List AlertReport} (ha : m.run a = some (m1, out1)) (hb : m1.run b = none) :
    m.run (a ++ b) = none := by
  induction a generalizing m out1 with
  | nil =>
    simp only [Monitor.run, Option.some.injEq, Prod.mk.injEq] at ha
    obtain ⟨rfl, rfl⟩ := ha
    simpa using hb
  | cons c a ih =>
    simp only [Monitor.run] at ha
    cases hc : m.call c with
    | none => rw [hc] at ha; cases ha
    | some r1 =>
      obtain ⟨mc, outc⟩ := r1
      rw [hc] at ha
      simp only at ha
      cases hr : mc.run a with
      | none => rw [hr] at ha; cases ha
      | some r2 =>
        obtain ⟨m2, out2⟩ := r2
        rw [hr] at ha
        simp only [Option.some.injEq, Prod.mk.injEq] at ha
        obtain ⟨rfl, -⟩ := ha
        have := ih hr
        simp [Monitor.run, hc, this]

/-- C21: `Monitor.Tick` is safe exactly when the window length is not 0. For a monitor
built by `NewMonitor rps N` with `N ≠ 0` (in particular with `N ≥ 1`), every sequence of
`Sync`, `Hit` and `Tick` calls runs to its end, and in every state so reached a queue
whose length equals the capacity (the condition of the eviction branch) is not empty, so
that the eviction finds its front entry and `Tick` returns. With `N = 0`, after any calls
of `Sync` and `Hit` the first `Tick` finds the length of the empty queue equal to the
capacity, has no front entry and fails, and so does every sequence of calls that holds a
`Tick`. -/
theorem Monitor.Tick_safe (rps : Int) :
    (∀ N : Int, N ≠ 0 → ∀ calls : List MonitorCall,
      ∃ m out, (NewMonitor rps N).run calls = some (m, out) ∧
        ((m.queue.length : Int) = m.capacity → m.queue ≠ []) ∧
        (∃ m0, m.evict = some m0) ∧
        ∀ t, ∃ r, m.Tick t = some r) ∧
    (∀ pre : List MonitorCall, (∀ c ∈ pre, ∀ t, c ≠ MonitorCall.Tick t) →
      ∃ m, (NewMonitor rps 0).run pre = some (m, []) ∧
        m.queue = [] ∧ (m.queue.length : Int) = m.capacity ∧ m.evict = none ∧
        ∀ t, m.Tick t = none ∧
          ∀ rest, (NewMonitor rps 0).run (pre ++ MonitorCall.Tick t :: rest) = none) := by
  constructor
  · intro N hN calls
    obtain ⟨m, out, hrun, hcap⟩ :=
      Monitor.run_of_capacity_ne_zero calls (NewMonitor rps N) hN
    have hne : m.capacity ≠ 0 := by rw [hcap]; exact hN
    have hq : (m.queue.length : Int) = m.capacity → m.queue ≠ [] := by
      intro hfull hnil
      rw [hnil] at hfull
      simp only [List.length_nil, Nat.cast_zero] at hfull
      exact hne hfull.symm
    refine ⟨m, out, hrun, hq, ?_, ?_⟩
    · obtain ⟨m1, out1, htick, -⟩ := Monitor.Tick_of_capacity_ne_zero hne 0
      cases hev : m.evict with
      | none => simp [Monitor.Tick, hev] at htick
      | some m0 => exact ⟨m0, rfl⟩
    · intro t
      obtain ⟨m1, out1, htick, -⟩ := Monitor.Tick_of_capacity_ne_zero hne t
      exact ⟨_, htick⟩
  · intro pre hpre
    obtain ⟨m, hrun, hq, hcap⟩ := Monitor.run_without_tick pre (NewMonitor rps 0) hpre
    have hq0 : m.queue = [] := hq
    have hcap0 : m.capacity = 0 := hcap
    have hev : m.evict = none := by
      simp [Monitor.evict, hq0, hcap0]
    refine ⟨m, hrun, hq0, by simp [hq0, hcap0], hev, ?_⟩
    intro t
    have htick : m.Tick t = none := by simp [Monitor.Tick, hev]
    refine ⟨htick, ?_⟩
    intro rest
    refine Monitor.run_append_none hrun ?_
    simp [Monitor.run, Monitor.call, htick]


/-! ### Safety of `Stats.Hit` -/

theorem BTree.Get_Delete (t : BTree) (c : Int) : (t.Delete c).Get c = none := by
  cases hg : (t.Delete c).Get c with
  | none => rfl
  | some e =>
    obtain ⟨hmem, hc⟩ := BTree.Get_eq_some hg
    exact absurd hc (BTree.mem_Delete.1 hmem).2

theorem SectionSet.delete_eq_nil {sections : SectionSet} {key : String} :
    (sections.delete key).length = 0 ↔ ∀ k ∈ sections, k = key := by
  simp [SectionSet.delete, List.filter_eq_nil_iff]

/-- The first half of `Hit` on a section counted `c` times, in a state that satisfies the
invariant: the lookup finds the bucket of `c`, the section is in it, and the bucket is
deleted exactly when the section was its only member. -/
theorem StatsInv.leave_found {s : Stats} (h : StatsInv s) {key : String} {c : Int}
    (hk : s.hits key = some c) :
    ∃ item, s.topK.Get c = some item ∧ key ∈ item.sections ∧
      ∃ topK1, Stats.leaveBucket s.topK c key = some topK1 ∧
        (topK1.Get c = none ↔ ∀ k ∈ item.sections, k = key) ∧
        ((∃ k ∈ item.sections, k ≠ key) →
          topK1.Get c = some ⟨c, item.sections.delete key⟩) ∧
        (s.Hit key).map Stats.topK = some (Stats.joinBucket topK1 c key) := by
  obtain ⟨e, he, hec, hkey⟩ := h.complete key c hk
  have hget : s.topK.Get c = some e := by rw [← hec]; exact BTree.Get_of_mem h.ordered he
  have hmem : (⟨c, e.sections.delete key⟩ : TopKEntry)
      ∈ s.topK.setSections c (e.sections.delete key) :=
    BTree.mem_setSections.2 (Or.inr ⟨rfl, e, he, hec⟩)
  have hkept : (s.topK.setSections c (e.sections.delete key)).Get c
      = some ⟨c, e.sections.delete key⟩ :=
    BTree.Get_of_mem (h.ordered.setSections c _) hmem
  have hhit : ∀ topK1, Stats.leaveBucket s.topK c key = some topK1 →
      (s.Hit key).map Stats.topK = some (Stats.joinBucket topK1 c key) := by
    intro topK1 hleave
    simp [Stats.Hit, hk, hleave]
  refine ⟨e, hget, hkey, ?_⟩
  by_cases hlen : (e.sections.delete key).length = 0
  · have hleave : Stats.leaveBucket s.topK c key
        = some ((s.topK.setSections c (e.sections.delete key)).Delete c) := by
      simp only [Stats.leaveBucket, hget]
      rw [if_pos hlen]
    have hall := SectionSet.delete_eq_nil.1 hlen
    refine ⟨_, hleave, ?_, ?_, hhit _ hleave⟩
    · exact ⟨fun _ => hall, fun _ => BTree.Get_Delete _ c⟩
    · rintro ⟨k, hks, hne⟩
      exact absurd (hall k hks) hne
  · have hleave : Stats.leaveBucket s.topK c key
        = some (s.topK.setSections c (e.sections.delete key)) := by
      simp only [Stats.leaveBucket, hget]
      rw [if_neg hlen]
    have hnall : ¬ ∀ k ∈ e.sections, k = key := fun hall =>
      hlen (SectionSet.delete_eq_nil.2 hall)
    refine ⟨_, hleave, ?_, fun _ => hkept, hhit _ hleave⟩
    constructor
    · intro hnone
      rw [hkept] at hnone
      cases hnone
    · intro hall
      exact absurd hall hnall

/-- C22: `Stats.Hit` never fails on a reachable state. Every sequence of `Hit`, `Tick`,
`Sync` and `Clear` calls from `NewStats` runs to its end, and in the state `s` so reached,
for every section `key`: `Hit key` returns; and when `key` is already counted, with count
`c`, the lookup of the bucket of `c` returns a bucket `item` and `key` is in it, so the
use of the lookup result after the nil check does not fail; the tree after this first
half of `Hit` holds no bucket of `c` exactly when `key` was the only member of `item`
(otherwise it holds the bucket without `key`), and `Hit` goes on from this tree. On a
state that cannot be reached, whose count map holds a section that no bucket holds, `Hit`
does fail. -/
theorem Stats.Hit_safe (interval : Int) (calls : List StatsCall) :
    (∃ s out, (NewStats interval).run calls = some (s, out) ∧
      ∀ key : String,
        (∃ s1, s.Hit key = some s1) ∧
        ∀ c : Int, s.hits key = some c →
          ∃ item, s.topK.Get c = some item ∧ key ∈ item.sections ∧
            ∃ topK1, Stats.leaveBucket s.topK c key = some topK1 ∧
              (topK1.Get c = none ↔ ∀ k ∈ item.sections, k = key) ∧
              ((∃ k ∈ item.sections, k ≠ key) →
                topK1.Get c = some ⟨c, item.sections.delete key⟩) ∧
              (s.Hit key).map Stats.topK = some (Stats.joinBucket topK1 c key)) ∧
    (Stats.Hit ⟨fun _ => some 1, [], 0, interval, interval, defaultShowTopK⟩ "/api").isNone
      = true := by
  refine ⟨?_, rfl⟩
  obtain ⟨s, out, hrun, hinv⟩ := StatsInv.run_stats calls _ (StatsInv.init_stats interval)
  refine ⟨s, out, hrun, fun key => ⟨?_, fun c hk => hinv.leave_found hk⟩⟩
  obtain ⟨s1, hhit, -⟩ := hinv.Hit key
  exact ⟨s1, hhit⟩

end HttpLogMonitor
